import Mathlib

/-! LestaSpbTestContest: the two ring-buffer deques and the two sorting routines.

A shallow embedding of `array_ptr.h`, `dynamic_ring_buffer_deque.h`,
`static_ring_buffer_deque.h`, `in_place_quick_sort.h` and `merge_sort.h`.

Conventions of the embedding

* `size_t` is the 64-bit unsigned type: its values are naturals below `2 ^ 64`
  and every `+`, `-`, `*` of the source on `size_t` is written with the
  wrapping operations of the namespace `size_t`.  `int` is the 32-bit signed
  type.
* A call of a member function ends in one of three ways, see `Outcome`:
  it returns, it throws (the object keeps the state it had when the exception
  left the call), or it runs into undefined behaviour (a `%` with a zero
  divisor, an access outside an array).
* `new Type[size]{}` yields `size` value-initialised elements; an array can
  never have more than `PTRDIFF_MAX` elements, a larger request throws
  `std::bad_alloc`.  Requests up to that bound are taken to succeed.
* A cursor `BasicIterator` is modelled by its `index_`; its `deque_` pointer
  is `this` in every state built by the default constructor, the sized
  constructor and the member functions of `Call`.
* `BasicIterator::swap(const BasicIterator& rhs)` calls `std::swap` on the
  members of `rhs`, which are const there: the function is ill-formed, and
  `DynamicRingBufferDeque::swap`, `CopyAndSwapFromIteratorRange`, the
  initializer-list, copy and move constructors and both assignments, which
  all end in it, cannot be instantiated.  They have no behaviour and are not
  embedded.
-/

/-! ## Machine integers -/

namespace size_t

/-- Addition of two `size_t` values. -/
def add (a b : Nat) : Nat := (a + b) % 2 ^ 64

/-- Subtraction of two `size_t` values. -/
def sub (a b : Nat) : Nat := (a + (2 ^ 64 - b % 2 ^ 64)) % 2 ^ 64

/-- Multiplication of two `size_t` values. -/
def mul (a b : Nat) : Nat := (a * b) % 2 ^ 64

/-- The operator `%` on `size_t`: undefined for a zero divisor. -/
def mod (a b : Nat) : Option Nat := if b = 0 then none else some (a % b)

end size_t

/-- The largest value of `size_t`. -/
def SIZE_MAX : Nat := 2 ^ 64 - 1

/-- The largest value of `ptrdiff_t`, the bound on the length of any array. -/
def PTRDIFF_MAX : Nat := 2 ^ 63 - 1

/-- The exceptions thrown by the containers. -/
inductive Exception where
  | out_of_range
  | overflow_error
  | bad_alloc
deriving DecidableEq, Repr

/-- How a call of a member function on an object of state `σ` ends. -/
inductive Outcome (σ β : Type) where
  | returns (value : β) (state : σ)
  | throws (e : Exception) (state : σ)
  | undefined
deriving DecidableEq, Repr

/-- The state of the object after the call, when the call has a defined end. -/
def Outcome.state? {σ β : Type} : Outcome σ β → Option σ
  | .returns _ s => some s
  | .throws _ s => some s
  | .undefined => none

/-! ## array_ptr.h -/

namespace array_ptr

/-- The array owned by an `ArrayPtr<Type>`: `[]` stands for `nullptr`. -/
abbrev ArrayPtr (α : Type) := List α

/-- `explicit ArrayPtr(size_t size)`: `new Type[size]{}` for a positive size,
`nullptr` for size 0; `none` stands for `std::bad_alloc`. -/
def ArrayPtr.construct {α : Type} [Inhabited α] (size : Nat) : Option (ArrayPtr α) :=
  if size = 0 then some []
  else if size ≤ PTRDIFF_MAX then some (List.replicate size default)
  else none

end array_ptr

/-! ## dynamic_ring_buffer_deque.h -/

namespace dynamic_ring_buffer_deque

/-- The cursor `BasicIterator`: the index of a slot of the buffer. -/
structure BasicIterator where
  index_ : Nat := 0
deriving DecidableEq, Repr

/-- `operator ++`: `index_ = (index_ + 1u) % deque_->buff_size_`. -/
def BasicIterator.increment (buff_size_ : Nat) (it : BasicIterator) : Option BasicIterator :=
  (size_t.mod (size_t.add it.index_ 1) buff_size_).map BasicIterator.mk

/-- `operator --`: `index_ = (index_ + (deque_->buff_size_ - 1)) % deque_->buff_size_`. -/
def BasicIterator.decrement (buff_size_ : Nat) (it : BasicIterator) : Option BasicIterator :=
  (size_t.mod (size_t.add it.index_ (size_t.sub buff_size_ 1)) buff_size_).map BasicIterator.mk

/-- The fields of `DynamicRingBufferDeque<Type>`, with the values the default
constructor gives them. -/
structure DynamicRingBufferDeque (α : Type) where
  buff_ : array_ptr.ArrayPtr α := []
  size_ : Nat := 0
  capacity_ : Nat := 0
  buff_size_ : Nat := 0
  begin_ : BasicIterator := ⟨0⟩
  end_ : BasicIterator := ⟨0⟩
deriving DecidableEq, Repr

variable {α : Type}

/-- `operator *` of a cursor of the deque `d`: `deque_->buff_[index_]`. -/
def DynamicRingBufferDeque.deref (d : DynamicRingBufferDeque α) (it : BasicIterator) : Option α :=
  d.buff_[it.index_]?

/-- The loop of `std::move(first, last, d_first)` over cursors of the deque `d`:
`for (; first != last; ++d_first, ++first) *d_first = std::move(*first);`.
The destination is the array `out`, written from position `k` on; `fuel` is the
number of slots of `out` that are left, a write beyond them is undefined. -/
def std_move (d : DynamicRingBufferDeque α) :
    Nat → BasicIterator → BasicIterator → List α → Nat → Option (List α)
  | 0, first, last, out, _ => if first = last then some out else none
  | fuel + 1, first, last, out, k =>
    if first = last then some out
    else
      match d.deref first with
      | none => none
      | some x =>
        if k < out.length then
          match first.increment d.buff_size_ with
          | none => none
          | some next => std_move d fuel next last (out.set k x) (k + 1)
        else none

/-- `void reserve(size_t new_capacity)`. -/
def DynamicRingBufferDeque.reserve [Inhabited α] (d : DynamicRingBufferDeque α)
    (new_capacity : Nat) : Outcome (DynamicRingBufferDeque α) Unit :=
  if new_capacity > d.capacity_ then
    match array_ptr.ArrayPtr.construct (size_t.add new_capacity 1) with
    | none => .throws .bad_alloc d
    | some tmp_buff_ =>
      match std_move d tmp_buff_.length d.begin_ d.end_ tmp_buff_ 0 with
      | none => .undefined
      | some moved =>
        .returns () { buff_ := moved
                      size_ := d.size_
                      capacity_ := new_capacity
                      buff_size_ := size_t.add new_capacity 1
                      begin_ := ⟨0⟩
                      end_ := ⟨d.size_⟩ }
  else .returns () d

/-- `void clear()`. -/
def DynamicRingBufferDeque.clear (d : DynamicRingBufferDeque α) :
    Outcome (DynamicRingBufferDeque α) Unit :=
  .returns () { d with size_ := 0, begin_ := ⟨0⟩, end_ := ⟨0⟩ }

/-- `size_t size() const`. -/
def DynamicRingBufferDeque.size (d : DynamicRingBufferDeque α) : Nat := d.size_

/-- `bool empty() const`. -/
def DynamicRingBufferDeque.empty (d : DynamicRingBufferDeque α) : Bool := d.size_ == 0

/-- `void reserve_if_not_enough()`. -/
def DynamicRingBufferDeque.reserve_if_not_enough [Inhabited α] (d : DynamicRingBufferDeque α) :
    Outcome (DynamicRingBufferDeque α) Unit :=
  if d.size_ = d.capacity_ then
    let new_capacity := if d.capacity_ ≠ 0 then size_t.mul d.capacity_ 2 else 1
    d.reserve new_capacity
  else .returns () d

/-- `void push_back(const Type& lvalue)`: after `reserve_if_not_enough()`,
`*(end_++) = lvalue; ++size_;`. -/
def DynamicRingBufferDeque.push_back [Inhabited α] (d : DynamicRingBufferDeque α) (lvalue : α) :
    Outcome (DynamicRingBufferDeque α) Unit :=
  match d.reserve_if_not_enough with
  | .undefined => .undefined
  | .throws e s => .throws e s
  | .returns _ d1 =>
    match d1.end_.increment d1.buff_size_ with
    | none => .undefined
    | some next =>
      if d1.end_.index_ < d1.buff_.length then
        .returns () { d1 with buff_ := d1.buff_.set d1.end_.index_ lvalue
                              end_ := next
                              size_ := size_t.add d1.size_ 1 }
      else .undefined

/-- `void push_front(const Type& lvalue)`: after `reserve_if_not_enough()`,
`*(--begin_) = lvalue; ++size_;`. -/
def DynamicRingBufferDeque.push_front [Inhabited α] (d : DynamicRingBufferDeque α) (lvalue : α) :
    Outcome (DynamicRingBufferDeque α) Unit :=
  match d.reserve_if_not_enough with
  | .undefined => .undefined
  | .throws e s => .throws e s
  | .returns _ d1 =>
    match d1.begin_.decrement d1.buff_size_ with
    | none => .undefined
    | some prev =>
      if prev.index_ < d1.buff_.length then
        .returns () { d1 with buff_ := d1.buff_.set prev.index_ lvalue
                              begin_ := prev
                              size_ := size_t.add d1.size_ 1 }
      else .undefined

/-- `Type pop_back()`: `if (empty()) throw out_of_range; --size_; return *(--end_);`. -/
def DynamicRingBufferDeque.pop_back (d : DynamicRingBufferDeque α) :
    Outcome (DynamicRingBufferDeque α) α :=
  if d.empty then .throws .out_of_range d
  else
    match d.end_.decrement d.buff_size_ with
    | none => .undefined
    | some prev =>
      let d1 := { d with size_ := size_t.sub d.size_ 1, end_ := prev }
      match d1.deref prev with
      | none => .undefined
      | some x => .returns x d1

/-- `Type pop_front()`: `if (empty()) throw out_of_range; --size_; return *(begin_++);`. -/
def DynamicRingBufferDeque.pop_front (d : DynamicRingBufferDeque α) :
    Outcome (DynamicRingBufferDeque α) α :=
  if d.empty then .throws .out_of_range d
  else
    match d.begin_.increment d.buff_size_ with
    | none => .undefined
    | some next =>
      let d1 := { d with size_ := size_t.sub d.size_ 1, begin_ := next }
      match d1.deref d.begin_ with
      | none => .undefined
      | some x => .returns x d1

/-- `Type& operator [] (size_t index)`:
`if (index < 0u || index >= size_) throw out_of_range;`
`return buff_[(begin_.index_ + index) % buff_size_];`.
The reference returned is given as the index of the slot together with the
value the slot holds. -/
def DynamicRingBufferDeque.subscript (d : DynamicRingBufferDeque α) (index : Nat) :
    Outcome (DynamicRingBufferDeque α) (Nat × α) :=
  if index < 0 ∨ index ≥ d.size_ then .throws .out_of_range d
  else
    match size_t.mod (size_t.add d.begin_.index_ index) d.buff_size_ with
    | none => .undefined
    | some slot =>
      match d.buff_[slot]? with
      | none => .undefined
      | some x => .returns (slot, x) d

/-- The logical sequence of the deque: the elements
`buff_[(begin_.index_ + i) mod buff_size_]` for `i = 0 .. size_ - 1`. -/
def DynamicRingBufferDeque.logical [Inhabited α] (d : DynamicRingBufferDeque α) : List α :=
  (List.range d.size_).map fun i => d.buff_.getD ((d.begin_.index_ + i) % d.buff_size_) default

/-- A call of one of the mutating member functions. -/
inductive Call (α : Type) where
  | push_back (v : α)
  | push_front (v : α)
  | pop_back
  | pop_front
  | reserve (n : Nat)
  | clear
deriving DecidableEq

/-- The arguments of the call are values of their C++ types: the argument of
`reserve` is a `size_t`. -/
def Call.typed : Call α → Prop
  | .reserve n => n < 2 ^ 64
  | _ => True

/-- The call performed on the deque `d`; a popped value is returned as `some`. -/
def Call.run [Inhabited α] (c : Call α) (d : DynamicRingBufferDeque α) :
    Outcome (DynamicRingBufferDeque α) (Option α) :=
  match c with
  | .push_back v =>
    match d.push_back v with
    | .returns _ s => .returns none s
    | .throws e s => .throws e s
    | .undefined => .undefined
  | .push_front v =>
    match d.push_front v with
    | .returns _ s => .returns none s
    | .throws e s => .throws e s
    | .undefined => .undefined
  | .pop_back =>
    match d.pop_back with
    | .returns x s => .returns (some x) s
    | .throws e s => .throws e s
    | .undefined => .undefined
  | .pop_front =>
    match d.pop_front with
    | .returns x s => .returns (some x) s
    | .throws e s => .throws e s
    | .undefined => .undefined
  | .reserve n =>
    match d.reserve n with
    | .returns _ s => .returns none s
    | .throws e s => .throws e s
    | .undefined => .undefined
  | .clear =>
    match d.clear with
    | .returns _ s => .returns none s
    | .throws e s => .throws e s
    | .undefined => .undefined

/-- The states a deque can be in: the one left by the default constructor and
every state in which a call on a reachable state leaves the object, whether the
call returned or threw. -/
inductive Reachable [Inhabited α] : DynamicRingBufferDeque α → Prop where
  | default_constructed : Reachable {}
  | call (c : Call α) (d d1 : DynamicRingBufferDeque α) :
      Reachable d → c.typed → (c.run d).state? = some d1 → Reachable d1

/-- What a call that returns does to the sequence of elements, as the
specification describes the operations on the conceptual flat sequence. -/
def Call.effect (c : Call α) (xs : List α) : List α :=
  match c with
  | .push_back v => xs ++ [v]
  | .push_front v => v :: xs
  | .pop_back => xs.dropLast
  | .pop_front => xs.tail
  | .reserve _ => xs
  | .clear => []

/-- `History d xs`: the deque `d` is reached from the default constructor by
calls, and `xs` is the sequence of elements these calls have built in insertion
order: a call that returns has its `effect`, a call that throws has none. -/
inductive History [Inhabited α] : DynamicRingBufferDeque α → List α → Prop where
  | default_constructed : History {} []
  | returns (c : Call α) (d d1 : DynamicRingBufferDeque α) (xs : List α) (r : Option α) :
      History d xs → c.typed → c.run d = .returns r d1 → History d1 (c.effect xs)
  | throws (c : Call α) (d d1 : DynamicRingBufferDeque α) (xs : List α) (e : Exception) :
      History d xs → c.typed → c.run d = .throws e d1 → History d1 xs

/-- The state of a deque that owns an allocated buffer of `capacity_ + 1` slots. -/
structure WellFormed (d : DynamicRingBufferDeque α) : Prop where
  buff_size_eq : d.buff_size_ = d.capacity_ + 1
  length_eq : d.buff_.length = d.buff_size_
  bound : d.buff_size_ ≤ PTRDIFF_MAX
  size_le : d.size_ ≤ d.capacity_
  begin_lt : d.begin_.index_ < d.buff_size_
  end_eq : d.end_.index_ = (d.begin_.index_ + d.size_) % d.buff_size_

/-- The state of a deque without a buffer: the state the default constructor
leaves, or that state with `capacity_` raised to `SIZE_MAX`. -/
structure Unallocated (d : DynamicRingBufferDeque α) : Prop where
  buff_eq : d.buff_ = []
  size_eq : d.size_ = 0
  buff_size_eq : d.buff_size_ = 0
  begin_eq : d.begin_ = ⟨0⟩
  end_eq : d.end_ = ⟨0⟩
  capacity_eq : d.capacity_ = 0 ∨ d.capacity_ = SIZE_MAX

/-- The growth policy as the specification words it: the capacity after a push is
doubled when the deque was full, 1 when the capacity was 0, unchanged when there
was room. -/
def grown_capacity (d : DynamicRingBufferDeque α) : Nat :=
  if d.size_ = d.capacity_ then (if d.capacity_ = 0 then 1 else 2 * d.capacity_)
  else d.capacity_

/-- The deque after `push_back(3); push_front(2)` on a default-constructed
`DynamicRingBufferDeque<int>`: its data wraps around the end of the buffer. -/
def wrapped_example : DynamicRingBufferDeque Int :=
  { buff_ := [3, 0, 2], size_ := 2, capacity_ := 2, buff_size_ := 3,
    begin_ := ⟨2⟩, end_ := ⟨1⟩ }

/-- The deque after `push_back(1)` on a default-constructed `DynamicRingBufferDeque<int>`. -/
def single_example : DynamicRingBufferDeque Int :=
  { buff_ := [1, 0], size_ := 1, capacity_ := 1, buff_size_ := 2,
    begin_ := ⟨0⟩, end_ := ⟨1⟩ }

/-- The deque after `reserve(SIZE_MAX)` on a default-constructed
`DynamicRingBufferDeque<int>`. -/
def size_max_example : DynamicRingBufferDeque Int :=
  { capacity_ := SIZE_MAX }

end dynamic_ring_buffer_deque

/-! ## dynamic_ring_buffer_deque.h: sequences of calls and iteration -/

namespace dynamic_ring_buffer_deque

variable {α : Type}

/-- What the caller of a member function observes: the value returned (`some` for
a pop, `none` for a function returning `void`) or the exception thrown. -/
inductive Observation (α : Type) where
  | returned (value : Option α)
  | threw (e : Exception)
deriving DecidableEq, Repr

/-- One call of a sequence of calls: the state before it, the call, what the
caller observes and the state after it. -/
structure Step (α : Type) where
  before : DynamicRingBufferDeque α
  call : Call α
  observation : Observation α
  after : DynamicRingBufferDeque α
deriving DecidableEq

/-- The call `c` on the deque `d` as a step; `none` when its behaviour is
undefined. -/
def Call.step [Inhabited α] (c : Call α) (d : DynamicRingBufferDeque α) : Option (Step α) :=
  match c.run d with
  | .returns r s => some ⟨d, c, .returned r, s⟩
  | .throws e s => some ⟨d, c, .threw e, s⟩
  | .undefined => none

/-- The state after the steps `steps` performed from the state `d`. -/
def final (steps : List (Step α)) (d : DynamicRingBufferDeque α) : DynamicRingBufferDeque α :=
  match steps.getLast? with
  | some s => s.after
  | none => d

/-- The calls `calls` performed one after the other from the state `d`, a call
that throws being caught by the caller; `none` when one of them has undefined
behaviour. -/
def perform [Inhabited α] :
    List (Call α) → DynamicRingBufferDeque α → Option (List (Step α))
  | [], _ => some []
  | c :: calls, d =>
    match c.step d with
    | none => none
    | some s =>
      match perform calls s.after with
      | none => none
      | some rest => some (s :: rest)

/-- The call is `push_back` or `push_front`. -/
def Call.is_push : Call α → Bool
  | .push_back _ => true
  | .push_front _ => true
  | _ => false

/-- The call is `pop_back` or `pop_front`. -/
def Call.is_pop : Call α → Bool
  | .pop_back => true
  | .pop_front => true
  | _ => false

/-- The call of the step returned. -/
def Step.returned (s : Step α) : Bool :=
  match s.observation with
  | .returned _ => true
  | .threw _ => false

/-- The number of pushes among the steps that returned. -/
def pushes (steps : List (Step α)) : Nat :=
  steps.countP fun s => s.call.is_push && s.returned

/-- The number of pops among the steps that did not fail. -/
def pops (steps : List (Step α)) : Nat :=
  steps.countP fun s => s.call.is_pop && s.returned

/-- The values of `values` pushed in this order with `push_back`, then as many
calls of `pop_back`. -/
def lifo_calls (values : List α) : List (Call α) :=
  values.map .push_back ++ List.replicate values.length .pop_back

/-- The values of `values` pushed in this order with `push_back`, then as many
calls of `pop_front`. -/
def fifo_back_calls (values : List α) : List (Call α) :=
  values.map .push_back ++ List.replicate values.length .pop_front

/-- The values of `values` pushed in this order with `push_front`, then as many
calls of `pop_back`. -/
def fifo_front_calls (values : List α) : List (Call α) :=
  values.map .push_front ++ List.replicate values.length .pop_back

/-- The calls of `main.cpp` on its `DynamicRingBufferDeque<int>`, up to the first
assertion after the pops. -/
def main_calls : List (Call Int) :=
  [.push_back 3, .push_front 2, .push_back 4, .push_front 1, .push_back 5, .pop_front,
    .pop_back]

/-- The cursor after `n` times `++it`, for a cursor of the deque `d`. -/
def DynamicRingBufferDeque.advance (d : DynamicRingBufferDeque α) :
    Nat → BasicIterator → Option BasicIterator
  | 0, it => some it
  | n + 1, it =>
    match it.increment d.buff_size_ with
    | none => none
    | some next => d.advance n next

/-- The values `*it` met by the loop `for (it = first; it != last; ++it)` over
cursors of the deque `d`.  A cursor has at most `buff_size_` positions: a loop
that has not ended after `fuel = buff_size_` rounds never ends (`none`, as for
undefined behaviour). -/
def DynamicRingBufferDeque.range_values (d : DynamicRingBufferDeque α) :
    Nat → BasicIterator → BasicIterator → Option (List α)
  | 0, first, last => if first = last then some [] else none
  | fuel + 1, first, last =>
    if first = last then some []
    else
      match d.deref first with
      | none => none
      | some x =>
        match first.increment d.buff_size_ with
        | none => none
        | some next => (d.range_values fuel next last).map (x :: ·)

/-- `std::accumulate(first, last, init)` over cursors of the deque `d`:
`for (; first != last; ++first) init = init + *first; return init;`, with the
`fuel` of `range_values`. -/
def std_accumulate [Add α] (d : DynamicRingBufferDeque α) :
    Nat → BasicIterator → BasicIterator → α → Option α
  | 0, first, last, init => if first = last then some init else none
  | fuel + 1, first, last, init =>
    if first = last then some init
    else
      match d.deref first with
      | none => none
      | some x =>
        match first.increment d.buff_size_ with
        | none => none
        | some next => std_accumulate d fuel next last (init + x)

/-- `std::distance(first, last)` for cursors of the deque `d`, which are not
random-access iterators: the number of `++first` until `first == last`, with the
`fuel` of `range_values`. -/
def std_distance (d : DynamicRingBufferDeque α) :
    Nat → BasicIterator → BasicIterator → Option Nat
  | 0, first, last => if first = last then some 0 else none
  | fuel + 1, first, last =>
    if first = last then some 0
    else
      match first.increment d.buff_size_ with
      | none => none
      | some next => (std_distance d fuel next last).map (· + 1)

/-- The states in which every push and pop has defined behaviour: the deque owns
a buffer, or it is as the default constructor leaves it. -/
def Usable (d : DynamicRingBufferDeque α) : Prop :=
  WellFormed d ∨ (Unallocated d ∧ d.capacity_ = 0)

end dynamic_ring_buffer_deque

/-! ## dynamic_ring_buffer_deque.h: the default and the sized constructor -/

namespace dynamic_ring_buffer_deque

variable {α : Type}

/-- A `DynamicRingBufferDeque<Type>` object in memory: its address `this`, its
fields, and the `deque_` pointers of its cursors `begin_` and `end_`, which are
addresses of deque objects. -/
structure DequeObject (α : Type) where
  this : Nat
  fields : DynamicRingBufferDeque α
  begin_deque_ : Nat
  end_deque_ : Nat
deriving DecidableEq, Repr

/-- `explicit DynamicRingBufferDeque() = default`, for the object at `address`:
the default member initialisers, `begin_ = Iterator(this, 0u)` and
`end_ = Iterator(this, 0u)` among them. -/
def DequeObject.default_constructed (address : Nat) : DequeObject α :=
  { this := address, fields := {}, begin_deque_ := address, end_deque_ := address }

/-- `explicit DynamicRingBufferDeque(size_t size)`, for the object at `address`:
`buff_(ArrayPtr<Type>(size + 1)), size_(size), capacity_(size),`
`buff_size_(size + 1), begin_(Iterator(this, 0u)), end_(Iterator(this, size))`;
`none` stands for `std::bad_alloc`. -/
def DequeObject.sized [Inhabited α] (address size : Nat) : Option (DequeObject α) :=
  match array_ptr.ArrayPtr.construct (size_t.add size 1) with
  | none => none
  | some buff =>
    some { this := address
           fields := { buff_ := buff
                       size_ := size
                       capacity_ := size
                       buff_size_ := size_t.add size 1
                       begin_ := ⟨0⟩
                       end_ := ⟨size⟩ }
           begin_deque_ := address
           end_deque_ := address }

end dynamic_ring_buffer_deque

/-! ## static_ring_buffer_deque.h

The capacity `capacity_` is a template parameter of the class: it is a parameter
of the type of the state.  `std::array<Type, capacity_>` is an array, so
`capacity_` is at most `PTRDIFF_MAX` in every instance of the template. -/

namespace static_ring_buffer_deque

open dynamic_ring_buffer_deque (Observation)

variable {α : Type} {capacity_ : Nat}

/-- The fields of `StaticRingBufferDeque<Type, capacity_>`. -/
structure StaticRingBufferDeque (α : Type) (capacity_ : Nat) where
  buff_ : List α
  size_ : Nat := 0
  head_index_ : Nat := 0
deriving DecidableEq, Repr

/-- `explicit StaticRingBufferDeque() = default`: `buff_ = {}` value-initialises
the `capacity_` elements of the array. -/
def StaticRingBufferDeque.default_constructed [Inhabited α] (capacity_ : Nat) :
    StaticRingBufferDeque α capacity_ :=
  { buff_ := List.replicate capacity_ default, size_ := 0, head_index_ := 0 }

/-- `size_t increment_cycle(size_t pos) const`: `(pos + 1u) % capacity_`. -/
def increment_cycle (capacity_ pos : Nat) : Option Nat :=
  size_t.mod (size_t.add pos 1) capacity_

/-- `size_t decrement_cycle(size_t pos) const`: `(pos + (capacity_ - 1)) % capacity_`. -/
def decrement_cycle (capacity_ pos : Nat) : Option Nat :=
  size_t.mod (size_t.add pos (size_t.sub capacity_ 1)) capacity_

/-- `size_t size() const`. -/
def StaticRingBufferDeque.size (d : StaticRingBufferDeque α capacity_) : Nat := d.size_

/-- `bool is_empty() const`. -/
def StaticRingBufferDeque.is_empty (d : StaticRingBufferDeque α capacity_) : Bool :=
  d.size_ == 0

/-- `bool is_capacity_enough() const`: `size_ != capacity_`. -/
def StaticRingBufferDeque.is_capacity_enough (d : StaticRingBufferDeque α capacity_) : Bool :=
  d.size_ != capacity_

/-- `void push_back(const Type& lvalue)`:
`if (!is_capacity_enough()) throw overflow_error;`
`buff_[(head_index_ + size_) % capacity_] = lvalue; ++size_;`. -/
def StaticRingBufferDeque.push_back (d : StaticRingBufferDeque α capacity_) (lvalue : α) :
    Outcome (StaticRingBufferDeque α capacity_) Unit :=
  if !d.is_capacity_enough then .throws .overflow_error d
  else
    match size_t.mod (size_t.add d.head_index_ d.size_) capacity_ with
    | none => .undefined
    | some slot =>
      if slot < d.buff_.length then
        .returns () { d with buff_ := d.buff_.set slot lvalue, size_ := size_t.add d.size_ 1 }
      else .undefined

/-- `void push_front(const Type& lvalue)`:
`if (!is_capacity_enough()) throw overflow_error;`
`head_index_ = decrement_cycle(head_index_); buff_[head_index_] = lvalue; ++size_;`. -/
def StaticRingBufferDeque.push_front (d : StaticRingBufferDeque α capacity_) (lvalue : α) :
    Outcome (StaticRingBufferDeque α capacity_) Unit :=
  if !d.is_capacity_enough then .throws .overflow_error d
  else
    match decrement_cycle capacity_ d.head_index_ with
    | none => .undefined
    | some head =>
      if head < d.buff_.length then
        .returns () { buff_ := d.buff_.set head lvalue
                      head_index_ := head
                      size_ := size_t.add d.size_ 1 }
      else .undefined

/-- `Type pop_back()`: `if (is_empty()) throw out_of_range;`
`--size_; return buff_[(head_index_ + size_) % capacity_];`. -/
def StaticRingBufferDeque.pop_back (d : StaticRingBufferDeque α capacity_) :
    Outcome (StaticRingBufferDeque α capacity_) α :=
  if d.is_empty then .throws .out_of_range d
  else
    let d1 : StaticRingBufferDeque α capacity_ := { d with size_ := size_t.sub d.size_ 1 }
    match size_t.mod (size_t.add d1.head_index_ d1.size_) capacity_ with
    | none => .undefined
    | some slot =>
      match d1.buff_[slot]? with
      | none => .undefined
      | some x => .returns x d1

/-- `Type pop_front()`: `if (is_empty()) throw out_of_range;`
`Type value = buff_[head_index_]; head_index_ = increment_cycle(head_index_);`
`--size_; return value;`. -/
def StaticRingBufferDeque.pop_front (d : StaticRingBufferDeque α capacity_) :
    Outcome (StaticRingBufferDeque α capacity_) α :=
  if d.is_empty then .throws .out_of_range d
  else
    match d.buff_[d.head_index_]? with
    | none => .undefined
    | some value =>
      match increment_cycle capacity_ d.head_index_ with
      | none => .undefined
      | some head =>
        .returns value { d with head_index_ := head, size_ := size_t.sub d.size_ 1 }

/-- `Type& operator [] (size_t index)`:
`if (index < 0u || index >= size_) throw out_of_range;`
`return buff_[(head_index_ + index) % capacity_];`.
The reference returned is given as the index of the slot together with the
value the slot holds. -/
def StaticRingBufferDeque.subscript (d : StaticRingBufferDeque α capacity_) (index : Nat) :
    Outcome (StaticRingBufferDeque α capacity_) (Nat × α) :=
  if index < 0 ∨ index ≥ d.size_ then .throws .out_of_range d
  else
    match size_t.mod (size_t.add d.head_index_ index) capacity_ with
    | none => .undefined
    | some slot =>
      match d.buff_[slot]? with
      | none => .undefined
      | some x => .returns (slot, x) d

/-- The logical sequence of the deque: the elements
`buff_[(head_index_ + i) mod capacity_]` for `i = 0 .. size_ - 1`. -/
def StaticRingBufferDeque.logical [Inhabited α] (d : StaticRingBufferDeque α capacity_) :
    List α :=
  (List.range d.size_).map fun i => d.buff_.getD ((d.head_index_ + i) % capacity_) default

/-- A call of one of the member functions the two deques share. -/
inductive Access (α : Type) where
  | push_back (v : α)
  | push_front (v : α)
  | pop_back
  | pop_front
  | subscript (index : Nat)
deriving DecidableEq, Repr

/-- The arguments of the call are values of their C++ types: the index of
`operator[]` is a `size_t`. -/
def Access.typed : Access α → Prop
  | .subscript index => index < 2 ^ 64
  | _ => True

/-- The call is `push_back` or `push_front`. -/
def Access.is_push : Access α → Bool
  | .push_back _ => true
  | .push_front _ => true
  | _ => false

/-- The call performed on the fixed-capacity deque `d`; a popped or indexed value
is returned as `some`. -/
def Access.run (c : Access α) (d : StaticRingBufferDeque α capacity_) :
    Outcome (StaticRingBufferDeque α capacity_) (Option α) :=
  match c with
  | .push_back v =>
    match d.push_back v with
    | .returns _ s => .returns none s
    | .throws e s => .throws e s
    | .undefined => .undefined
  | .push_front v =>
    match d.push_front v with
    | .returns _ s => .returns none s
    | .throws e s => .throws e s
    | .undefined => .undefined
  | .pop_back =>
    match d.pop_back with
    | .returns x s => .returns (some x) s
    | .throws e s => .throws e s
    | .undefined => .undefined
  | .pop_front =>
    match d.pop_front with
    | .returns x s => .returns (some x) s
    | .throws e s => .throws e s
    | .undefined => .undefined
  | .subscript index =>
    match d.subscript index with
    | .returns x s => .returns (some x.2) s
    | .throws e s => .throws e s
    | .undefined => .undefined

/-- The call performed on the growable deque `d`. -/
def Access.run_dynamic [Inhabited α] (c : Access α)
    (d : dynamic_ring_buffer_deque.DynamicRingBufferDeque α) :
    Outcome (dynamic_ring_buffer_deque.DynamicRingBufferDeque α) (Option α) :=
  match c with
  | .push_back v =>
    match d.push_back v with
    | .returns _ s => .returns none s
    | .throws e s => .throws e s
    | .undefined => .undefined
  | .push_front v =>
    match d.push_front v with
    | .returns _ s => .returns none s
    | .throws e s => .throws e s
    | .undefined => .undefined
  | .pop_back =>
    match d.pop_back with
    | .returns x s => .returns (some x) s
    | .throws e s => .throws e s
    | .undefined => .undefined
  | .pop_front =>
    match d.pop_front with
    | .returns x s => .returns (some x) s
    | .throws e s => .throws e s
    | .undefined => .undefined
  | .subscript index =>
    match d.subscript index with
    | .returns x s => .returns (some x.2) s
    | .throws e s => .throws e s
    | .undefined => .undefined

/-- One call of a sequence of calls on a deque of state type `σ`: the state
before it, the call, what the caller observes and the state after it. -/
structure Event (σ α : Type) where
  before : σ
  call : Access α
  observation : Observation α
  after : σ

/-- The calls performed one after the other from the state `d` with the function
`run`, a call that throws being caught by the caller; `none` when one of them has
undefined behaviour. -/
def trace {σ : Type} (run : Access α → σ → Outcome σ (Option α)) :
    List (Access α) → σ → Option (List (Event σ α))
  | [], _ => some []
  | c :: calls, d =>
    match run c d with
    | .undefined => none
    | .returns r s =>
      match trace run calls s with
      | none => none
      | some rest => some (⟨d, c, .returned r, s⟩ :: rest)
    | .throws e s =>
      match trace run calls s with
      | none => none
      | some rest => some (⟨d, c, .threw e, s⟩ :: rest)

/-- The states a fixed-capacity deque can be in: the one left by the default
constructor and every state in which a call on a reachable state leaves the
object, whether the call returned or threw. -/
inductive Reachable [Inhabited α] : StaticRingBufferDeque α capacity_ → Prop where
  | default_constructed : Reachable (StaticRingBufferDeque.default_constructed capacity_)
  | call (c : Access α) (d d1 : StaticRingBufferDeque α capacity_) :
      Reachable d → c.typed → (c.run d).state? = some d1 → Reachable d1

/-- The state of a fixed-capacity deque built by calls: the array has its
`capacity_` elements, the size is at most the capacity and the head is a slot of
the array, slot 0 when the array has none. -/
structure WellFormed (d : StaticRingBufferDeque α capacity_) : Prop where
  length_eq : d.buff_.length = capacity_
  size_le : d.size_ ≤ capacity_
  head_lt : d.head_index_ < capacity_ ∨ (capacity_ = 0 ∧ d.head_index_ = 0)

/-- What a call does on the conceptual flat sequence of the specification, the
deque having room for a push: what the caller observes and the sequence after
the call. -/
def Access.on_sequence (c : Access α) (xs : List α) : Observation α × List α :=
  match c with
  | .push_back v => (.returned none, xs ++ [v])
  | .push_front v => (.returned none, v :: xs)
  | .pop_back =>
    match xs.getLast? with
    | none => (.threw .out_of_range, xs)
    | some x => (.returned (some x), xs.dropLast)
  | .pop_front =>
    match xs with
    | [] => (.threw .out_of_range, xs)
    | x :: rest => (.returned (some x), rest)
  | .subscript index =>
    match xs[index]? with
    | none => (.threw .out_of_range, xs)
    | some x => (.returned (some x), xs)

/-- The calls of `main.cpp` on its `StaticRingBufferDeque<int, 5>`, up to the
second time the deque is full. -/
def main_calls : List (Access Int) :=
  [.pop_back, .push_front 3, .push_back 4, .push_front 2, .push_back 5, .push_front 1,
    .subscript 0, .subscript 4, .pop_back, .pop_front, .subscript 0, .push_front (-1),
    .push_back (-5)]

/-- The `StaticRingBufferDeque<int, 5>` of `main.cpp` after these calls: it holds
`-1, 2, 3, 4, -5` from slot 2 on and is full. -/
def full_example : StaticRingBufferDeque Int 5 :=
  { buff_ := [4, -5, -1, 2, 3], size_ := 5, head_index_ := 2 }

end static_ring_buffer_deque

/-! ## in_place_quick_sort.h

A range `[begin, end)` is modelled by the list of its elements and an iterator
into it by its distance from `begin`.  Dereferencing an iterator outside the
range is undefined behaviour, written `none`.  The two tasks of a recursive call
work on disjoint parts of the range, so running them concurrently gives what
running them one after the other gives; `max_async_depth` and `depth` only
select between the two. -/

namespace in_place_quick_sort

variable {α : Type}

/-- `while (comparator(*left, pivot_value)) ++left;`.  The cursor moves right by
one in every round, so `range.length + 1` rounds of `fuel` are never used up: the
dereference outside the range comes first. -/
def scan_left (comparator : α → α → Bool) (range : List α) (pivot_value : α) :
    Nat → Nat → Option Nat
  | 0, _ => none
  | fuel + 1, left =>
    match range[left]? with
    | none => none
    | some x =>
      if comparator x pivot_value then scan_left comparator range pivot_value fuel (left + 1)
      else some left

/-- `while (comparator(pivot_value, *right)) --right;`.  Moving left of `begin` is
followed by a dereference outside the range. -/
def scan_right (comparator : α → α → Bool) (range : List α) (pivot_value : α) :
    Nat → Option Nat
  | 0 =>
    match range[0]? with
    | none => none
    | some x => if comparator pivot_value x then none else some 0
  | right + 1 =>
    match range[right + 1]? with
    | none => none
    | some x =>
      if comparator pivot_value x then scan_right comparator range pivot_value right
      else some (right + 1)

/-- `swap(*left, *right)`. -/
def swap (range : List α) (left right : Nat) : Option (List α) :=
  match range[left]?, range[right]? with
  | some x, some y => some ((range.set left y).set right x)
  | _, _ => none

/-- The loop `while (true)` of `InPlaceQuickSortPartition`: the two scans, then
`if (distance(left, right) > 0) { swap(*left, *right); ++left; --right; } else break;`
and, after the loop, `return left;`.  Every round but the last moves `left` right
by at least one, so `range.length + 1` rounds of `fuel` are never used up. -/
def partition_loop (comparator : α → α → Bool) (pivot_value : α) :
    Nat → List α → Nat → Nat → Option (List α × Nat)
  | 0, _, _, _ => none
  | fuel + 1, range, left, right =>
    match scan_left comparator range pivot_value (range.length + 1) left with
    | none => none
    | some left1 =>
      match scan_right comparator range pivot_value right with
      | none => none
      | some right1 =>
        if left1 < right1 then
          match swap range left1 right1 with
          | none => none
          | some swapped =>
            partition_loop comparator pivot_value fuel swapped (left1 + 1) (right1 - 1)
        else some (range, left1)

/-- `InPlaceQuickSortPartition(begin, end, comparator)`: `left = begin`,
`right = prev(end)`, the pivot is the element at `distance(begin, end) / 2`.
The result is the range after the call and the iterator returned. -/
def InPlaceQuickSortPartition (comparator : α → α → Bool) (range : List α) :
    Option (List α × Nat) :=
  match range[range.length / 2]? with
  | none => none
  | some pivot_value =>
    partition_loop comparator pivot_value (range.length + 1) range 0 (range.length - 1)

/-- `InPlaceQuickSort(begin, end, comparator, max_async_depth, depth)`.  The
recursion is as deep as `fuel` allows; `none` is undefined behaviour or a
recursion that does not end. -/
def InPlaceQuickSort (comparator : α → α → Bool) :
    Nat → List α → Int → Int → Option (List α)
  | 0, _, _, _ => none
  | fuel + 1, range, max_async_depth, depth =>
    if range.length > 1 then
      match InPlaceQuickSortPartition comparator range with
      | none => none
      | some (partitioned, pivot) =>
        if depth ≤ max_async_depth then
          -- `async(left_task); right_task(); left_future.get();`
          match InPlaceQuickSort comparator fuel (partitioned.drop pivot) max_async_depth
              (depth + 1),
            InPlaceQuickSort comparator fuel (partitioned.take pivot) max_async_depth
              (depth + 1) with
          | some right_part, some left_part => some (left_part ++ right_part)
          | _, _ => none
        else
          -- `left_task(); right_task();`
          match InPlaceQuickSort comparator fuel (partitioned.take pivot) max_async_depth
              (depth + 1),
            InPlaceQuickSort comparator fuel (partitioned.drop pivot) max_async_depth
              (depth + 1) with
          | some left_part, some right_part => some (left_part ++ right_part)
          | _, _ => none
    else some range

/-- The range after `InPlaceQuickSort(begin, end)`, the overload with the
comparator `lhs < rhs`; `max_async_depth` stands for the value of
`static_cast<int>(log(static_cast<double>(end - begin)))`.  A recursion on ranges
that get shorter is at most `range.length` deep. -/
def InPlaceQuickSortDefault [LT α] [DecidableRel (fun a b : α => a < b)] (range : List α)
    (max_async_depth : Int) : Option (List α) :=
  InPlaceQuickSort (fun lhs rhs => decide (lhs < rhs)) (range.length + 1) range max_async_depth 0

end in_place_quick_sort

/-! ## merge_sort.h -/

namespace merge_sort

variable {α : Type}

/-- The conversion of a `ptrdiff_t` that is not negative to the 32-bit `int`. -/
def to_int (n : Nat) : Int := ((n + 2 ^ 31) % 2 ^ 32 : Nat) - 2 ^ 31

/-- The loop of `std::merge(first1, last1, first2, last2, d_first)` with
`operator <`: when one range is used up the rest of the other is copied, else the
element of the second range is taken when it is less than the one of the first.
Every round writes one element, `fuel` is the number of elements to write. -/
def merge_loop [LT α] [DecidableRel (fun a b : α => a < b)] :
    Nat → List α → List α → List α
  | 0, first, second => first ++ second
  | _ + 1, [], second => second
  | _ + 1, x :: first, [] => x :: first
  | fuel + 1, x :: first, y :: second =>
    if y < x then y :: merge_loop fuel (x :: first) second
    else x :: merge_loop fuel first (y :: second)

/-- `std::merge`: the elements written to the output range. -/
def std_merge [LT α] [DecidableRel (fun a b : α => a < b)] (first second : List α) : List α :=
  merge_loop (first.length + second.length) first second

/-- `MergeSort(begin, end, max_async_depth, depth)`: the range after the call.
`int range_length = distance(begin, end); if (range_length < 2) return;`, the
copy `elements` of the range, `mid = elements.begin() + range_length / 2`, the two
recursive calls on the halves of `elements`, the merge into the range.  Both
halves are shorter than the range, so a `fuel` of `range.length + 1` is never
used up. -/
def MergeSort [LT α] [DecidableRel (fun a b : α => a < b)] :
    Nat → List α → Int → Int → Option (List α)
  | 0, _, _, _ => none
  | fuel + 1, range, max_async_depth, depth =>
    let range_length : Int := to_int range.length
    if range_length < 2 then some range
    else
      let elements := range
      let mid := (Int.tdiv range_length 2).toNat
      if depth ≤ max_async_depth then
        -- `async(left_task); right_task(); left_future.get();`
        match MergeSort fuel (elements.drop mid) max_async_depth (depth + 1),
          MergeSort fuel (elements.take mid) max_async_depth (depth + 1) with
        | some right_part, some left_part => some (std_merge left_part right_part)
        | _, _ => none
      else
        -- `left_task(); right_task();`
        match MergeSort fuel (elements.take mid) max_async_depth (depth + 1),
          MergeSort fuel (elements.drop mid) max_async_depth (depth + 1) with
        | some left_part, some right_part => some (std_merge left_part right_part)
        | _, _ => none

/-- The input of 2^31 elements `1, 0, 0, ..., 0`. -/
def long_example : List Int := 1 :: List.replicate (2 ^ 31 - 1) 0

end merge_sort

/-! ## in_place_quick_sort.h: comparators -/

namespace in_place_quick_sort

variable {α : Type}

/-- A comparator that is a strict weak order, as the standard library asks of
the comparator of a sort: irreflexive, transitive, and with a transitive
incomparability. -/
structure StrictWeakOrder (comparator : α → α → Bool) : Prop where
  irreflexive : ∀ x, comparator x x = false
  transitive : ∀ x y z, comparator x y = true → comparator y z = true →
    comparator x z = true
  incomparable_transitive : ∀ x y z, comparator x y = false → comparator y x = false →
    comparator y z = false → comparator z y = false →
    comparator x z = false ∧ comparator z x = false

end in_place_quick_sort

/-! ## Theorems: the deque -/

namespace dynamic_ring_buffer_deque

variable {α : Type}

theorem size_t_add_eq {a b : Nat} (h : a + b < 2 ^ 64) : size_t.add a b = a + b := by
  unfold size_t.add; omega

theorem size_t_sub_eq {a b : Nat} (h : b ≤ a) (ha : a < 2 ^ 64) : size_t.sub a b = a - b := by
  unfold size_t.sub; omega

theorem size_t_mul_two_eq {a : Nat} (h : a < 2 ^ 63) : size_t.mul a 2 = 2 * a := by
  unfold size_t.mul; omega

theorem size_t_mod_eq {a b : Nat} (h : b ≠ 0) : size_t.mod a b = some (a % b) := by
  simp [size_t.mod, h]

theorem mod_add_ne {b i j n : Nat} (hij : i < j) (hj : j < n) : (b + i) % n ≠ (b + j) % n := by
  intro h
  have h1 : i ≡ j [MOD n] := Nat.ModEq.add_left_cancel' b h
  have h2 : i % n = j % n := h1
  rw [Nat.mod_eq_of_lt (by omega), Nat.mod_eq_of_lt hj] at h2
  omega

theorem increment_eq {bs : Nat} (it : BasicIterator) (hbs : bs ≠ 0) (h : it.index_ + 1 < 2 ^ 64) :
    it.increment bs = some ⟨(it.index_ + 1) % bs⟩ := by
  simp [BasicIterator.increment, size_t_mod_eq hbs, size_t_add_eq h]

theorem decrement_eq {bs : Nat} (it : BasicIterator) (hbs : bs ≠ 0)
    (h : it.index_ + bs < 2 ^ 64) :
    it.decrement bs = some ⟨(it.index_ + (bs - 1)) % bs⟩ := by
  have h1 : size_t.sub bs 1 = bs - 1 := size_t_sub_eq (by omega) (by omega)
  have h2 : size_t.add it.index_ (bs - 1) = it.index_ + (bs - 1) := size_t_add_eq (by omega)
  simp [BasicIterator.decrement, size_t_mod_eq hbs, h1, h2]

theorem std_move_spec (d : DynamicRingBufferDeque α) (last : BasicIterator)
    (hlen : d.buff_.length = d.buff_size_) (hbs : d.buff_size_ < 2 ^ 64) (m : Nat) :
    ∀ (fuel : Nat) (first : BasicIterator) (out : List α) (k : Nat),
      m ≤ fuel → first.index_ < d.buff_size_ → m < d.buff_size_ →
      last.index_ = (first.index_ + m) % d.buff_size_ → k + m ≤ out.length →
      ∃ res, std_move d fuel first last out k = some res ∧ res.length = out.length ∧
        (∀ j, j < k → res[j]? = out[j]?) ∧
        (∀ j, j < m → res[k + j]? = d.buff_[(first.index_ + j) % d.buff_size_]?) ∧
        (∀ j, k + m ≤ j → res[j]? = out[j]?) := by
  induction m with
  | zero =>
    intro fuel first out k _ hfirst _ hlast _
    have hfl : first = last := by
      cases first; cases last
      simp only [BasicIterator.mk.injEq]
      simp only [Nat.add_zero] at hlast
      rw [hlast, Nat.mod_eq_of_lt hfirst]
    refine ⟨out, ?_, rfl, fun _ _ => rfl, fun j hj => absurd hj (Nat.not_lt_zero j), fun _ _ => rfl⟩
    cases fuel <;> simp [std_move, hfl]
  | succ m ih =>
    intro fuel first out k hfuel hfirst hm hlast hk
    obtain ⟨fuel, rfl⟩ : ∃ f, fuel = f + 1 := ⟨fuel - 1, by omega⟩
    have hne : first ≠ last := by
      intro h
      have h0 : (first.index_ + 0) % d.buff_size_ ≠ (first.index_ + (m + 1)) % d.buff_size_ :=
        mod_add_ne (Nat.succ_pos m) hm
      rw [← hlast, ← h, Nat.add_zero, Nat.mod_eq_of_lt hfirst] at h0
      exact h0 rfl
    have hx : first.index_ < d.buff_.length := by omega
    have hinc : first.increment d.buff_size_ = some ⟨(first.index_ + 1) % d.buff_size_⟩ :=
      increment_eq first (by omega) (by omega)
    have hk1 : k < out.length := by omega
    have hnext : (first.index_ + 1) % d.buff_size_ < d.buff_size_ := Nat.mod_lt _ (by omega)
    obtain ⟨res, hres, hl, h1, h2, h3⟩ :=
      ih fuel ⟨(first.index_ + 1) % d.buff_size_⟩ (out.set k d.buff_[first.index_]) (k + 1)
        (by omega) hnext (by omega)
        (by rw [hlast]; simp only [Nat.mod_add_mod]; congr 1; omega)
        (by rw [List.length_set]; omega)
    refine ⟨res, ?_, by rw [hl, List.length_set], ?_, ?_, ?_⟩
    · rw [std_move]
      simp [hne, DynamicRingBufferDeque.deref, List.getElem?_eq_getElem hx, hk1, hinc, hres]
    · intro j hj
      rw [h1 j (by omega), List.getElem?_set_ne (by omega)]
    · intro j hj
      cases j with
      | zero =>
        rw [Nat.add_zero, h1 k (by omega), List.getElem?_set_self hk1, Nat.add_zero,
          Nat.mod_eq_of_lt hfirst, List.getElem?_eq_getElem hx]
      | succ j =>
        have := h2 j (by omega)
        rw [show k + (j + 1) = k + 1 + j by omega, this]
        simp only [Nat.mod_add_mod]
        congr 2; omega
    · intro j hj
      rw [h3 j (by omega), List.getElem?_set_ne (by omega)]

variable [Inhabited α]

theorem construct_eq {n : Nat} (h0 : n ≠ 0) (h : n ≤ PTRDIFF_MAX) :
    (array_ptr.ArrayPtr.construct n : Option (array_ptr.ArrayPtr α)) =
      some (List.replicate n default) := by
  simp [array_ptr.ArrayPtr.construct, h0, h]

theorem logical_length (d : DynamicRingBufferDeque α) : d.logical.length = d.size_ := by
  simp [DynamicRingBufferDeque.logical]

theorem logical_getElem? (d : DynamicRingBufferDeque α) (hlen : d.buff_.length = d.buff_size_)
    (hbs : d.buff_size_ ≠ 0) {i : Nat} (hi : i < d.size_) :
    d.logical[i]? = d.buff_[(d.begin_.index_ + i) % d.buff_size_]? := by
  have hlt : (d.begin_.index_ + i) % d.buff_size_ < d.buff_.length := by
    rw [hlen]; exact Nat.mod_lt _ (Nat.pos_of_ne_zero hbs)
  simp [DynamicRingBufferDeque.logical, hi, List.getD_eq_getElem?_getD,
    List.getElem?_eq_getElem hlt]

/-- Two deques of the same size whose slots agree along the logical positions
have the same logical sequence. -/
theorem logical_congr (d d1 : DynamicRingBufferDeque α) (hsize : d1.size_ = d.size_)
    (h : ∀ i, i < d.size_ →
      d1.buff_[(d1.begin_.index_ + i) % d1.buff_size_]? =
        d.buff_[(d.begin_.index_ + i) % d.buff_size_]?) :
    d1.logical = d.logical := by
  unfold DynamicRingBufferDeque.logical
  rw [hsize]
  apply List.map_congr_left
  intro i hi
  rw [List.getD_eq_getElem?_getD, List.getD_eq_getElem?_getD, h i (List.mem_range.mp hi)]

omit [Inhabited α] in
theorem WellFormed.lt_pow (d : DynamicRingBufferDeque α) (h : WellFormed d) :
    d.buff_size_ < 2 ^ 63 := by
  have := h.bound
  unfold PTRDIFF_MAX at this
  omega

/-- `reserve` with an argument that is not above the capacity changes nothing. -/
theorem reserve_le (d : DynamicRingBufferDeque α) {n : Nat} (h : n ≤ d.capacity_) :
    d.reserve n = .returns () d := by
  simp [DynamicRingBufferDeque.reserve, Nat.not_lt.mpr h]

/-- `reserve` on a deque with a buffer, for a capacity whose buffer can be allocated. -/
theorem reserve_grow (d : DynamicRingBufferDeque α) (hd : WellFormed d) {n : Nat}
    (hn : d.capacity_ < n) (ha : n + 1 ≤ PTRDIFF_MAX) :
    ∃ d1, d.reserve n = .returns () d1 ∧ WellFormed d1 ∧ d1.capacity_ = n ∧
      d1.buff_size_ = n + 1 ∧ d1.size_ = d.size_ ∧ d1.begin_ = ⟨0⟩ ∧ d1.end_ = ⟨d.size_⟩ ∧
      d1.logical = d.logical := by
  have hP : PTRDIFF_MAX = 2 ^ 63 - 1 := rfl
  have hadd : size_t.add n 1 = n + 1 := size_t_add_eq (by omega)
  have hbs := hd.lt_pow
  have hsz := hd.size_le
  have hbe := hd.buff_size_eq
  obtain ⟨res, hres, hl, -, h2, -⟩ :=
    std_move_spec d d.end_ hd.length_eq (by omega) d.size_ (n + 1) d.begin_
      (List.replicate (n + 1) default) 0 (by omega) hd.begin_lt (by omega) hd.end_eq
      (by simp; omega)
  refine ⟨{ buff_ := res, size_ := d.size_, capacity_ := n, buff_size_ := n + 1,
             begin_ := ⟨0⟩, end_ := ⟨d.size_⟩ }, ?_, ?_, rfl, rfl, rfl, rfl, rfl, ?_⟩
  · simp only [DynamicRingBufferDeque.reserve, hn, gt_iff_lt, if_true, hadd,
      construct_eq (Nat.succ_ne_zero n) ha, List.length_replicate, hres]
  · have hl1 : res.length = n + 1 := by rw [hl, List.length_replicate]
    exact ⟨by simp [hadd], by simp [hadd, hl1], by simp [hadd, ha], by simp; omega,
      by simp [hadd], by simp [hadd]; rw [Nat.mod_eq_of_lt (by omega)]⟩
  · apply logical_congr
    · rfl
    · intro i hi
      have := h2 i hi
      simp only [Nat.zero_add] at this
      simp only [hadd, Nat.zero_add]
      rw [Nat.mod_eq_of_lt (by omega), this]

/-- `reserve` on a deque without a buffer, for a capacity whose buffer can be allocated. -/
theorem reserve_first (d : DynamicRingBufferDeque α) (hd : Unallocated d) {n : Nat}
    (hn : d.capacity_ < n) (ha : n + 1 ≤ PTRDIFF_MAX) :
    ∃ d1, d.reserve n = .returns () d1 ∧ WellFormed d1 ∧ d1.capacity_ = n ∧
      d1.buff_size_ = n + 1 ∧ d1.size_ = 0 ∧ d1.begin_ = ⟨0⟩ ∧ d1.end_ = ⟨0⟩ ∧
      d1.buff_ = List.replicate (n + 1) default := by
  have hP : PTRDIFF_MAX = 2 ^ 63 - 1 := rfl
  have hadd : size_t.add n 1 = n + 1 := size_t_add_eq (by omega)
  have hmove : std_move d (n + 1) d.begin_ d.end_ (List.replicate (n + 1) (default : α)) 0 =
      some (List.replicate (n + 1) default) := by
    simp [std_move, hd.begin_eq, hd.end_eq]
  refine ⟨{ buff_ := List.replicate (n + 1) default, size_ := d.size_, capacity_ := n,
             buff_size_ := n + 1, begin_ := ⟨0⟩, end_ := ⟨d.size_⟩ },
    ?_, ?_, rfl, rfl, hd.size_eq, rfl, ?_, rfl⟩
  · simp only [DynamicRingBufferDeque.reserve, hn, gt_iff_lt, if_true, hadd,
      construct_eq (Nat.succ_ne_zero n) ha, List.length_replicate, hmove]
  · exact ⟨by simp [hadd], by simp [hadd], by simp [hadd, ha], by simp [hd.size_eq],
      by simp [hadd], by simp [hadd, hd.size_eq]⟩
  · simp [hd.size_eq]

/-- `reserve` throws `std::bad_alloc`, and changes nothing, when the buffer asked
for is longer than any array can be. -/
theorem reserve_bad_alloc (d : DynamicRingBufferDeque α) {n : Nat}
    (hn : d.capacity_ < n) (ha : PTRDIFF_MAX < n + 1) (hmax : n + 1 < 2 ^ 64) :
    d.reserve n = .throws .bad_alloc d := by
  have hP : PTRDIFF_MAX = 2 ^ 63 - 1 := rfl
  have hadd : size_t.add n 1 = n + 1 := size_t_add_eq hmax
  simp [DynamicRingBufferDeque.reserve, hn, hadd, array_ptr.ArrayPtr.construct,
    Nat.not_le.mpr ha]

omit [Inhabited α] in
theorem WellFormed.begin_eq_end_iff (d : DynamicRingBufferDeque α) (hd : WellFormed d) :
    d.begin_ = d.end_ ↔ d.size_ = 0 := by
  have hlt := hd.begin_lt
  have hend := hd.end_eq
  have hsz := hd.size_le
  have hbe := hd.buff_size_eq
  constructor
  · intro h
    by_contra h0
    have hne : (d.begin_.index_ + 0) % d.buff_size_ ≠ (d.begin_.index_ + d.size_) % d.buff_size_ :=
      mod_add_ne (Nat.pos_of_ne_zero h0) (by omega)
    rw [← hend, ← h, Nat.add_zero, Nat.mod_eq_of_lt hlt] at hne
    exact hne rfl
  · intro h
    rw [h, Nat.add_zero, Nat.mod_eq_of_lt hlt] at hend
    cases hb : d.begin_; cases he : d.end_
    rw [hb, he] at hend
    simp only [BasicIterator.mk.injEq]
    exact hend.symm

/-- `reserve(SIZE_MAX)`: `new_capacity + 1` wraps to 0, no buffer is allocated.
On an empty deque the call returns and leaves the deque without a buffer. -/
theorem reserve_size_max_empty (d : DynamicRingBufferDeque α)
    (hd : WellFormed d ∨ Unallocated d) (hsize : d.size_ = 0) (hn : d.capacity_ < SIZE_MAX) :
    d.reserve SIZE_MAX = .returns () { capacity_ := SIZE_MAX } := by
  have hbe : d.begin_ = d.end_ := by
    rcases hd with hd | hd
    · exact (hd.begin_eq_end_iff d).mpr hsize
    · rw [hd.begin_eq, hd.end_eq]
  have hadd : size_t.add SIZE_MAX 1 = 0 := by decide
  simp [DynamicRingBufferDeque.reserve, hn, hadd, array_ptr.ArrayPtr.construct, std_move, hbe,
    hsize]

/-- `reserve(SIZE_MAX)` on a deque that holds elements moves them into an array
that was never allocated: undefined behaviour. -/
theorem reserve_size_max_nonempty (d : DynamicRingBufferDeque α) (hd : WellFormed d)
    (hsize : d.size_ ≠ 0) : d.reserve SIZE_MAX = .undefined := by
  have hbe : d.begin_ ≠ d.end_ := fun h => hsize ((hd.begin_eq_end_iff d).mp h)
  have hadd : size_t.add SIZE_MAX 1 = 0 := by decide
  have hn : d.capacity_ < SIZE_MAX := by
    have := hd.lt_pow
    have := hd.buff_size_eq
    unfold SIZE_MAX
    omega
  simp [DynamicRingBufferDeque.reserve, hn, hadd, array_ptr.ArrayPtr.construct, std_move, hbe]

omit [Inhabited α] in
theorem unallocated_size_max : Unallocated ({ capacity_ := SIZE_MAX } : DynamicRingBufferDeque α) :=
  ⟨rfl, rfl, rfl, rfl, rfl, Or.inr rfl⟩

omit [Inhabited α] in
theorem unallocated_default : Unallocated ({} : DynamicRingBufferDeque α) :=
  ⟨rfl, rfl, rfl, rfl, rfl, Or.inl rfl⟩

/-- What `reserve` does on a deque with a buffer, or without one, for every
argument of type `size_t`. -/
theorem reserve_cases (d : DynamicRingBufferDeque α) (hd : WellFormed d ∨ Unallocated d)
    {n : Nat} (hn : n < 2 ^ 64) :
    (n ≤ d.capacity_ ∧ d.reserve n = .returns () d) ∨
    (d.capacity_ < n ∧ n + 1 ≤ PTRDIFF_MAX ∧
      ∃ d1, d.reserve n = .returns () d1 ∧ WellFormed d1 ∧ d1.capacity_ = n ∧
        d1.buff_size_ = n + 1 ∧ d1.size_ = d.size_ ∧ d1.begin_ = ⟨0⟩ ∧ d1.end_ = ⟨d.size_⟩ ∧
        d1.logical = d.logical) ∨
    (d.capacity_ < n ∧ PTRDIFF_MAX < n + 1 ∧ n ≠ SIZE_MAX ∧ d.reserve n = .throws .bad_alloc d) ∨
    (d.capacity_ < n ∧ n = SIZE_MAX ∧ d.size_ = 0 ∧
      d.reserve n = .returns () { capacity_ := SIZE_MAX }) ∨
    (d.capacity_ < n ∧ n = SIZE_MAX ∧ d.size_ ≠ 0 ∧ WellFormed d ∧ d.reserve n = .undefined) := by
  have hP : PTRDIFF_MAX = 2 ^ 63 - 1 := rfl
  have hS : SIZE_MAX = 2 ^ 64 - 1 := rfl
  by_cases h1 : n ≤ d.capacity_
  · exact Or.inl ⟨h1, reserve_le d h1⟩
  · have hlt : d.capacity_ < n := Nat.lt_of_not_le h1
    by_cases h2 : n + 1 ≤ PTRDIFF_MAX
    · refine Or.inr (Or.inl ⟨hlt, h2, ?_⟩)
      rcases hd with hd | hd
      · exact reserve_grow d hd hlt h2
      · obtain ⟨d1, h, hw, hc, hb, hs, hbg, he, hbuf⟩ := reserve_first d hd hlt h2
        refine ⟨d1, h, hw, hc, hb, by rw [hs, hd.size_eq], hbg, by rw [he, hd.size_eq], ?_⟩
        simp [DynamicRingBufferDeque.logical, hs, hd.size_eq]
    · by_cases h3 : n = SIZE_MAX
      · by_cases h4 : d.size_ = 0
        · exact Or.inr (Or.inr (Or.inr (Or.inl ⟨hlt, h3, h4,
            by rw [h3]; exact reserve_size_max_empty d hd h4 (h3 ▸ hlt)⟩)))
        · rcases hd with hd | hd
          · exact Or.inr (Or.inr (Or.inr (Or.inr ⟨hlt, h3, h4, hd,
              by rw [h3]; exact reserve_size_max_nonempty d hd h4⟩)))
          · exact absurd hd.size_eq h4
      · exact Or.inr (Or.inr (Or.inl ⟨hlt, by omega, h3,
          reserve_bad_alloc d hlt (by omega) (by omega)⟩))

/-- `reserve_if_not_enough()` on a deque with a buffer, or on a default-constructed one:
it leaves a free slot, or throws `std::bad_alloc` and changes nothing. -/
theorem reserve_if_not_enough_cases (d : DynamicRingBufferDeque α)
    (hd : WellFormed d ∨ (Unallocated d ∧ d.capacity_ = 0)) :
    (∃ d1, d.reserve_if_not_enough = .returns () d1 ∧ WellFormed d1 ∧
      d1.size_ < d1.capacity_ ∧ d1.size_ = d.size_ ∧ d1.logical = d.logical ∧
      d1.capacity_ = grown_capacity d ∧ (d.size_ ≠ d.capacity_ → d1 = d)) ∨
    (d.reserve_if_not_enough = .throws .bad_alloc d ∧ d.size_ = d.capacity_ ∧
      PTRDIFF_MAX < 2 * d.capacity_ + 1) := by
  have hP : PTRDIFF_MAX = 2 ^ 63 - 1 := rfl
  have hS : SIZE_MAX = 2 ^ 64 - 1 := rfl
  by_cases hfull : d.size_ = d.capacity_
  · -- the deque is full: the capacity asked for
    have hcap : d.capacity_ < 2 ^ 63 := by
      rcases hd with hd | ⟨_, h0⟩
      · have := hd.lt_pow; have := hd.buff_size_eq; omega
      · omega
    have hnew : (if d.capacity_ ≠ 0 then size_t.mul d.capacity_ 2 else 1) = grown_capacity d := by
      unfold grown_capacity
      by_cases h0 : d.capacity_ = 0
      · simp [h0, hfull]
      · simp [h0, hfull, size_t_mul_two_eq hcap]
    have hrine : d.reserve_if_not_enough = d.reserve (grown_capacity d) := by
      simp only [DynamicRingBufferDeque.reserve_if_not_enough, hfull, if_true, hnew]
    have hgrow : d.capacity_ < grown_capacity d ∧ grown_capacity d ≤ 2 * d.capacity_ + 1 ∧
        (d.capacity_ ≠ 0 → grown_capacity d = 2 * d.capacity_) := by
      unfold grown_capacity
      by_cases h0 : d.capacity_ = 0
      · simp [h0, hfull]
      · simp [h0, hfull]; omega
    have hd1 : WellFormed d ∨ Unallocated d := hd.imp id And.left
    rcases reserve_cases d hd1 (n := grown_capacity d) (by omega) with
      ⟨h, _⟩ | ⟨_, _, d1, h, hw, hc, _, hs, _, _, hl⟩ | ⟨_, ha, _, h⟩ | ⟨_, h, _⟩ | ⟨_, h, _⟩
    · omega
    · exact Or.inl ⟨d1, by rw [hrine, h], hw, by omega, hs, hl, hc, fun hne => absurd hfull hne⟩
    · refine Or.inr ⟨by rw [hrine, h], hfull, ?_⟩
      by_cases h0 : d.capacity_ = 0
      · exfalso
        have : grown_capacity d = 1 := by unfold grown_capacity; simp [h0, hfull]
        omega
      · have := hgrow.2.2 h0; omega
    · omega
    · omega
  · rcases hd with hd | ⟨hu, h0⟩
    · refine Or.inl ⟨d, ?_, hd, ?_, rfl, rfl, ?_, fun _ => rfl⟩
      · simp [DynamicRingBufferDeque.reserve_if_not_enough, hfull]
      · have := hd.size_le; omega
      · simp [grown_capacity, hfull]
    · exact absurd (by rw [hu.size_eq, h0]) hfull

/-- The insertion step of `push_back` on a deque with a free slot. -/
theorem push_back_insert (d d1 : DynamicRingBufferDeque α) (v : α)
    (h : d.reserve_if_not_enough = .returns () d1) (hd1 : WellFormed d1)
    (hroom : d1.size_ < d1.capacity_) :
    ∃ d2, d.push_back v = .returns () d2 ∧ WellFormed d2 ∧ d2.logical = d1.logical ++ [v] ∧
      d2.size_ = d1.size_ + 1 ∧ d2.capacity_ = d1.capacity_ ∧ d2.buff_size_ = d1.buff_size_ ∧
      d2.begin_ = d1.begin_ := by
  have hbs := hd1.lt_pow
  have hbe := hd1.buff_size_eq
  have hlen := hd1.length_eq
  have hend := hd1.end_eq
  have hblt := hd1.begin_lt
  have hendlt : d1.end_.index_ < d1.buff_size_ := by
    rw [hend]; exact Nat.mod_lt _ (by omega)
  have hinc : d1.end_.increment d1.buff_size_ = some ⟨(d1.end_.index_ + 1) % d1.buff_size_⟩ :=
    increment_eq _ (by omega) (by omega)
  have hsz : size_t.add d1.size_ 1 = d1.size_ + 1 := size_t_add_eq (by omega)
  refine ⟨{ d1 with buff_ := d1.buff_.set d1.end_.index_ v
                    end_ := ⟨(d1.end_.index_ + 1) % d1.buff_size_⟩
                    size_ := d1.size_ + 1 }, ?_, ?_, ?_, rfl, rfl, rfl, rfl⟩
  · simp only [DynamicRingBufferDeque.push_back, h, hinc, hlen, hendlt, if_true, hsz]
  · refine ⟨hbe, by simp [hlen], hd1.bound, by simp; omega, hblt, ?_⟩
    simp only [hend, Nat.mod_add_mod, Nat.add_assoc]
  · simp only [DynamicRingBufferDeque.logical, List.range_succ, List.map_append, List.map_cons,
      List.map_nil]
    congr 1
    · apply List.map_congr_left
      intro i hi
      have hi := List.mem_range.mp hi
      have hne : d1.end_.index_ ≠ (d1.begin_.index_ + i) % d1.buff_size_ := by
        rw [hend]; exact (mod_add_ne hi (by omega)).symm
      rw [List.getD_eq_getElem?_getD, List.getD_eq_getElem?_getD, List.getElem?_set_ne hne]
    · rw [← hend, List.getD_eq_getElem?_getD, List.getElem?_set_self (by omega)]
      rfl

/-- The insertion step of `push_front` on a deque with a free slot. -/
theorem push_front_insert (d d1 : DynamicRingBufferDeque α) (v : α)
    (h : d.reserve_if_not_enough = .returns () d1) (hd1 : WellFormed d1)
    (hroom : d1.size_ < d1.capacity_) :
    ∃ d2, d.push_front v = .returns () d2 ∧ WellFormed d2 ∧ d2.logical = v :: d1.logical ∧
      d2.size_ = d1.size_ + 1 ∧ d2.capacity_ = d1.capacity_ ∧ d2.buff_size_ = d1.buff_size_ ∧
      d2.end_ = d1.end_ ∧
      d2.begin_ = ⟨(d1.begin_.index_ + (d1.buff_size_ - 1)) % d1.buff_size_⟩ := by
  have hbs := hd1.lt_pow
  have hbe := hd1.buff_size_eq
  have hlen := hd1.length_eq
  have hend := hd1.end_eq
  have hblt := hd1.begin_lt
  have hdec : d1.begin_.decrement d1.buff_size_ =
      some ⟨(d1.begin_.index_ + (d1.buff_size_ - 1)) % d1.buff_size_⟩ :=
    decrement_eq _ (by omega) (by omega)
  have hprev : (d1.begin_.index_ + (d1.buff_size_ - 1)) % d1.buff_size_ < d1.buff_size_ :=
    Nat.mod_lt _ (by omega)
  have hsz : size_t.add d1.size_ 1 = d1.size_ + 1 := size_t_add_eq (by omega)
  have hstep : ∀ i, ((d1.begin_.index_ + (d1.buff_size_ - 1)) % d1.buff_size_ + (i + 1)) %
      d1.buff_size_ = (d1.begin_.index_ + i) % d1.buff_size_ := by
    intro i
    rw [Nat.mod_add_mod,
      show d1.begin_.index_ + (d1.buff_size_ - 1) + (i + 1) =
        d1.begin_.index_ + i + d1.buff_size_ by omega,
      Nat.add_mod_right]
  refine ⟨{ d1 with buff_ := d1.buff_.set
                      ((d1.begin_.index_ + (d1.buff_size_ - 1)) % d1.buff_size_) v
                    begin_ := ⟨(d1.begin_.index_ + (d1.buff_size_ - 1)) % d1.buff_size_⟩
                    size_ := d1.size_ + 1 }, ?_, ?_, ?_, rfl, rfl, rfl, rfl, rfl⟩
  · simp only [DynamicRingBufferDeque.push_front, h, hdec, hlen, hprev, if_true, hsz]
  · refine ⟨hbe, by simp [hlen], hd1.bound, by simp; omega, hprev, ?_⟩
    show d1.end_.index_ = ((d1.begin_.index_ + (d1.buff_size_ - 1)) % d1.buff_size_ +
      (d1.size_ + 1)) % d1.buff_size_
    rw [hend, hstep]
  · simp only [DynamicRingBufferDeque.logical, List.range_succ_eq_map, List.map_cons,
      List.map_map]
    congr 1
    · rw [Nat.add_zero, Nat.mod_eq_of_lt hprev, List.getD_eq_getElem?_getD,
        List.getElem?_set_self (by omega)]
      rfl
    · apply List.map_congr_left
      intro i hi
      have hi := List.mem_range.mp hi
      have hne : (d1.begin_.index_ + (d1.buff_size_ - 1)) % d1.buff_size_ ≠
          (d1.begin_.index_ + i) % d1.buff_size_ :=
        (mod_add_ne (by omega) (by omega)).symm
      simp only [Function.comp, Nat.succ_eq_add_one, hstep]
      rw [List.getD_eq_getElem?_getD, List.getD_eq_getElem?_getD, List.getElem?_set_ne hne]

/-- `pop_back` on a non-empty deque with a buffer. -/
theorem pop_back_spec (d : DynamicRingBufferDeque α) (hd : WellFormed d) (hne : d.size_ ≠ 0) :
    ∃ x d1, d.pop_back = .returns x d1 ∧ WellFormed d1 ∧ d.logical = d1.logical ++ [x] ∧
      d1.size_ = d.size_ - 1 ∧ d1.capacity_ = d.capacity_ ∧ d1.buff_size_ = d.buff_size_ ∧
      d1.begin_ = d.begin_ ∧ d1.buff_ = d.buff_ := by
  have hbs := hd.lt_pow
  have hbe := hd.buff_size_eq
  have hlen := hd.length_eq
  have hend := hd.end_eq
  have hblt := hd.begin_lt
  have hsl := hd.size_le
  have hendlt : d.end_.index_ < d.buff_size_ := by
    rw [hend]; exact Nat.mod_lt _ (by omega)
  have hdec : d.end_.decrement d.buff_size_ =
      some ⟨(d.end_.index_ + (d.buff_size_ - 1)) % d.buff_size_⟩ :=
    decrement_eq _ (by omega) (by omega)
  have hprev : (d.end_.index_ + (d.buff_size_ - 1)) % d.buff_size_ =
      (d.begin_.index_ + (d.size_ - 1)) % d.buff_size_ := by
    rw [hend, Nat.mod_add_mod,
      show d.begin_.index_ + d.size_ + (d.buff_size_ - 1) =
        d.begin_.index_ + (d.size_ - 1) + d.buff_size_ by omega,
      Nat.add_mod_right]
  have hplt : (d.begin_.index_ + (d.size_ - 1)) % d.buff_size_ < d.buff_.length := by
    rw [hlen]; exact Nat.mod_lt _ (by omega)
  have hsz : size_t.sub d.size_ 1 = d.size_ - 1 := size_t_sub_eq (by omega) (by omega)
  have hempty : d.empty = false := by simp [DynamicRingBufferDeque.empty, hne]
  have hx : d.buff_[(d.begin_.index_ + (d.size_ - 1)) % d.buff_size_]? =
      some (d.buff_.getD ((d.begin_.index_ + (d.size_ - 1)) % d.buff_size_) default) := by
    rw [List.getD_eq_getElem?_getD, List.getElem?_eq_getElem hplt]; rfl
  refine ⟨d.buff_.getD ((d.begin_.index_ + (d.size_ - 1)) % d.buff_size_) default,
    { d with size_ := d.size_ - 1
             end_ := ⟨(d.begin_.index_ + (d.size_ - 1)) % d.buff_size_⟩ },
    ?_, ?_, ?_, rfl, rfl, rfl, rfl, rfl⟩
  · simp only [DynamicRingBufferDeque.pop_back, hempty, hdec, hprev, hsz,
      DynamicRingBufferDeque.deref, hx, Bool.false_eq_true, if_false]
  · exact ⟨hbe, hlen, hd.bound, by simp; omega, hblt, rfl⟩
  · have hex : ∃ m, d.size_ = m + 1 := ⟨d.size_ - 1, by omega⟩
    obtain ⟨m, hm⟩ := hex
    unfold DynamicRingBufferDeque.logical
    simp only [hm]
    simp only [List.range_succ, List.map_append, List.map_cons, List.map_nil,
      Nat.add_sub_cancel]

/-- `pop_front` on a non-empty deque with a buffer. -/
theorem pop_front_spec (d : DynamicRingBufferDeque α) (hd : WellFormed d) (hne : d.size_ ≠ 0) :
    ∃ x d1, d.pop_front = .returns x d1 ∧ WellFormed d1 ∧ d.logical = x :: d1.logical ∧
      d1.size_ = d.size_ - 1 ∧ d1.capacity_ = d.capacity_ ∧ d1.buff_size_ = d.buff_size_ ∧
      d1.end_ = d.end_ ∧ d1.buff_ = d.buff_ := by
  have hbs := hd.lt_pow
  have hbe := hd.buff_size_eq
  have hlen := hd.length_eq
  have hend := hd.end_eq
  have hblt := hd.begin_lt
  have hsl := hd.size_le
  have hinc : d.begin_.increment d.buff_size_ = some ⟨(d.begin_.index_ + 1) % d.buff_size_⟩ :=
    increment_eq _ (by omega) (by omega)
  have hb : d.begin_.index_ < d.buff_.length := by omega
  have hsz : size_t.sub d.size_ 1 = d.size_ - 1 := size_t_sub_eq (by omega) (by omega)
  have hempty : d.empty = false := by simp [DynamicRingBufferDeque.empty, hne]
  have hx : d.buff_[d.begin_.index_]? = some (d.buff_.getD d.begin_.index_ default) := by
    rw [List.getD_eq_getElem?_getD, List.getElem?_eq_getElem hb]; rfl
  refine ⟨d.buff_.getD d.begin_.index_ default,
    { d with size_ := d.size_ - 1
             begin_ := ⟨(d.begin_.index_ + 1) % d.buff_size_⟩ },
    ?_, ?_, ?_, rfl, rfl, rfl, rfl, rfl⟩
  · simp only [DynamicRingBufferDeque.pop_front, hempty, hinc, hsz,
      DynamicRingBufferDeque.deref, hx, Bool.false_eq_true, if_false]
  · refine ⟨hbe, hlen, hd.bound, by simp; omega, Nat.mod_lt _ (by omega), ?_⟩
    show d.end_.index_ = ((d.begin_.index_ + 1) % d.buff_size_ + (d.size_ - 1)) % d.buff_size_
    rw [hend, Nat.mod_add_mod,
      show d.begin_.index_ + 1 + (d.size_ - 1) = d.begin_.index_ + d.size_ by omega]
  · have hex : ∃ m, d.size_ = m + 1 := ⟨d.size_ - 1, by omega⟩
    obtain ⟨m, hm⟩ := hex
    unfold DynamicRingBufferDeque.logical
    simp only [hm]
    simp only [List.range_succ_eq_map, List.map_cons, List.map_map, Nat.add_sub_cancel]
    refine congrArg₂ List.cons ?_ ?_
    · rw [Nat.add_zero, Nat.mod_eq_of_lt hblt]
    · apply List.map_congr_left
      intro i _
      simp only [Function.comp, Nat.succ_eq_add_one, Nat.mod_add_mod]
      rw [show d.begin_.index_ + 1 + i = d.begin_.index_ + (i + 1) by omega]

omit [Inhabited α] in
/-- `pop_back` on an empty deque throws and changes nothing. -/
theorem pop_back_empty (d : DynamicRingBufferDeque α) (h : d.size_ = 0) :
    d.pop_back = .throws .out_of_range d := by
  simp [DynamicRingBufferDeque.pop_back, DynamicRingBufferDeque.empty, h]

omit [Inhabited α] in
/-- `pop_front` on an empty deque throws and changes nothing. -/
theorem pop_front_empty (d : DynamicRingBufferDeque α) (h : d.size_ = 0) :
    d.pop_front = .throws .out_of_range d := by
  simp [DynamicRingBufferDeque.pop_front, DynamicRingBufferDeque.empty, h]

omit [Inhabited α] in
/-- `clear` keeps a deque with a buffer well formed, and one without a buffer as it is. -/
theorem clear_spec (d : DynamicRingBufferDeque α) (hd : WellFormed d ∨ Unallocated d) :
    ∃ d1, d.clear = .returns () d1 ∧ (WellFormed d1 ∨ Unallocated d1) ∧ d1.size_ = 0 ∧
      d1.capacity_ = d.capacity_ ∧ d1.buff_size_ = d.buff_size_ ∧ d1.buff_ = d.buff_ ∧
      d1.begin_ = ⟨0⟩ ∧ d1.end_ = ⟨0⟩ := by
  refine ⟨{ d with size_ := 0, begin_ := ⟨0⟩, end_ := ⟨0⟩ }, rfl, ?_, rfl, rfl, rfl, rfl, rfl, rfl⟩
  rcases hd with hd | hd
  · have := hd.buff_size_eq
    exact Or.inl ⟨hd.buff_size_eq, hd.length_eq, hd.bound, Nat.zero_le _, by simp; omega,
      by simp⟩
  · exact Or.inr ⟨hd.buff_eq, rfl, hd.buff_size_eq, rfl, rfl, hd.capacity_eq⟩

/-- A push on the deque that `reserve(SIZE_MAX)` left without a buffer evaluates
`% buff_size_` with `buff_size_ == 0`. -/
theorem push_undefined (d : DynamicRingBufferDeque α) (hd : Unallocated d)
    (hc : d.capacity_ = SIZE_MAX) (v : α) :
    d.push_back v = .undefined ∧ d.push_front v = .undefined := by
  have hne : d.size_ ≠ d.capacity_ := by rw [hd.size_eq, hc]; decide
  have h : d.reserve_if_not_enough = .returns () d := by
    simp [DynamicRingBufferDeque.reserve_if_not_enough, hne]
  constructor
  · simp [DynamicRingBufferDeque.push_back, h, BasicIterator.increment, size_t.mod,
      hd.buff_size_eq]
  · simp [DynamicRingBufferDeque.push_front, h, BasicIterator.decrement, size_t.mod,
      hd.buff_size_eq]

/-- What `push_back` does on a deque with a buffer, or without one. -/
theorem push_back_cases (d : DynamicRingBufferDeque α) (hd : WellFormed d ∨ Unallocated d)
    (v : α) :
    (∃ d2, d.push_back v = .returns () d2 ∧ WellFormed d2 ∧ d2.logical = d.logical ++ [v] ∧
      d2.size_ = d.size_ + 1 ∧ d2.capacity_ = grown_capacity d ∧
      (d.size_ ≠ d.capacity_ → d2.buff_size_ = d.buff_size_ ∧ d2.begin_ = d.begin_)) ∨
    (d.push_back v = .throws .bad_alloc d ∧ d.size_ = d.capacity_ ∧
      PTRDIFF_MAX < 2 * d.capacity_ + 1) ∨
    (d.push_back v = .undefined ∧ Unallocated d ∧ d.capacity_ = SIZE_MAX) := by
  have hsplit : (WellFormed d ∨ (Unallocated d ∧ d.capacity_ = 0)) ∨
      (Unallocated d ∧ d.capacity_ = SIZE_MAX) := by
    rcases hd with hd | hd
    · exact Or.inl (Or.inl hd)
    · rcases hd.capacity_eq with h | h
      · exact Or.inl (Or.inr ⟨hd, h⟩)
      · exact Or.inr ⟨hd, h⟩
  rcases hsplit with hd1 | ⟨hu, hc⟩
  · rcases reserve_if_not_enough_cases d hd1 with ⟨d1, h, hw, hroom, hs, hl, hc, hsame⟩ | ⟨h, hf, ha⟩
    · obtain ⟨d2, h2, hw2, hl2, hs2, hc2, hb2, hbg2⟩ := push_back_insert d d1 v h hw hroom
      refine Or.inl ⟨d2, h2, hw2, by rw [hl2, hl], by rw [hs2, hs], by rw [hc2, hc], ?_⟩
      intro hne
      rw [hb2, hbg2, hsame hne]
      exact ⟨rfl, rfl⟩
    · refine Or.inr (Or.inl ⟨?_, hf, ha⟩)
      simp only [DynamicRingBufferDeque.push_back, h]
  · exact Or.inr (Or.inr ⟨(push_undefined d hu hc v).1, hu, hc⟩)

/-- What `push_front` does on a deque with a buffer, or without one. -/
theorem push_front_cases (d : DynamicRingBufferDeque α) (hd : WellFormed d ∨ Unallocated d)
    (v : α) :
    (∃ d2, d.push_front v = .returns () d2 ∧ WellFormed d2 ∧ d2.logical = v :: d.logical ∧
      d2.size_ = d.size_ + 1 ∧ d2.capacity_ = grown_capacity d ∧
      (d.size_ ≠ d.capacity_ → d2.buff_size_ = d.buff_size_ ∧ d2.end_ = d.end_)) ∨
    (d.push_front v = .throws .bad_alloc d ∧ d.size_ = d.capacity_ ∧
      PTRDIFF_MAX < 2 * d.capacity_ + 1) ∨
    (d.push_front v = .undefined ∧ Unallocated d ∧ d.capacity_ = SIZE_MAX) := by
  have hsplit : (WellFormed d ∨ (Unallocated d ∧ d.capacity_ = 0)) ∨
      (Unallocated d ∧ d.capacity_ = SIZE_MAX) := by
    rcases hd with hd | hd
    · exact Or.inl (Or.inl hd)
    · rcases hd.capacity_eq with h | h
      · exact Or.inl (Or.inr ⟨hd, h⟩)
      · exact Or.inr ⟨hd, h⟩
  rcases hsplit with hd1 | ⟨hu, hc⟩
  · rcases reserve_if_not_enough_cases d hd1 with ⟨d1, h, hw, hroom, hs, hl, hc, hsame⟩ | ⟨h, hf, ha⟩
    · obtain ⟨d2, h2, hw2, hl2, hs2, hc2, hb2, he2, _⟩ := push_front_insert d d1 v h hw hroom
      refine Or.inl ⟨d2, h2, hw2, by rw [hl2, hl], by rw [hs2, hs], by rw [hc2, hc], ?_⟩
      intro hne
      rw [hb2, he2, hsame hne]
      exact ⟨rfl, rfl⟩
    · refine Or.inr (Or.inl ⟨?_, hf, ha⟩)
      simp only [DynamicRingBufferDeque.push_front, h]
  · exact Or.inr (Or.inr ⟨(push_undefined d hu hc v).2, hu, hc⟩)

/-- Every call keeps a deque in one of the two kinds of state. -/
theorem call_preserves (c : Call α) (d d1 : DynamicRingBufferDeque α)
    (hd : WellFormed d ∨ Unallocated d) (ht : c.typed) (h : (c.run d).state? = some d1) :
    WellFormed d1 ∨ Unallocated d1 := by
  cases c with
  | push_back v =>
    rcases push_back_cases d hd v with ⟨d2, h2, hw, _⟩ | ⟨h2, _⟩ | ⟨h2, _⟩ <;>
      simp only [Call.run, h2, Outcome.state?, Option.some.injEq] at h
    · exact h ▸ Or.inl hw
    · exact h ▸ hd
    · exact absurd h (by simp)
  | push_front v =>
    rcases push_front_cases d hd v with ⟨d2, h2, hw, _⟩ | ⟨h2, _⟩ | ⟨h2, _⟩ <;>
      simp only [Call.run, h2, Outcome.state?, Option.some.injEq] at h
    · exact h ▸ Or.inl hw
    · exact h ▸ hd
    · exact absurd h (by simp)
  | pop_back =>
    by_cases h0 : d.size_ = 0
    · simp only [Call.run, pop_back_empty d h0, Outcome.state?, Option.some.injEq] at h
      exact h ▸ hd
    · have hw : WellFormed d := hd.resolve_right fun hu => h0 hu.size_eq
      obtain ⟨x, d2, h2, hw2, _⟩ := pop_back_spec d hw h0
      simp only [Call.run, h2, Outcome.state?, Option.some.injEq] at h
      exact h ▸ Or.inl hw2
  | pop_front =>
    by_cases h0 : d.size_ = 0
    · simp only [Call.run, pop_front_empty d h0, Outcome.state?, Option.some.injEq] at h
      exact h ▸ hd
    · have hw : WellFormed d := hd.resolve_right fun hu => h0 hu.size_eq
      obtain ⟨x, d2, h2, hw2, _⟩ := pop_front_spec d hw h0
      simp only [Call.run, h2, Outcome.state?, Option.some.injEq] at h
      exact h ▸ Or.inl hw2
  | reserve n =>
    rcases reserve_cases d hd (n := n) ht with
      ⟨_, h2⟩ | ⟨_, _, d2, h2, hw, _⟩ | ⟨_, _, _, h2⟩ | ⟨_, _, _, h2⟩ | ⟨_, _, _, _, h2⟩ <;>
      simp only [Call.run, h2, Outcome.state?, Option.some.injEq] at h
    · exact h ▸ hd
    · exact h ▸ Or.inl hw
    · exact h ▸ hd
    · exact h ▸ Or.inr unallocated_size_max
    · exact absurd h (by simp)
  | clear =>
    obtain ⟨d2, h2, hw, _⟩ := clear_spec d hd
    simp only [Call.run, h2, Outcome.state?, Option.some.injEq] at h
    exact h ▸ hw

/-- A reachable deque either owns a buffer of `capacity_ + 1` slots or has none. -/
theorem reachable_cases (d : DynamicRingBufferDeque α) (h : Reachable d) :
    WellFormed d ∨ Unallocated d := by
  induction h with
  | default_constructed => exact Or.inr unallocated_default
  | call c d d1 _ ht hrun ih => exact call_preserves c d d1 ih ht hrun

/-- A reachable deque that holds an element owns a buffer. -/
theorem reachable_nonempty (d : DynamicRingBufferDeque α) (h : Reachable d)
    (hne : d.size_ ≠ 0) : WellFormed d :=
  (reachable_cases d h).resolve_right fun hu => hne hu.size_eq

theorem logical_eq_nil (d : DynamicRingBufferDeque α) (h : d.size_ = 0) : d.logical = [] := by
  apply List.eq_nil_of_length_eq_zero
  rw [logical_length, h]

/-- How a call on a deque with a buffer, or without one, ends: it returns, in a
state of one of the two kinds and with its `effect` on the logical sequence; or it
throws and changes nothing; or its behaviour is undefined. -/
theorem call_cases (c : Call α) (d : DynamicRingBufferDeque α)
    (hd : WellFormed d ∨ Unallocated d) (ht : c.typed) :
    (∃ r d1, c.run d = .returns r d1 ∧ (WellFormed d1 ∨ Unallocated d1) ∧
      d1.logical = c.effect d.logical) ∨
    (∃ e, c.run d = .throws e d) ∨ c.run d = .undefined := by
  cases c with
  | push_back v =>
    rcases push_back_cases d hd v with ⟨d2, h2, hw, hl, _⟩ | ⟨h2, _⟩ | ⟨h2, _⟩
    · exact Or.inl ⟨none, d2, by simp only [Call.run, h2], Or.inl hw, hl⟩
    · exact Or.inr (Or.inl ⟨.bad_alloc, by simp only [Call.run, h2]⟩)
    · exact Or.inr (Or.inr (by simp only [Call.run, h2]))
  | push_front v =>
    rcases push_front_cases d hd v with ⟨d2, h2, hw, hl, _⟩ | ⟨h2, _⟩ | ⟨h2, _⟩
    · exact Or.inl ⟨none, d2, by simp only [Call.run, h2], Or.inl hw, hl⟩
    · exact Or.inr (Or.inl ⟨.bad_alloc, by simp only [Call.run, h2]⟩)
    · exact Or.inr (Or.inr (by simp only [Call.run, h2]))
  | pop_back =>
    by_cases h0 : d.size_ = 0
    · exact Or.inr (Or.inl ⟨.out_of_range, by simp only [Call.run, pop_back_empty d h0]⟩)
    · have hw : WellFormed d := hd.resolve_right fun hu => h0 hu.size_eq
      obtain ⟨x, d2, h2, hw2, hl, _⟩ := pop_back_spec d hw h0
      refine Or.inl ⟨some x, d2, by simp only [Call.run, h2], Or.inl hw2, ?_⟩
      simp only [Call.effect, hl, List.dropLast_concat]
  | pop_front =>
    by_cases h0 : d.size_ = 0
    · exact Or.inr (Or.inl ⟨.out_of_range, by simp only [Call.run, pop_front_empty d h0]⟩)
    · have hw : WellFormed d := hd.resolve_right fun hu => h0 hu.size_eq
      obtain ⟨x, d2, h2, hw2, hl, _⟩ := pop_front_spec d hw h0
      refine Or.inl ⟨some x, d2, by simp only [Call.run, h2], Or.inl hw2, ?_⟩
      simp only [Call.effect, hl, List.tail_cons]
  | reserve n =>
    rcases reserve_cases d hd (n := n) ht with
      ⟨_, h2⟩ | ⟨_, _, d2, h2, hw, _, _, _, _, _, hl⟩ | ⟨_, _, _, h2⟩ | ⟨_, _, h0, h2⟩ |
      ⟨_, _, _, _, h2⟩
    · exact Or.inl ⟨none, d, by simp only [Call.run, h2], hd, rfl⟩
    · exact Or.inl ⟨none, d2, by simp only [Call.run, h2], Or.inl hw, hl⟩
    · exact Or.inr (Or.inl ⟨.bad_alloc, by simp only [Call.run, h2]⟩)
    · refine Or.inl ⟨none, _, by simp only [Call.run, h2], Or.inr unallocated_size_max, ?_⟩
      rw [logical_eq_nil d h0]
      rfl
    · exact Or.inr (Or.inr (by simp only [Call.run, h2]))
  | clear =>
    obtain ⟨d2, h2, hw, hs, _⟩ := clear_spec d hd
    refine Or.inl ⟨none, d2, by simp only [Call.run, h2], hw, ?_⟩
    rw [logical_eq_nil d2 hs]
    rfl

/-- The logical sequence of a deque is the sequence its history has built, and the
deque is in one of the two kinds of state. -/
theorem history_logical (d : DynamicRingBufferDeque α) (xs : List α) (h : History d xs) :
    (WellFormed d ∨ Unallocated d) ∧ d.logical = xs := by
  induction h with
  | default_constructed => exact ⟨Or.inr unallocated_default, rfl⟩
  | returns c d d1 xs r _ ht hrun ih =>
    rcases call_cases c d ih.1 ht with ⟨r2, d2, h2, hw, hl⟩ | ⟨e, h2⟩ | h2
    · rw [h2] at hrun
      obtain ⟨_, hd⟩ := Outcome.returns.inj hrun
      rw [← hd, ← ih.2]
      exact ⟨hw, hl⟩
    · rw [h2] at hrun; exact absurd hrun (by simp)
    · rw [h2] at hrun; exact absurd hrun (by simp)
  | throws c d d1 xs e _ ht hrun ih =>
    rcases call_cases c d ih.1 ht with ⟨r2, d2, h2, hw, hl⟩ | ⟨e2, h2⟩ | h2
    · rw [h2] at hrun; exact absurd hrun (by simp)
    · rw [h2] at hrun
      obtain ⟨_, hd⟩ := Outcome.throws.inj hrun
      rw [← hd]
      exact ih
    · rw [h2] at hrun; exact absurd hrun (by simp)

/-- A deque with a history is reachable. -/
theorem History.reachable (d : DynamicRingBufferDeque α) (xs : List α) (h : History d xs) :
    Reachable d := by
  induction h with
  | default_constructed => exact Reachable.default_constructed
  | returns c d d1 xs r _ ht hrun ih =>
    exact Reachable.call c d d1 ih ht (by rw [hrun]; rfl)
  | throws c d d1 xs e _ ht hrun ih =>
    exact Reachable.call c d d1 ih ht (by rw [hrun]; rfl)

/-- A reachable deque has a history. -/
theorem Reachable.history (d : DynamicRingBufferDeque α) (h : Reachable d) :
    ∃ xs, History d xs := by
  induction h with
  | default_constructed => exact ⟨[], History.default_constructed⟩
  | call c d d1 _ ht hrun ih =>
    obtain ⟨xs, hxs⟩ := ih
    cases hc : c.run d with
    | returns r s =>
      rw [hc] at hrun
      have hs : s = d1 := Option.some.inj hrun
      exact ⟨c.effect xs, History.returns c d d1 xs r hxs ht (by rw [hc, hs])⟩
    | throws e s =>
      rw [hc] at hrun
      have hs : s = d1 := Option.some.inj hrun
      exact ⟨xs, History.throws c d d1 xs e hxs ht (by rw [hc, hs])⟩
    | undefined =>
      rw [hc] at hrun
      exact absurd hrun (by simp [Outcome.state?])

omit [Inhabited α] in
/-- The only deque without a buffer and with capacity `SIZE_MAX` is the one
`reserve(SIZE_MAX)` leaves. -/
theorem unallocated_eq (d : DynamicRingBufferDeque α) (hu : Unallocated d)
    (hc : d.capacity_ = SIZE_MAX) : d = { capacity_ := SIZE_MAX } := by
  obtain ⟨h1, h2, h3, h4, h5, _⟩ := hu
  cases d
  simp only at h1 h2 h3 h4 h5 hc
  simp only [h1, h2, h3, h4, h5, hc]

/-- `push_back` on a reachable deque: it appends the value and adds one to the
size; or the deque is full and the doubled buffer cannot be allocated, then it
throws `std::bad_alloc` and changes nothing; or the deque is the one left by
`reserve(SIZE_MAX)`, then its behaviour is undefined. -/
theorem push_back_reachable (d : DynamicRingBufferDeque α) (hr : Reachable d) (v : α) :
    (∃ d2, d.push_back v = .returns () d2 ∧ d2.logical = d.logical ++ [v] ∧
      d2.size_ = d.size_ + 1) ∨
    (d.push_back v = .throws .bad_alloc d ∧ d.size_ = d.capacity_ ∧
      PTRDIFF_MAX < 2 * d.capacity_ + 1) ∨
    (d.push_back v = .undefined ∧ d = { capacity_ := SIZE_MAX }) := by
  rcases push_back_cases d (reachable_cases d hr) v with ⟨d2, h, _, hl, hs, _⟩ | h | ⟨h, hu, hc⟩
  · exact Or.inl ⟨d2, h, hl, hs⟩
  · exact Or.inr (Or.inl h)
  · exact Or.inr (Or.inr ⟨h, unallocated_eq d hu hc⟩)

/-- `push_front` on a reachable deque: it prepends the value and adds one to the
size; or the deque is full and the doubled buffer cannot be allocated, then it
throws `std::bad_alloc` and changes nothing; or the deque is the one left by
`reserve(SIZE_MAX)`, then its behaviour is undefined. -/
theorem push_front_reachable (d : DynamicRingBufferDeque α) (hr : Reachable d) (v : α) :
    (∃ d2, d.push_front v = .returns () d2 ∧ d2.logical = v :: d.logical ∧
      d2.size_ = d.size_ + 1) ∨
    (d.push_front v = .throws .bad_alloc d ∧ d.size_ = d.capacity_ ∧
      PTRDIFF_MAX < 2 * d.capacity_ + 1) ∨
    (d.push_front v = .undefined ∧ d = { capacity_ := SIZE_MAX }) := by
  rcases push_front_cases d (reachable_cases d hr) v with ⟨d2, h, _, hl, hs, _⟩ | h | ⟨h, hu, hc⟩
  · exact Or.inl ⟨d2, h, hl, hs⟩
  · exact Or.inr (Or.inl h)
  · exact Or.inr (Or.inr ⟨h, unallocated_eq d hu hc⟩)

/-- `reserve` on a reachable deque, for every argument of type `size_t`: nothing
changes for an argument up to the capacity; for a larger one whose buffer can be
allocated the capacity becomes the argument, the cursors 0 and `size_`, and the
logical sequence stays; a buffer too long throws `std::bad_alloc`;
`reserve(SIZE_MAX)` leaves an empty deque without a buffer and is undefined on a
deque that holds elements. -/
theorem reserve_reachable (d : DynamicRingBufferDeque α) (hr : Reachable d) {n : Nat}
    (hn : n < 2 ^ 64) :
    (n ≤ d.capacity_ ∧ d.reserve n = .returns () d) ∨
    (d.capacity_ < n ∧ n + 1 ≤ PTRDIFF_MAX ∧
      ∃ d1, d.reserve n = .returns () d1 ∧ d1.capacity_ = n ∧ d1.buff_size_ = n + 1 ∧
        d1.size_ = d.size_ ∧ d1.begin_ = ⟨0⟩ ∧ d1.end_ = ⟨d.size_⟩ ∧
        d1.logical = d.logical) ∨
    (d.capacity_ < n ∧ PTRDIFF_MAX < n + 1 ∧ n ≠ SIZE_MAX ∧ d.reserve n = .throws .bad_alloc d) ∨
    (d.capacity_ < n ∧ n = SIZE_MAX ∧ d.size_ = 0 ∧
      d.reserve n = .returns () { capacity_ := SIZE_MAX }) ∨
    (d.capacity_ < n ∧ n = SIZE_MAX ∧ d.size_ ≠ 0 ∧ d.reserve n = .undefined) := by
  rcases reserve_cases d (reachable_cases d hr) hn with
    h | ⟨h1, h2, d1, h3, _, h4⟩ | h | h | ⟨h1, h2, h3, _, h4⟩
  · exact Or.inl h
  · exact Or.inr (Or.inl ⟨h1, h2, d1, h3, h4⟩)
  · exact Or.inr (Or.inr (Or.inl h))
  · exact Or.inr (Or.inr (Or.inr (Or.inl h)))
  · exact Or.inr (Or.inr (Or.inr (Or.inr ⟨h1, h2, h3, h4⟩)))

theorem single_example_reachable : Reachable single_example :=
  Reachable.call (.push_back 1) {} single_example Reachable.default_constructed trivial
    (by decide)

theorem wrapped_example_reachable : Reachable wrapped_example :=
  Reachable.call (.push_front 2)
    ({ buff_ := [3, 0], size_ := 1, capacity_ := 1, buff_size_ := 2, begin_ := ⟨0⟩,
       end_ := ⟨1⟩ } : DynamicRingBufferDeque Int)
    wrapped_example
    (Reachable.call (.push_back 3) {} _ Reachable.default_constructed trivial (by decide))
    trivial (by decide)

theorem wrapped_example_history : History wrapped_example [2, 3] :=
  History.returns (.push_front 2)
    ({ buff_ := [3, 0], size_ := 1, capacity_ := 1, buff_size_ := 2, begin_ := ⟨0⟩,
       end_ := ⟨1⟩ } : DynamicRingBufferDeque Int)
    wrapped_example [3] none
    (History.returns (.push_back 3) {} _ [] none History.default_constructed trivial
      (by decide))
    trivial (by decide)

theorem size_max_example_reachable : Reachable size_max_example :=
  Reachable.call (.reserve SIZE_MAX) {} size_max_example Reachable.default_constructed
    (show SIZE_MAX < 2 ^ 64 by decide) (by decide)

/-- C1, at the failing input. The deque left by `reserve(SIZE_MAX)` on a
default-constructed deque is reachable, and `push_back(7)` on it does not append
7: it has undefined behaviour, `(index_ + 1) % buff_size_` with `buff_size_ == 0`. -/
theorem C1_push_back_after_reserve_size_max :
    Reachable size_max_example ∧ size_max_example.push_back 7 = .undefined :=
  ⟨size_max_example_reachable, by decide⟩

/-- C2, at the failing input. The deque left by `reserve(SIZE_MAX)` on a
default-constructed deque is reachable, and `push_front(7)` on it does not
prepend 7: it has undefined behaviour, `% buff_size_` with `buff_size_ == 0`. -/
theorem C2_push_front_after_reserve_size_max :
    Reachable size_max_example ∧ size_max_example.push_front 7 = .undefined :=
  ⟨size_max_example_reachable, by decide⟩

/-- C3. On a reachable deque whose logical sequence is `xs ++ [x]`, `pop_back`
returns `x`, leaves the logical sequence `xs`, decrements the size by one and
leaves the capacity and the begin cursor unchanged. -/
theorem C3_pop_back (d : DynamicRingBufferDeque α) (xs : List α) (x : α)
    (hr : Reachable d) (hl : d.logical = xs ++ [x]) :
    ∃ d1, d.pop_back = .returns x d1 ∧ d1.logical = xs ∧ d1.size_ + 1 = d.size_ ∧
      d1.capacity_ = d.capacity_ ∧ d1.begin_ = d.begin_ := by
  have hne : d.size_ ≠ 0 := by
    have := logical_length d
    rw [hl] at this
    simp at this
    omega
  obtain ⟨y, d1, h, _, hl1, hs, hc, _, hb, _⟩ := pop_back_spec d (reachable_nonempty d hr hne) hne
  rw [hl] at hl1
  obtain ⟨hxs, hx⟩ := List.append_inj' hl1 rfl
  have hxy : x = y := by simpa using hx
  exact ⟨d1, by rw [hxy, h], hxs.symm, by omega, hc, hb⟩

/-- C3, at the wrapped deque `[2, 3]`. -/
theorem C3_pop_back_witness :
    Reachable wrapped_example ∧ wrapped_example.logical = [2] ++ [3] ∧
    ∃ d1, wrapped_example.pop_back = .returns 3 d1 ∧ d1.logical = [2] ∧
      d1.size_ + 1 = wrapped_example.size_ ∧ d1.capacity_ = wrapped_example.capacity_ ∧
      d1.begin_ = wrapped_example.begin_ :=
  ⟨wrapped_example_reachable, by decide,
    C3_pop_back wrapped_example [2] 3 wrapped_example_reachable (by decide)⟩

/-- C4. On a reachable deque whose logical sequence is `x :: xs`, `pop_front`
returns `x`, leaves the logical sequence `xs`, decrements the size by one and
leaves the capacity and the end cursor unchanged. -/
theorem C4_pop_front (d : DynamicRingBufferDeque α) (xs : List α) (x : α)
    (hr : Reachable d) (hl : d.logical = x :: xs) :
    ∃ d1, d.pop_front = .returns x d1 ∧ d1.logical = xs ∧ d1.size_ + 1 = d.size_ ∧
      d1.capacity_ = d.capacity_ ∧ d1.end_ = d.end_ := by
  have hne : d.size_ ≠ 0 := by
    have := logical_length d
    rw [hl] at this
    simp at this
    omega
  obtain ⟨y, d1, h, _, hl1, hs, hc, _, he, _⟩ :=
    pop_front_spec d (reachable_nonempty d hr hne) hne
  rw [hl] at hl1
  obtain ⟨hxy, hxs⟩ := List.cons.inj hl1
  exact ⟨d1, by rw [hxy, h], hxs.symm, by omega, hc, he⟩

/-- C4, at the wrapped deque `[2, 3]`. -/
theorem C4_pop_front_witness :
    Reachable wrapped_example ∧ wrapped_example.logical = 2 :: [3] ∧
    ∃ d1, wrapped_example.pop_front = .returns 2 d1 ∧ d1.logical = [3] ∧
      d1.size_ + 1 = wrapped_example.size_ ∧ d1.capacity_ = wrapped_example.capacity_ ∧
      d1.end_ = wrapped_example.end_ :=
  ⟨wrapped_example_reachable, by decide,
    C4_pop_front wrapped_example [3] 2 wrapped_example_reachable (by decide)⟩

/-- C5. On a reachable deque, whose history has built the sequence `xs`,
`operator[](i)` throws `out_of_range` exactly when `i >= size()`; for `i < size()`
it returns the slot of index `(begin_.index_ + i) mod (capacity_ + 1)`, and that
slot holds the `i`-th element of the sequence in insertion order, which is the
`i`-th element of the logical sequence. -/
theorem C5_subscript (d : DynamicRingBufferDeque α) (xs : List α) (hr : History d xs)
    (i : Nat) :
    (d.subscript i = .throws .out_of_range d ↔ d.size_ ≤ i) ∧
    (i < d.size_ → ∃ x,
      d.subscript i = .returns ((d.begin_.index_ + i) % (d.capacity_ + 1), x) d ∧
      d.buff_[(d.begin_.index_ + i) % (d.capacity_ + 1)]? = some x ∧
      xs[i]? = some x ∧ d.logical[i]? = some x) := by
  by_cases hi : d.size_ ≤ i
  · refine ⟨⟨fun _ => hi, fun _ => ?_⟩, fun h => absurd h (Nat.not_lt.mpr hi)⟩
    simp [DynamicRingBufferDeque.subscript, hi]
  · have hlt : i < d.size_ := Nat.lt_of_not_le hi
    have hw := reachable_nonempty d (hr.reachable d xs) (by omega)
    have hxs := (history_logical d xs hr).2
    have hbs := hw.lt_pow
    have hbe := hw.buff_size_eq
    have hsl := hw.size_le
    have hb := hw.begin_lt
    have hadd : size_t.add d.begin_.index_ i = d.begin_.index_ + i := size_t_add_eq (by omega)
    have hslot : (d.begin_.index_ + i) % d.buff_size_ < d.buff_.length := by
      rw [hw.length_eq]; exact Nat.mod_lt _ (by omega)
    have hsub : d.subscript i =
        .returns ((d.begin_.index_ + i) % d.buff_size_,
          d.buff_[(d.begin_.index_ + i) % d.buff_size_]) d := by
      simp only [DynamicRingBufferDeque.subscript, Nat.not_lt_zero, ge_iff_le, hi, or_self,
        if_false, hadd, size_t_mod_eq (show d.buff_size_ ≠ 0 by omega),
        List.getElem?_eq_getElem hslot]
    have hlog : d.logical[i]? = some d.buff_[(d.begin_.index_ + i) % d.buff_size_] := by
      rw [logical_getElem? d hw.length_eq (by omega) hlt, List.getElem?_eq_getElem hslot]
    refine ⟨⟨fun h => ?_, fun h => absurd h hi⟩, fun _ => ?_⟩
    · rw [hsub] at h; exact absurd h (by simp)
    · refine ⟨d.buff_[(d.begin_.index_ + i) % d.buff_size_], ?_, ?_, ?_, hlog⟩
      · rw [hsub, ← hbe]
      · rw [← hbe, List.getElem?_eq_getElem hslot]
      · rw [← hxs, hlog]

/-- C5, at the wrapped deque built by `push_back(3); push_front(2)`: the index 2
is out of range, the index 1 gives the slot `(2 + 1) mod 3 = 0`, which holds 3,
the element of index 1 of the sequence `[2, 3]`. -/
theorem C5_subscript_witness :
    History wrapped_example [2, 3] ∧
    (wrapped_example.subscript 2 = .throws .out_of_range wrapped_example ↔
      wrapped_example.size_ ≤ 2) ∧
    wrapped_example.subscript 1 = .returns (0, 3) wrapped_example ∧
    ∃ x, wrapped_example.subscript 1 =
        .returns ((wrapped_example.begin_.index_ + 1) % (wrapped_example.capacity_ + 1), x)
          wrapped_example ∧
      wrapped_example.buff_[(wrapped_example.begin_.index_ + 1) %
        (wrapped_example.capacity_ + 1)]? = some x ∧
      ([2, 3] : List Int)[1]? = some x ∧ wrapped_example.logical[1]? = some x :=
  ⟨wrapped_example_history, (C5_subscript wrapped_example [2, 3] wrapped_example_history 2).1,
    by decide, (C5_subscript wrapped_example [2, 3] wrapped_example_history 1).2 (by decide)⟩

/-- C6. On a deque of size 0, whatever its capacity, `pop_back` and `pop_front`
throw `out_of_range` and leave every field as it was; on a deque that is not empty
neither throws, and on a reachable one both return a value. -/
theorem C6_pop_empty (d : DynamicRingBufferDeque α) :
    (d.size_ = 0 →
      d.pop_back = .throws .out_of_range d ∧ d.pop_front = .throws .out_of_range d) ∧
    (d.size_ ≠ 0 → ∀ e s, d.pop_back ≠ .throws e s ∧ d.pop_front ≠ .throws e s) ∧
    (Reachable d → d.size_ ≠ 0 →
      (∃ x d1, d.pop_back = .returns x d1) ∧ (∃ x d1, d.pop_front = .returns x d1)) := by
  refine ⟨fun h => ⟨pop_back_empty d h, pop_front_empty d h⟩, fun hne e s => ?_,
    fun hr hne => ?_⟩
  · have hempty : d.empty = false := by simp [DynamicRingBufferDeque.empty, hne]
    constructor
    · simp only [DynamicRingBufferDeque.pop_back, hempty, Bool.false_eq_true, if_false]
      split
      · simp
      · split <;> simp
    · simp only [DynamicRingBufferDeque.pop_front, hempty, Bool.false_eq_true, if_false]
      split
      · simp
      · split <;> simp
  · have hw := reachable_nonempty d hr hne
    obtain ⟨x, d1, h1, _⟩ := pop_back_spec d hw hne
    obtain ⟨y, d2, h2, _⟩ := pop_front_spec d hw hne
    exact ⟨⟨x, d1, h1⟩, ⟨y, d2, h2⟩⟩

/-- C6, at an empty deque of capacity 4 and at the wrapped deque `[2, 3]`. -/
theorem C6_pop_empty_witness :
    (({ buff_ := [0, 0, 0, 0, 0], capacity_ := 4, buff_size_ := 5 } :
        DynamicRingBufferDeque Int).pop_back =
      .throws .out_of_range { buff_ := [0, 0, 0, 0, 0], capacity_ := 4, buff_size_ := 5 } ∧
     ({ buff_ := [0, 0, 0, 0, 0], capacity_ := 4, buff_size_ := 5 } :
        DynamicRingBufferDeque Int).pop_front =
      .throws .out_of_range { buff_ := [0, 0, 0, 0, 0], capacity_ := 4, buff_size_ := 5 }) ∧
    ((∃ x d1, wrapped_example.pop_back = .returns x d1) ∧
      (∃ x d1, wrapped_example.pop_front = .returns x d1)) :=
  ⟨(C6_pop_empty _).1 rfl,
    (C6_pop_empty wrapped_example).2.2 wrapped_example_reachable (by decide)⟩

/-- C7. In every reachable state `0 <= size_ <= capacity_` and
`end_.index_ == (begin_.index_ + size_) mod (capacity_ + 1)`. -/
theorem C7_invariant (d : DynamicRingBufferDeque α) (hr : Reachable d) :
    0 ≤ d.size_ ∧ d.size_ ≤ d.capacity_ ∧
    d.end_.index_ = (d.begin_.index_ + d.size_) % (d.capacity_ + 1) := by
  rcases reachable_cases d hr with hw | hu
  · exact ⟨Nat.zero_le _, hw.size_le, by rw [← hw.buff_size_eq]; exact hw.end_eq⟩
  · refine ⟨Nat.zero_le _, by rw [hu.size_eq]; exact Nat.zero_le _, ?_⟩
    rw [hu.end_eq, hu.begin_eq, hu.size_eq]
    simp

/-- C7, at the wrapped deque `[2, 3]`: `1 = (2 + 2) mod 3`. -/
theorem C7_invariant_witness :
    Reachable wrapped_example ∧ 0 ≤ wrapped_example.size_ ∧
    wrapped_example.size_ ≤ wrapped_example.capacity_ ∧
    wrapped_example.end_.index_ =
      (wrapped_example.begin_.index_ + wrapped_example.size_) %
        (wrapped_example.capacity_ + 1) :=
  ⟨wrapped_example_reachable, C7_invariant wrapped_example wrapped_example_reachable⟩

/-- C8, at the failing input. The deque `[1]` left by `push_back(1)` is reachable
and `reserve(SIZE_MAX)` on it has undefined behaviour: `new_capacity + 1` wraps to
0, no array is allocated and the element is moved to `nullptr`. -/
theorem C8_reserve_size_max_undefined :
    Reachable single_example ∧ single_example.capacity_ < SIZE_MAX ∧
    single_example.reserve SIZE_MAX = .undefined :=
  ⟨single_example_reachable, by decide, by decide⟩

end dynamic_ring_buffer_deque

/-! ## Theorems: sequences of calls and iteration -/

namespace dynamic_ring_buffer_deque

variable {α : Type} [Inhabited α]

omit [Inhabited α] in
theorem Usable.cases {d : DynamicRingBufferDeque α} (h : Usable d) :
    WellFormed d ∨ Unallocated d :=
  h.imp id And.left

omit [Inhabited α] in
theorem usable_default : Usable ({} : DynamicRingBufferDeque α) :=
  Or.inr ⟨unallocated_default, rfl⟩

omit [Inhabited α] in
theorem final_nil (d : DynamicRingBufferDeque α) : final ([] : List (Step α)) d = d := rfl

omit [Inhabited α] in
theorem final_cons (s : Step α) (rest : List (Step α)) (d : DynamicRingBufferDeque α) :
    final (s :: rest) d = final rest s.after := by
  cases rest with
  | nil => rfl
  | cons t rest =>
    simp only [final, List.getLast?_cons_cons]
    cases h : (t :: rest).getLast? with
    | none => simp at h
    | some u => rfl

omit [Inhabited α] in
theorem final_append (xs ys : List (Step α)) (d : DynamicRingBufferDeque α) :
    final (xs ++ ys) d = final ys (final xs d) := by
  induction xs generalizing d with
  | nil => rfl
  | cons s xs ih => rw [List.cons_append, final_cons, final_cons, ih]

theorem perform_cons (c : Call α) (calls : List (Call α)) (d : DynamicRingBufferDeque α)
    (s : Step α) (rest : List (Step α)) (hs : c.step d = some s)
    (hrest : perform calls s.after = some rest) :
    perform (c :: calls) d = some (s :: rest) := by
  simp only [perform, hs, hrest]

theorem perform_append (xs ys : List (Call α)) (d : DynamicRingBufferDeque α)
    (sx sy : List (Step α)) (hx : perform xs d = some sx)
    (hy : perform ys (final sx d) = some sy) :
    perform (xs ++ ys) d = some (sx ++ sy) := by
  induction xs generalizing d sx with
  | nil =>
    simp only [perform, Option.some.injEq] at hx
    subst hx
    simpa using hy
  | cons c xs ih =>
    cases hc : c.step d with
    | none => simp [perform, hc] at hx
    | some s =>
      cases hp : perform xs s.after with
      | none => simp [perform, hc, hp] at hx
      | some rest =>
        simp only [perform, hc, hp, Option.some.injEq] at hx
        subst hx
        rw [final_cons] at hy
        exact perform_cons c (xs ++ ys) d s (rest ++ sy) hc (ih s.after rest hp hy)

/-- A push on a usable deque: it returns, the size grows by one and the value is
added to the logical sequence; or the deque is full, the doubled buffer cannot be
allocated, and the push throws `std::bad_alloc` and changes nothing. -/
theorem push_step (c : Call α) (hc : c.is_push = true) (d : DynamicRingBufferDeque α)
    (hd : Usable d) :
    ∃ s, c.step d = some s ∧ s.before = d ∧ s.call = c ∧ Usable s.after ∧
      ((s.observation = .returned none ∧ WellFormed s.after ∧ s.after.size_ = d.size_ + 1 ∧
          s.after.logical = c.effect d.logical ∧ s.after.capacity_ = grown_capacity d) ∨
        (s.observation = .threw .bad_alloc ∧ s.after = d ∧ d.size_ = d.capacity_ ∧
          PTRDIFF_MAX < 2 * d.capacity_ + 1)) := by
  have hS : SIZE_MAX ≠ 0 := by decide
  cases c with
  | push_back v =>
    rcases push_back_cases d hd.cases v with ⟨d2, h, hw, hl, hs, hcap, _⟩ | ⟨h, h1, h2⟩ | ⟨_, hu, hcap⟩
    · exact ⟨⟨d, .push_back v, .returned none, d2⟩, by simp only [Call.step, Call.run, h],
        rfl, rfl, Or.inl hw, Or.inl ⟨rfl, hw, hs, hl, hcap⟩⟩
    · exact ⟨⟨d, .push_back v, .threw .bad_alloc, d⟩, by simp only [Call.step, Call.run, h],
        rfl, rfl, hd, Or.inr ⟨rfl, rfl, h1, h2⟩⟩
    · rcases hd with hw | ⟨_, h0⟩
      · have := hw.lt_pow; have := hw.buff_size_eq
        rw [hcap] at this; unfold SIZE_MAX at this; omega
      · rw [h0] at hcap; exact absurd hcap.symm hS
  | push_front v =>
    rcases push_front_cases d hd.cases v with ⟨d2, h, hw, hl, hs, hcap, _⟩ | ⟨h, h1, h2⟩ | ⟨_, hu, hcap⟩
    · exact ⟨⟨d, .push_front v, .returned none, d2⟩, by simp only [Call.step, Call.run, h],
        rfl, rfl, Or.inl hw, Or.inl ⟨rfl, hw, hs, hl, hcap⟩⟩
    · exact ⟨⟨d, .push_front v, .threw .bad_alloc, d⟩, by simp only [Call.step, Call.run, h],
        rfl, rfl, hd, Or.inr ⟨rfl, rfl, h1, h2⟩⟩
    · rcases hd with hw | ⟨_, h0⟩
      · have := hw.lt_pow; have := hw.buff_size_eq
        rw [hcap] at this; unfold SIZE_MAX at this; omega
      · rw [h0] at hcap; exact absurd hcap.symm hS
  | pop_back => exact absurd hc (by simp [Call.is_push])
  | pop_front => exact absurd hc (by simp [Call.is_push])
  | reserve n => exact absurd hc (by simp [Call.is_push])
  | clear => exact absurd hc (by simp [Call.is_push])

/-- A pop on a usable deque: on an empty deque it throws `out_of_range` and
changes nothing; else it returns a value, the size shrinks by one and the value
leaves the logical sequence. -/
theorem pop_step (c : Call α) (hc : c.is_pop = true) (d : DynamicRingBufferDeque α)
    (hd : Usable d) :
    ∃ s, c.step d = some s ∧ s.before = d ∧ s.call = c ∧ Usable s.after ∧
      ((d.size_ = 0 ∧ s.observation = .threw .out_of_range ∧ s.after = d) ∨
        (d.size_ ≠ 0 ∧ ∃ x, s.observation = .returned (some x) ∧ WellFormed s.after ∧
          s.after.size_ + 1 = d.size_ ∧ s.after.logical = c.effect d.logical ∧
          s.after.capacity_ = d.capacity_ ∧
          ((c = .pop_back ∧ d.logical = s.after.logical ++ [x]) ∨
            (c = .pop_front ∧ d.logical = x :: s.after.logical)))) := by
  cases c with
  | pop_back =>
    by_cases h0 : d.size_ = 0
    · exact ⟨⟨d, .pop_back, .threw .out_of_range, d⟩,
        by simp only [Call.step, Call.run, pop_back_empty d h0], rfl, rfl, hd,
        Or.inl ⟨h0, rfl, rfl⟩⟩
    · have hw : WellFormed d := hd.cases.resolve_right fun hu => h0 hu.size_eq
      obtain ⟨x, d2, h, hw2, hl, hs, hcap, _⟩ := pop_back_spec d hw h0
      refine ⟨⟨d, .pop_back, .returned (some x), d2⟩,
        by simp only [Call.step, Call.run, h], rfl, rfl, Or.inl hw2,
        Or.inr ⟨h0, x, rfl, hw2, by simp only; omega, ?_, hcap, Or.inl ⟨rfl, hl⟩⟩⟩
      simp only [Call.effect, hl, List.dropLast_concat]
  | pop_front =>
    by_cases h0 : d.size_ = 0
    · exact ⟨⟨d, .pop_front, .threw .out_of_range, d⟩,
        by simp only [Call.step, Call.run, pop_front_empty d h0], rfl, rfl, hd,
        Or.inl ⟨h0, rfl, rfl⟩⟩
    · have hw : WellFormed d := hd.cases.resolve_right fun hu => h0 hu.size_eq
      obtain ⟨x, d2, h, hw2, hl, hs, hcap, _⟩ := pop_front_spec d hw h0
      refine ⟨⟨d, .pop_front, .returned (some x), d2⟩,
        by simp only [Call.step, Call.run, h], rfl, rfl, Or.inl hw2,
        Or.inr ⟨h0, x, rfl, hw2, by simp only; omega, ?_, hcap, Or.inr ⟨rfl, hl⟩⟩⟩
      simp only [Call.effect, hl, List.tail_cons]
  | push_back v => exact absurd hc (by simp [Call.is_pop])
  | push_front v => exact absurd hc (by simp [Call.is_pop])
  | reserve n => exact absurd hc (by simp [Call.is_pop])
  | clear => exact absurd hc (by simp [Call.is_pop])

end dynamic_ring_buffer_deque

namespace dynamic_ring_buffer_deque

variable {α : Type} [Inhabited α]

omit [Inhabited α] in
theorem Call.not_pop_of_push (c : Call α) (h : c.is_push = true) : c.is_pop = false := by
  cases c <;> simp_all [Call.is_push, Call.is_pop]

omit [Inhabited α] in
theorem Call.not_push_of_pop (c : Call α) (h : c.is_pop = true) : c.is_push = false := by
  cases c <;> simp_all [Call.is_push, Call.is_pop]

/-- The growth of a push on a reachable deque: when it returns, the capacity is
the one of the growth policy, and with room in the deque the buffer size stays;
or the push throws `std::bad_alloc` on a full deque and changes nothing; or the
deque is the one left by `reserve(SIZE_MAX)` and the behaviour is undefined. -/
theorem growth_reachable (d : DynamicRingBufferDeque α) (hr : Reachable d) (v : α) :
    ((∃ d2, d.push_back v = .returns () d2 ∧ d2.capacity_ = grown_capacity d ∧
        (d.size_ < d.capacity_ → d2.capacity_ = d.capacity_ ∧ d2.buff_size_ = d.buff_size_)) ∨
      (d.push_back v = .throws .bad_alloc d ∧ d.size_ = d.capacity_) ∨
      (d.push_back v = .undefined ∧ d = { capacity_ := SIZE_MAX })) ∧
    ((∃ d2, d.push_front v = .returns () d2 ∧ d2.capacity_ = grown_capacity d ∧
        (d.size_ < d.capacity_ → d2.capacity_ = d.capacity_ ∧ d2.buff_size_ = d.buff_size_)) ∨
      (d.push_front v = .throws .bad_alloc d ∧ d.size_ = d.capacity_) ∨
      (d.push_front v = .undefined ∧ d = { capacity_ := SIZE_MAX })) := by
  have hgrow : d.size_ < d.capacity_ → grown_capacity d = d.capacity_ := by
    intro h
    simp [grown_capacity, Nat.ne_of_lt h]
  constructor
  · rcases push_back_cases d (reachable_cases d hr) v with
      ⟨d2, h, _, _, _, hc, hb⟩ | ⟨h, h1, _⟩ | ⟨h, hu, hc⟩
    · exact Or.inl ⟨d2, h, hc, fun hlt =>
        ⟨by rw [hc, hgrow hlt], (hb (Nat.ne_of_lt hlt)).1⟩⟩
    · exact Or.inr (Or.inl ⟨h, h1⟩)
    · exact Or.inr (Or.inr ⟨h, unallocated_eq d hu hc⟩)
  · rcases push_front_cases d (reachable_cases d hr) v with
      ⟨d2, h, _, _, _, hc, hb⟩ | ⟨h, h1, _⟩ | ⟨h, hu, hc⟩
    · exact Or.inl ⟨d2, h, hc, fun hlt =>
        ⟨by rw [hc, hgrow hlt], (hb (Nat.ne_of_lt hlt)).1⟩⟩
    · exact Or.inr (Or.inl ⟨h, h1⟩)
    · exact Or.inr (Or.inr ⟨h, unallocated_eq d hu hc⟩)

/-- C11, at the failing input. The deque left by `reserve(SIZE_MAX)` on a
default-constructed deque is reachable and has `size_ < capacity_`; a push on it
does not leave the capacity and the buffer size as they were: `push_back(7)` and
`push_front(7)` both evaluate `% buff_size_` with `buff_size_ == 0`, undefined
behaviour. -/
theorem C11_push_with_room_undefined :
    Reachable size_max_example ∧ size_max_example.size_ < size_max_example.capacity_ ∧
    size_max_example.push_back 7 = .undefined ∧ size_max_example.push_front 7 = .undefined :=
  ⟨size_max_example_reachable, by decide, by decide, by decide⟩

/-- Size accounting from any usable deque: the calls are all performed, the size
grows by the pushes that returned and shrinks by the pops that did not fail, a
pop fails exactly on an empty deque, and no push fails while the deque holds
fewer than 2^62 elements. -/
theorem perform_push_pop (calls : List (Call α)) :
    ∀ d : DynamicRingBufferDeque α, Usable d →
      (∀ c ∈ calls, c.is_push = true ∨ c.is_pop = true) →
      ∃ steps, perform calls d = some steps ∧ steps.map (·.call) = calls ∧
        Usable (final steps d) ∧
        (final steps d).size_ + pops steps = d.size_ + pushes steps ∧
        (∀ s ∈ steps, s.call.is_pop = true →
          (s.observation = .threw .out_of_range ↔ s.before.size_ = 0) ∧
          (s.before.size_ ≠ 0 → ∃ x, s.observation = .returned (some x))) ∧
        (d.size_ + calls.length ≤ 2 ^ 62 →
          ∀ s ∈ steps, s.call.is_push = true → s.observation = .returned none) := by
  have hP : PTRDIFF_MAX = 2 ^ 63 - 1 := rfl
  induction calls with
  | nil =>
    intro d hd _
    exact ⟨[], rfl, rfl, hd, rfl, by simp, by simp⟩
  | cons c calls ih =>
    intro d hd hcs
    have hc := hcs c (List.mem_cons_self _ _)
    have hrest : ∀ c1 ∈ calls, c1.is_push = true ∨ c1.is_pop = true :=
      fun c1 h1 => hcs c1 (List.mem_cons_of_mem _ h1)
    rcases hc with hpush | hpop
    · have hnp : c.is_pop = false := c.not_pop_of_push hpush
      obtain ⟨s, hs, hsb, hsc, hsu, hcase⟩ := push_step c hpush d hd
      obtain ⟨rest, hp, hmap, hu, hsize, hpopf, hpushf⟩ := ih s.after hsu hrest
      refine ⟨s :: rest, perform_cons c calls d s rest hs hp, by simp [hsc, hmap],
        by rw [final_cons]; exact hu, ?_, ?_, ?_⟩
      · rw [final_cons]
        rcases hcase with ⟨ho, _, hsz, _⟩ | ⟨ho, ha, _⟩
        · have h1 : pushes (s :: rest) = pushes rest + 1 := by
            simp [pushes, List.countP_cons, hsc, hpush, Step.returned, ho]
          have h2 : pops (s :: rest) = pops rest := by
            simp [pops, List.countP_cons, hsc, hnp]
          rw [h1, h2]; omega
        · have h1 : pushes (s :: rest) = pushes rest := by
            simp [pushes, List.countP_cons, hsc, hpush, Step.returned, ho]
          have h2 : pops (s :: rest) = pops rest := by
            simp [pops, List.countP_cons, hsc, hnp]
          rw [h1, h2, ← ha]; exact hsize
      · intro t ht htp
        rcases List.mem_cons.mp ht with rfl | ht
        · rw [hsc, hnp] at htp; exact absurd htp (by simp)
        · exact hpopf t ht htp
      · intro hlen t ht htp
        simp only [List.length_cons] at hlen
        rcases hcase with ⟨ho, _, hsz, _⟩ | ⟨ho, ha, hfull, hbig⟩
        · rcases List.mem_cons.mp ht with rfl | ht
          · exact ho
          · exact hpushf (by omega) t ht htp
        · have hcap : d.capacity_ < 2 ^ 62 := by omega
          omega
    · have hnp : c.is_push = false := c.not_push_of_pop hpop
      obtain ⟨s, hs, hsb, hsc, hsu, hcase⟩ := pop_step c hpop d hd
      obtain ⟨rest, hp, hmap, hu, hsize, hpopf, hpushf⟩ := ih s.after hsu hrest
      refine ⟨s :: rest, perform_cons c calls d s rest hs hp, by simp [hsc, hmap],
        by rw [final_cons]; exact hu, ?_, ?_, ?_⟩
      · rw [final_cons]
        have h1 : pushes (s :: rest) = pushes rest := by
          simp [pushes, List.countP_cons, hsc, hnp]
        rcases hcase with ⟨h0, ho, ha⟩ | ⟨h0, x, ho, _, hsz, _⟩
        · have h2 : pops (s :: rest) = pops rest := by
            simp [pops, List.countP_cons, hsc, hpop, Step.returned, ho]
          rw [h1, h2, ← ha]; exact hsize
        · have h2 : pops (s :: rest) = pops rest + 1 := by
            simp [pops, List.countP_cons, hsc, hpop, Step.returned, ho]
          rw [h1, h2]; omega
      · intro t ht htp
        rcases List.mem_cons.mp ht with rfl | ht
        · rw [hsb]
          rcases hcase with ⟨h0, ho, _⟩ | ⟨h0, x, ho, _⟩
          · exact ⟨⟨fun _ => h0, fun _ => ho⟩, fun h => absurd h0 h⟩
          · refine ⟨⟨fun h => ?_, fun h => absurd h h0⟩, fun _ => ⟨x, ho⟩⟩
            rw [ho] at h; exact absurd h (by simp)
        · exact hpopf t ht htp
      · intro hlen t ht htp
        simp only [List.length_cons] at hlen
        rcases List.mem_cons.mp ht with rfl | ht
        · rw [hsc, hnp] at htp; exact absurd htp (by simp)
        · refine hpushf ?_ t ht htp
          rcases hcase with ⟨_, _, ha⟩ | ⟨_, _, _, _, hsz, _⟩
          · rw [ha]; omega
          · omega

/-- C12. For every finite sequence of `push_back`, `push_front`, `pop_back` and
`pop_front` calls on a default-constructed deque: every call has defined
behaviour, the size after the sequence is the number of pushes that returned
minus the number of pops that did not fail, a pop fails, with `out_of_range`,
exactly when the size is 0 at that point and returns a value otherwise, and in a
sequence of at most 2^62 calls every push returns. -/
theorem C12_size_accounting (calls : List (Call α))
    (h : ∀ c ∈ calls, c.is_push = true ∨ c.is_pop = true) :
    ∃ steps, perform calls {} = some steps ∧ steps.map (·.call) = calls ∧
      (final steps {}).size_ + pops steps = pushes steps ∧
      (∀ s ∈ steps, s.call.is_pop = true →
        (s.observation = .threw .out_of_range ↔ s.before.size_ = 0) ∧
        (s.before.size_ ≠ 0 → ∃ x, s.observation = .returned (some x))) ∧
      (calls.length ≤ 2 ^ 62 →
        ∀ s ∈ steps, s.call.is_push = true → s.observation = .returned none) := by
  obtain ⟨steps, h1, h2, _, h4, h5, h6⟩ := perform_push_pop calls {} usable_default h
  refine ⟨steps, h1, h2, ?_, h5, fun hlen => h6 ?_⟩
  · simpa using h4
  · simpa using hlen

end dynamic_ring_buffer_deque

namespace dynamic_ring_buffer_deque

variable {α : Type} [Inhabited α]

/-- C12, at the calls of `main.cpp`: five pushes and two pops leave the size 3. -/
theorem C12_size_accounting_witness :
    (∀ c ∈ main_calls, c.is_push = true ∨ c.is_pop = true) ∧
    ∃ steps, perform main_calls {} = some steps ∧ steps.map (·.call) = main_calls ∧
      (final steps {}).size_ + pops steps = pushes steps ∧
      (∀ s ∈ steps, s.call.is_pop = true →
        (s.observation = .threw .out_of_range ↔ s.before.size_ = 0) ∧
        (s.before.size_ ≠ 0 → ∃ x, s.observation = .returned (some x))) ∧
      (main_calls.length ≤ 2 ^ 62 →
        ∀ s ∈ steps, s.call.is_push = true → s.observation = .returned none) :=
  ⟨by decide, C12_size_accounting main_calls (by decide)⟩

/-- Pushing values at the back of a usable deque that stays below 2^62 elements:
every push returns and the values are appended in order. -/
theorem perform_push_back (vs : List α) :
    ∀ d : DynamicRingBufferDeque α, Usable d → d.size_ + vs.length ≤ 2 ^ 62 →
      ∃ steps, perform (vs.map .push_back) d = some steps ∧
        steps.map (·.observation) = vs.map (fun _ => .returned none) ∧
        Usable (final steps d) ∧ (final steps d).logical = d.logical ++ vs := by
  have hP : PTRDIFF_MAX = 2 ^ 63 - 1 := rfl
  induction vs with
  | nil => intro d hd _; exact ⟨[], rfl, rfl, hd, by simp [final_nil]⟩
  | cons v vs ih =>
    intro d hd hlen
    simp only [List.length_cons] at hlen
    obtain ⟨s, hs, _, _, hsu, hcase⟩ := push_step (.push_back v) rfl d hd
    rcases hcase with ⟨ho, _, hsz, hl, _⟩ | ⟨_, _, hfull, hbig⟩
    · obtain ⟨rest, hp, hobs, hu, hlog⟩ := ih s.after hsu (by omega)
      refine ⟨s :: rest, perform_cons _ _ d s rest hs hp, by simp [ho, hobs],
        by rw [final_cons]; exact hu, ?_⟩
      rw [final_cons, hlog, hl]
      simp [Call.effect]
    · omega

/-- Pushing values at the front of a usable deque that stays below 2^62 elements:
every push returns and the values are prepended, the last one pushed first. -/
theorem perform_push_front (vs : List α) :
    ∀ d : DynamicRingBufferDeque α, Usable d → d.size_ + vs.length ≤ 2 ^ 62 →
      ∃ steps, perform (vs.map .push_front) d = some steps ∧
        steps.map (·.observation) = vs.map (fun _ => .returned none) ∧
        Usable (final steps d) ∧ (final steps d).logical = vs.reverse ++ d.logical := by
  have hP : PTRDIFF_MAX = 2 ^ 63 - 1 := rfl
  induction vs with
  | nil => intro d hd _; exact ⟨[], rfl, rfl, hd, by simp [final_nil]⟩
  | cons v vs ih =>
    intro d hd hlen
    simp only [List.length_cons] at hlen
    obtain ⟨s, hs, _, _, hsu, hcase⟩ := push_step (.push_front v) rfl d hd
    rcases hcase with ⟨ho, _, hsz, hl, _⟩ | ⟨_, _, hfull, hbig⟩
    · obtain ⟨rest, hp, hobs, hu, hlog⟩ := ih s.after hsu (by omega)
      refine ⟨s :: rest, perform_cons _ _ d s rest hs hp, by simp [ho, hobs],
        by rw [final_cons]; exact hu, ?_⟩
      rw [final_cons, hlog, hl]
      simp [Call.effect]
    · omega

/-- Popping at the back as many times as the deque has elements after `xs`: the
pops return these elements, the last one first, and leave `xs`. -/
theorem perform_pop_back (zs : List α) :
    ∀ (d : DynamicRingBufferDeque α) (xs : List α), Usable d →
      d.logical = xs ++ zs.reverse →
      ∃ steps, perform (List.replicate zs.length .pop_back) d = some steps ∧
        steps.map (·.observation) = zs.map (fun z => .returned (some z)) ∧
        Usable (final steps d) ∧ (final steps d).logical = xs := by
  induction zs with
  | nil =>
    intro d xs hd hl
    exact ⟨[], rfl, rfl, hd, by simpa [final_nil] using hl⟩
  | cons z zs ih =>
    intro d xs hd hl
    have hne : d.size_ ≠ 0 := by
      have := logical_length d
      rw [hl] at this
      simp at this
      omega
    obtain ⟨s, hs, _, _, hsu, hcase⟩ := pop_step .pop_back rfl d hd
    rcases hcase with ⟨h0, _⟩ | ⟨_, x, ho, _, _, _, _, hdir⟩
    · exact absurd h0 hne
    · rcases hdir with ⟨_, hdl⟩ | ⟨hc, _⟩
      · rw [hl, List.reverse_cons, ← List.append_assoc] at hdl
        obtain ⟨hxs, hx⟩ := List.append_inj' hdl rfl
        have hzx : z = x := by simpa using hx
        obtain ⟨rest, hp, hobs, hu, hlog⟩ := ih s.after xs hsu hxs.symm
        exact ⟨s :: rest, perform_cons _ _ d s rest hs hp, by simp [ho, hobs, hzx],
          by rw [final_cons]; exact hu, by rw [final_cons, hlog]⟩
      · exact absurd hc (by simp)

/-- Popping at the front as many times as the deque has elements before `xs`:
the pops return these elements in order and leave `xs`. -/
theorem perform_pop_front (ys : List α) :
    ∀ (d : DynamicRingBufferDeque α) (xs : List α), Usable d →
      d.logical = ys ++ xs →
      ∃ steps, perform (List.replicate ys.length .pop_front) d = some steps ∧
        steps.map (·.observation) = ys.map (fun y => .returned (some y)) ∧
        Usable (final steps d) ∧ (final steps d).logical = xs := by
  induction ys with
  | nil =>
    intro d xs hd hl
    exact ⟨[], rfl, rfl, hd, by simpa [final_nil] using hl⟩
  | cons y ys ih =>
    intro d xs hd hl
    have hne : d.size_ ≠ 0 := by
      have := logical_length d
      rw [hl] at this
      simp at this
      omega
    obtain ⟨s, hs, _, _, hsu, hcase⟩ := pop_step .pop_front rfl d hd
    rcases hcase with ⟨h0, _⟩ | ⟨_, x, ho, _, _, _, _, hdir⟩
    · exact absurd h0 hne
    · rcases hdir with ⟨hc, _⟩ | ⟨_, hdl⟩
      · exact absurd hc (by simp)
      · rw [hl, List.cons_append] at hdl
        obtain ⟨hyx, hxs⟩ := List.cons.inj hdl
        obtain ⟨rest, hp, hobs, hu, hlog⟩ := ih s.after xs hsu hxs.symm
        exact ⟨s :: rest, perform_cons _ _ d s rest hs hp, by simp [ho, hobs, hyx],
          by rw [final_cons]; exact hu, by rw [final_cons, hlog]⟩

end dynamic_ring_buffer_deque

namespace dynamic_ring_buffer_deque

variable {α : Type} [Inhabited α]

/-- The round trip at the back from a usable deque that stays below 2^62
elements: the pushes return, the pops return the values in reverse order, and the
logical sequence and the size are as before. -/
theorem lifo_usable (vs : List α) (d : DynamicRingBufferDeque α) (hd : Usable d)
    (hlen : d.size_ + vs.length ≤ 2 ^ 62) :
    ∃ steps, perform (lifo_calls vs) d = some steps ∧
      steps.map (·.observation) =
        vs.map (fun _ => .returned none) ++ vs.reverse.map (fun v => .returned (some v)) ∧
      (final steps d).logical = d.logical ∧ (final steps d).size_ = d.size_ := by
  obtain ⟨s1, h1, ho1, hu1, hl1⟩ := perform_push_back vs d hd hlen
  obtain ⟨s2, h2, ho2, hu2, hl2⟩ :=
    perform_pop_back vs.reverse (final s1 d) d.logical hu1 (by rw [hl1, List.reverse_reverse])
  rw [List.length_reverse] at h2
  refine ⟨s1 ++ s2, perform_append _ _ d s1 s2 h1 h2, by rw [List.map_append, ho1, ho2], ?_, ?_⟩
  · rw [final_append, hl2]
  · rw [← logical_length, ← logical_length d, final_append, hl2]

/-- C13, at the failing input. On the reachable deque left by `reserve(SIZE_MAX)`
the round trip with the one value 7 does not return 7: the first call,
`push_back(7)`, has undefined behaviour. -/
theorem C13_lifo_after_reserve_size_max :
    Reachable size_max_example ∧ lifo_calls [(7 : Int)] = [.push_back 7, .pop_back] ∧
    perform (lifo_calls [7]) size_max_example = none :=
  ⟨size_max_example_reachable, rfl, by decide⟩

/-- Pushing at the back and popping at the front, from an empty usable deque and
for at most 2^62 values: the pops return the values in the order of the pushes
and leave the deque empty. -/
theorem fifo_back_usable (vs : List α) (d : DynamicRingBufferDeque α) (hd : Usable d)
    (hempty : d.size_ = 0) (hlen : vs.length ≤ 2 ^ 62) :
    ∃ steps, perform (fifo_back_calls vs) d = some steps ∧
      steps.map (·.observation) =
        vs.map (fun _ => .returned none) ++ vs.map (fun v => .returned (some v)) ∧
      (final steps d).logical = [] ∧ (final steps d).size_ = 0 := by
  have hnil : d.logical = [] := logical_eq_nil d hempty
  obtain ⟨s1, h1, ho1, hu1, hl1⟩ := perform_push_back vs d hd (by omega)
  obtain ⟨s2, h2, ho2, hu2, hl2⟩ :=
    perform_pop_front vs (final s1 d) [] hu1 (by rw [hl1, hnil]; simp)
  refine ⟨s1 ++ s2, perform_append _ _ d s1 s2 h1 h2, by rw [List.map_append, ho1, ho2], ?_, ?_⟩
  · rw [final_append, hl2]
  · rw [← logical_length, final_append, hl2]; rfl

/-- Pushing at the front and popping at the back, from an empty usable deque and
for at most 2^62 values: the pops return the values in the order of the pushes
and leave the deque empty. -/
theorem fifo_front_usable (vs : List α) (d : DynamicRingBufferDeque α) (hd : Usable d)
    (hempty : d.size_ = 0) (hlen : vs.length ≤ 2 ^ 62) :
    ∃ steps, perform (fifo_front_calls vs) d = some steps ∧
      steps.map (·.observation) =
        vs.map (fun _ => .returned none) ++ vs.map (fun v => .returned (some v)) ∧
      (final steps d).logical = [] ∧ (final steps d).size_ = 0 := by
  have hnil : d.logical = [] := logical_eq_nil d hempty
  obtain ⟨s1, h1, ho1, hu1, hl1⟩ := perform_push_front vs d hd (by omega)
  obtain ⟨s2, h2, ho2, hu2, hl2⟩ :=
    perform_pop_back vs (final s1 d) [] hu1 (by rw [hl1, hnil]; simp)
  refine ⟨s1 ++ s2, perform_append _ _ d s1 s2 h1 h2, by rw [List.map_append, ho1, ho2], ?_, ?_⟩
  · rw [final_append, hl2]
  · rw [← logical_length, final_append, hl2]; rfl

/-- C14, the failing input.  `size_max_example`, the deque left by
`reserve(SIZE_MAX)` on a default-constructed deque, is reachable and empty.  For
the single value 7, `push_back(7)` followed by `pop_front()`, and
`push_front(7)` followed by `pop_back()`, have undefined behaviour on it, at the
push; on the default-constructed deque both sequences return 7 and leave the
deque empty. -/
theorem C14_fifo_after_reserve_size_max :
    Reachable size_max_example ∧ size_max_example.empty = true ∧
    fifo_back_calls [(7 : Int)] = [.push_back 7, .pop_front] ∧
    fifo_front_calls [(7 : Int)] = [.push_front 7, .pop_back] ∧
    perform (fifo_back_calls [7]) size_max_example = none ∧
    perform (fifo_front_calls [7]) size_max_example = none ∧
    (perform (fifo_back_calls [7]) ({} : DynamicRingBufferDeque Int)).map
      (fun steps => (steps.map (·.observation), (final steps {}).size)) =
      some ([.returned none, .returned (some 7)], 0) ∧
    (perform (fifo_front_calls [7]) ({} : DynamicRingBufferDeque Int)).map
      (fun steps => (steps.map (·.observation), (final steps {}).size)) =
      some ([.returned none, .returned (some 7)], 0) :=
  ⟨size_max_example_reachable, rfl, rfl, rfl, by decide, by decide, by decide, by decide⟩

end dynamic_ring_buffer_deque

namespace dynamic_ring_buffer_deque

variable {α : Type} [Inhabited α]

omit [Inhabited α] in
/-- On a deque with a buffer, `n` increments move a cursor `n` slots further,
modulo the buffer size. -/
theorem advance_eq (d : DynamicRingBufferDeque α) (hd : WellFormed d) (n : Nat) :
    ∀ it : BasicIterator, it.index_ < d.buff_size_ →
      d.advance n it = some ⟨(it.index_ + n) % d.buff_size_⟩ := by
  have hbs := hd.lt_pow
  induction n with
  | zero =>
    intro it hit
    cases it
    simp only [DynamicRingBufferDeque.advance, Nat.add_zero]
    rw [Nat.mod_eq_of_lt hit]
  | succ n ih =>
    intro it hit
    have hinc : it.increment d.buff_size_ = some ⟨(it.index_ + 1) % d.buff_size_⟩ :=
      increment_eq it (by omega) (by omega)
    simp only [DynamicRingBufferDeque.advance, hinc]
    rw [ih ⟨(it.index_ + 1) % d.buff_size_⟩ (Nat.mod_lt _ (by omega))]
    simp only [Nat.mod_add_mod]
    rw [show it.index_ + 1 + n = it.index_ + (n + 1) by omega]

omit [Inhabited α] in
theorem WellFormed.end_eq_mk (d : DynamicRingBufferDeque α) (hd : WellFormed d) :
    d.end_ = ⟨(d.begin_.index_ + d.size_) % d.buff_size_⟩ := by
  have := hd.end_eq
  cases he : d.end_
  rw [he] at this
  simp only [BasicIterator.mk.injEq]
  exact this

omit [Inhabited α] in
theorem WellFormed.cursor_ne_end (d : DynamicRingBufferDeque α) (hd : WellFormed d) {k : Nat}
    (hk : k < d.size_) :
    (⟨(d.begin_.index_ + k) % d.buff_size_⟩ : BasicIterator) ≠ d.end_ := by
  have hsl := hd.size_le
  have hbe := hd.buff_size_eq
  rw [hd.end_eq_mk]
  intro h
  exact mod_add_ne hk (by omega) (BasicIterator.mk.inj h)

/-- The loop over the cursors of a deque with a buffer, from the `k`-th logical
position to `end_`, meets the logical sequence from its `k`-th element on. -/
theorem range_values_from (d : DynamicRingBufferDeque α) (hd : WellFormed d) (m : Nat) :
    ∀ (k fuel : Nat), k + m = d.size_ → m ≤ fuel →
      d.range_values fuel ⟨(d.begin_.index_ + k) % d.buff_size_⟩ d.end_ =
        some (d.logical.drop k) := by
  have hbs := hd.lt_pow
  have hsl := hd.size_le
  have hbe := hd.buff_size_eq
  induction m with
  | zero =>
    intro k fuel hk _
    have hkz : k = d.size_ := by omega
    have hdrop : d.logical.drop k = [] := by
      apply List.drop_eq_nil_of_le
      rw [logical_length]; omega
    rw [hdrop, hkz, ← hd.end_eq_mk]
    cases fuel <;> simp [DynamicRingBufferDeque.range_values]
  | succ m ih =>
    intro k fuel hk hfuel
    have hex : ∃ f, fuel = f + 1 := ⟨fuel - 1, by omega⟩
    obtain ⟨f, rfl⟩ := hex
    have hklt : k < d.size_ := by omega
    have hne := hd.cursor_ne_end d hklt
    have hslot : (d.begin_.index_ + k) % d.buff_size_ < d.buff_.length := by
      rw [hd.length_eq]; exact Nat.mod_lt _ (by omega)
    have hslot2 : (d.begin_.index_ + k) % d.buff_size_ < d.buff_size_ :=
      Nat.mod_lt _ (by omega)
    have hinc : (⟨(d.begin_.index_ + k) % d.buff_size_⟩ : BasicIterator).increment d.buff_size_ =
        some ⟨(d.begin_.index_ + (k + 1)) % d.buff_size_⟩ := by
      rw [increment_eq _ (by omega) (by simp only; omega)]
      simp only [Nat.mod_add_mod, Nat.add_assoc]
    have hlog : d.logical[k]? = some d.buff_[(d.begin_.index_ + k) % d.buff_size_] := by
      rw [logical_getElem? d hd.length_eq (by omega) hklt, List.getElem?_eq_getElem hslot]
    have hkl : k < d.logical.length := by rw [logical_length]; exact hklt
    have hdrop : d.logical.drop k =
        d.buff_[(d.begin_.index_ + k) % d.buff_size_] :: d.logical.drop (k + 1) := by
      rw [List.drop_eq_getElem_cons hkl]
      rw [List.getElem?_eq_getElem hkl] at hlog
      rw [Option.some.inj hlog]
    rw [hdrop]
    simp only [DynamicRingBufferDeque.range_values, hne, if_false,
      DynamicRingBufferDeque.deref, List.getElem?_eq_getElem hslot, hinc,
      ih (k + 1) f (by omega) (by omega), Option.map_some']

/-- `std::accumulate` over the cursors of a deque with a buffer, from the `k`-th
logical position to `end_`. -/
theorem std_accumulate_from [Add α] (d : DynamicRingBufferDeque α) (hd : WellFormed d)
    (m : Nat) :
    ∀ (k fuel : Nat) (init : α), k + m = d.size_ → m ≤ fuel →
      std_accumulate d fuel ⟨(d.begin_.index_ + k) % d.buff_size_⟩ d.end_ init =
        some ((d.logical.drop k).foldl (· + ·) init) := by
  have hbs := hd.lt_pow
  have hsl := hd.size_le
  have hbe := hd.buff_size_eq
  induction m with
  | zero =>
    intro k fuel init hk _
    have hkz : k = d.size_ := by omega
    have hdrop : d.logical.drop k = [] := by
      apply List.drop_eq_nil_of_le
      rw [logical_length]; omega
    rw [hdrop, hkz, ← hd.end_eq_mk]
    cases fuel <;> simp [std_accumulate]
  | succ m ih =>
    intro k fuel init hk hfuel
    have hex : ∃ f, fuel = f + 1 := ⟨fuel - 1, by omega⟩
    obtain ⟨f, rfl⟩ := hex
    have hklt : k < d.size_ := by omega
    have hne := hd.cursor_ne_end d hklt
    have hslot : (d.begin_.index_ + k) % d.buff_size_ < d.buff_.length := by
      rw [hd.length_eq]; exact Nat.mod_lt _ (by omega)
    have hslot2 : (d.begin_.index_ + k) % d.buff_size_ < d.buff_size_ :=
      Nat.mod_lt _ (by omega)
    have hinc : (⟨(d.begin_.index_ + k) % d.buff_size_⟩ : BasicIterator).increment d.buff_size_ =
        some ⟨(d.begin_.index_ + (k + 1)) % d.buff_size_⟩ := by
      rw [increment_eq _ (by omega) (by simp only; omega)]
      simp only [Nat.mod_add_mod, Nat.add_assoc]
    have hlog : d.logical[k]? = some d.buff_[(d.begin_.index_ + k) % d.buff_size_] := by
      rw [logical_getElem? d hd.length_eq (by omega) hklt, List.getElem?_eq_getElem hslot]
    have hkl : k < d.logical.length := by rw [logical_length]; exact hklt
    have hdrop : d.logical.drop k =
        d.buff_[(d.begin_.index_ + k) % d.buff_size_] :: d.logical.drop (k + 1) := by
      rw [List.drop_eq_getElem_cons hkl]
      rw [List.getElem?_eq_getElem hkl] at hlog
      rw [Option.some.inj hlog]
    rw [hdrop]
    simp only [std_accumulate, hne, if_false, DynamicRingBufferDeque.deref,
      List.getElem?_eq_getElem hslot, hinc, ih (k + 1) f _ (by omega) (by omega),
      List.foldl_cons]

omit [Inhabited α] in
theorem WellFormed.begin_eq_mk (d : DynamicRingBufferDeque α) (hd : WellFormed d) :
    d.begin_ = ⟨(d.begin_.index_ + 0) % d.buff_size_⟩ := by
  cases hb : d.begin_
  have := hd.begin_lt
  rw [hb] at this
  simp only [Nat.add_zero, BasicIterator.mk.injEq]
  exact (Nat.mod_eq_of_lt this).symm

/-- The loop from `begin()` to `end()` of a reachable deque meets the logical
sequence. -/
theorem range_values_reachable (d : DynamicRingBufferDeque α) (hr : Reachable d) :
    d.range_values d.buff_size_ d.begin_ d.end_ = some d.logical := by
  rcases reachable_cases d hr with hd | hu
  · have hsl := hd.size_le
    have hbe := hd.buff_size_eq
    have := range_values_from d hd d.size_ 0 d.buff_size_ (by omega) (by omega)
    rw [← hd.begin_eq_mk] at this
    rw [this, List.drop_zero]
  · rw [hu.buff_size_eq, hu.begin_eq, hu.end_eq, logical_eq_nil d hu.size_eq]
    rfl

end dynamic_ring_buffer_deque

namespace dynamic_ring_buffer_deque

variable {α : Type} [Inhabited α]

/-- `operator[]` on a deque with a buffer, for an index below the size. -/
theorem subscript_spec (d : DynamicRingBufferDeque α) (hd : WellFormed d) {i : Nat}
    (hi : i < d.size_) :
    ∃ x, d.buff_[(d.begin_.index_ + i) % d.buff_size_]? = some x ∧
      d.subscript i = .returns ((d.begin_.index_ + i) % d.buff_size_, x) d ∧
      d.logical[i]? = some x := by
  have hbs := hd.lt_pow
  have hbe := hd.buff_size_eq
  have hsl := hd.size_le
  have hb := hd.begin_lt
  have hadd : size_t.add d.begin_.index_ i = d.begin_.index_ + i := size_t_add_eq (by omega)
  have hslot : (d.begin_.index_ + i) % d.buff_size_ < d.buff_.length := by
    rw [hd.length_eq]; exact Nat.mod_lt _ (by omega)
  refine ⟨d.buff_[(d.begin_.index_ + i) % d.buff_size_], List.getElem?_eq_getElem hslot, ?_, ?_⟩
  · simp only [DynamicRingBufferDeque.subscript, Nat.not_lt_zero, ge_iff_le, Nat.not_le.mpr hi,
      or_self, if_false, hadd, size_t_mod_eq (show d.buff_size_ ≠ 0 by omega),
      List.getElem?_eq_getElem hslot]
  · rw [logical_getElem? d hd.length_eq (by omega) hi, List.getElem?_eq_getElem hslot]

/-- C15. On a reachable deque a cursor that starts at `begin()` differs from
`end()` after fewer than `size()` increments and equals `end()` after `size()`
increments; after `k < size()` increments it is at the slot of `operator[](k)`
and dereferences to that element, the `k`-th of the logical sequence; the loop
from `begin()` to `end()` meets the logical sequence in order, and
`std::accumulate` over it adds up the logical sequence. -/
theorem C15_iteration [Add α] (d : DynamicRingBufferDeque α) (hr : Reachable d) :
    (∀ k, k < d.size_ → ∃ it x, d.advance k d.begin_ = some it ∧ it ≠ d.end_ ∧
      d.deref it = some x ∧ d.subscript k = .returns (it.index_, x) d ∧
      d.logical[k]? = some x) ∧
    d.advance d.size_ d.begin_ = some d.end_ ∧
    d.range_values d.buff_size_ d.begin_ d.end_ = some d.logical ∧
    ∀ init : α, std_accumulate d d.buff_size_ d.begin_ d.end_ init =
      some (d.logical.foldl (· + ·) init) := by
  refine ⟨fun k hk => ?_, ?_, range_values_reachable d hr, fun init => ?_⟩
  · have hd := reachable_nonempty d hr (by omega)
    obtain ⟨x, hx, hsub, hlog⟩ := subscript_spec d hd hk
    exact ⟨⟨(d.begin_.index_ + k) % d.buff_size_⟩, x, advance_eq d hd k d.begin_ hd.begin_lt,
      hd.cursor_ne_end d hk, hx, hsub, hlog⟩
  · rcases reachable_cases d hr with hd | hu
    · rw [advance_eq d hd d.size_ d.begin_ hd.begin_lt, hd.end_eq_mk]
    · rw [hu.size_eq, hu.begin_eq, hu.end_eq]
      rfl
  · rcases reachable_cases d hr with hd | hu
    · have hsl := hd.size_le
      have hbe := hd.buff_size_eq
      have := std_accumulate_from d hd d.size_ 0 d.buff_size_ init (by omega) (by omega)
      rw [← hd.begin_eq_mk] at this
      rw [this, List.drop_zero]
    · rw [hu.buff_size_eq, hu.begin_eq, hu.end_eq, logical_eq_nil d hu.size_eq]
      rfl

/-- C15, at the wrapped deque `[2, 3]`: one increment leads from slot 2 to slot
0, which holds 3, two increments lead to `end()`, and the sum from 30 is 35. -/
theorem C15_iteration_witness :
    Reachable wrapped_example ∧
    wrapped_example.advance 1 wrapped_example.begin_ = some ⟨0⟩ ∧
    wrapped_example.deref ⟨0⟩ = some 3 ∧
    ((∀ k, k < wrapped_example.size_ → ∃ it x,
        wrapped_example.advance k wrapped_example.begin_ = some it ∧
        it ≠ wrapped_example.end_ ∧ wrapped_example.deref it = some x ∧
        wrapped_example.subscript k = .returns (it.index_, x) wrapped_example ∧
        wrapped_example.logical[k]? = some x) ∧
      wrapped_example.advance wrapped_example.size_ wrapped_example.begin_ =
        some wrapped_example.end_ ∧
      wrapped_example.range_values wrapped_example.buff_size_ wrapped_example.begin_
        wrapped_example.end_ = some wrapped_example.logical ∧
      ∀ init : Int, std_accumulate wrapped_example wrapped_example.buff_size_
        wrapped_example.begin_ wrapped_example.end_ init =
        some (wrapped_example.logical.foldl (· + ·) init)) ∧
    std_accumulate wrapped_example 3 wrapped_example.begin_ wrapped_example.end_ 30 = some 35 :=
  ⟨wrapped_example_reachable, by decide, by decide,
    C15_iteration wrapped_example wrapped_example_reachable, by decide⟩

omit [Inhabited α] in
/-- C16. `clear()` returns; afterwards the size is 0, `empty()` is true, both
cursors are at buffer index 0, and the capacity, the buffer size and the buffer
are the ones before the call, on every deque and so on every reachable one. -/
theorem C16_clear (d : DynamicRingBufferDeque α) :
    ∃ d1, d.clear = .returns () d1 ∧ d1.size = 0 ∧ d1.empty = true ∧
      d1.begin_.index_ = 0 ∧ d1.end_.index_ = 0 ∧ d1.capacity_ = d.capacity_ ∧
      d1.buff_size_ = d.buff_size_ ∧ d1.buff_ = d.buff_ :=
  ⟨{ d with size_ := 0, begin_ := ⟨0⟩, end_ := ⟨0⟩ }, rfl, rfl, rfl, rfl, rfl, rfl, rfl, rfl⟩

/-- Two usable deques with the same logical sequence, below 2^62 elements, answer
a sequence of pushes and pops alike: the same values and failures, and after
every call the same logical sequence. -/
theorem perform_alike (calls : List (Call α)) :
    ∀ d1 d2 : DynamicRingBufferDeque α, Usable d1 → Usable d2 → d1.logical = d2.logical →
      (∀ c ∈ calls, c.is_push = true ∨ c.is_pop = true) →
      d1.size_ + calls.length ≤ 2 ^ 62 →
      ∃ s1 s2, perform calls d1 = some s1 ∧ perform calls d2 = some s2 ∧
        s1.map (·.observation) = s2.map (·.observation) ∧
        s1.map (·.after.logical) = s2.map (·.after.logical) := by
  have hP : PTRDIFF_MAX = 2 ^ 63 - 1 := rfl
  induction calls with
  | nil => intro d1 d2 _ _ _ _ _; exact ⟨[], [], rfl, rfl, rfl, rfl⟩
  | cons c calls ih =>
    intro d1 d2 h1 h2 hl hcs hlen
    simp only [List.length_cons] at hlen
    have hsize : d1.size_ = d2.size_ := by
      rw [← logical_length d1, ← logical_length d2, hl]
    have hrest : ∀ c1 ∈ calls, c1.is_push = true ∨ c1.is_pop = true :=
      fun c1 hc1 => hcs c1 (List.mem_cons_of_mem _ hc1)
    rcases hcs c (List.mem_cons_self _ _) with hpush | hpop
    · obtain ⟨t1, ht1, _, _, hu1, hc1⟩ := push_step c hpush d1 h1
      obtain ⟨t2, ht2, _, _, hu2, hc2⟩ := push_step c hpush d2 h2
      rcases hc1 with ⟨ho1, _, hs1, hl1, _⟩ | ⟨_, _, hf, hb⟩
      · rcases hc2 with ⟨ho2, _, hs2, hl2, _⟩ | ⟨_, _, hf, hb⟩
        · have hlog : t1.after.logical = t2.after.logical := by rw [hl1, hl2, hl]
          obtain ⟨r1, r2, hp1, hp2, hobs, hlogs⟩ :=
            ih t1.after t2.after hu1 hu2 hlog hrest (by omega)
          exact ⟨t1 :: r1, t2 :: r2, perform_cons c calls d1 t1 r1 ht1 hp1,
            perform_cons c calls d2 t2 r2 ht2 hp2, by simp [ho1, ho2, hobs],
            by simp [hlog, hlogs]⟩
        · omega
      · omega
    · obtain ⟨t1, ht1, _, _, hu1, hc1⟩ := pop_step c hpop d1 h1
      obtain ⟨t2, ht2, _, _, hu2, hc2⟩ := pop_step c hpop d2 h2
      rcases hc1 with ⟨h01, ho1, ha1⟩ | ⟨h01, x1, ho1, _, hs1, hl1, _⟩
      · rcases hc2 with ⟨h02, ho2, ha2⟩ | ⟨h02, _⟩
        · have hlog : t1.after.logical = t2.after.logical := by rw [ha1, ha2, hl]
          obtain ⟨r1, r2, hp1, hp2, hobs, hlogs⟩ :=
            ih t1.after t2.after hu1 hu2 hlog hrest (by rw [ha1]; omega)
          exact ⟨t1 :: r1, t2 :: r2, perform_cons c calls d1 t1 r1 ht1 hp1,
            perform_cons c calls d2 t2 r2 ht2 hp2, by simp [ho1, ho2, hobs],
            by simp [hlog, hlogs]⟩
        · omega
      · rcases hc2 with ⟨h02, _⟩ | ⟨h02, x2, ho2, _, hs2, hl2, _, hdir2⟩
        · omega
        · obtain ⟨_, _, _, _, _, _, _, hdir1⟩ : True ∧ True ∧ True ∧ True ∧ True ∧ True ∧ True ∧
              ((c = .pop_back ∧ d1.logical = t1.after.logical ++ [x1]) ∨
                (c = .pop_front ∧ d1.logical = x1 :: t1.after.logical)) := by
            rcases pop_step c hpop d1 h1 with ⟨u, hu, _, _, _, hcu⟩
            rw [ht1] at hu
            have hut : t1 = u := Option.some.inj hu
            subst hut
            rcases hcu with ⟨h0, _⟩ | ⟨_, y, hoy, _, _, _, _, hd⟩
            · exact absurd h0 h01
            · rw [ho1] at hoy
              have hxy : x1 = y := by simpa using hoy
              subst hxy
              exact ⟨trivial, trivial, trivial, trivial, trivial, trivial, trivial, hd⟩
          have hlog : t1.after.logical = t2.after.logical := by rw [hl1, hl2, hl]
          have hx : x1 = x2 := by
            rcases hdir1 with ⟨_, e1⟩ | ⟨_, e1⟩ <;> rcases hdir2 with ⟨hcc, e2⟩ | ⟨hcc, e2⟩
            · rw [hl, e2, hlog] at e1
              have := (List.append_inj' e1 rfl).2
              simpa using this.symm
            · rw [hl, e2] at e1
              rename_i hc
              rw [hc] at hcc; exact absurd hcc (by simp)
            · rename_i hc
              rw [hc] at hcc; exact absurd hcc (by simp)
            · rw [hl, e2] at e1
              exact ((List.cons.inj e1).1).symm
          obtain ⟨r1, r2, hp1, hp2, hobs, hlogs⟩ :=
            ih t1.after t2.after hu1 hu2 hlog hrest (by omega)
          exact ⟨t1 :: r1, t2 :: r2, perform_cons c calls d1 t1 r1 ht1 hp1,
            perform_cons c calls d2 t2 r2 ht2 hp2, by simp [ho1, ho2, hx, hobs],
            by simp [hlog, hlogs]⟩

end dynamic_ring_buffer_deque

namespace dynamic_ring_buffer_deque

/-- C17, the failing input.  `size_max_example` is the reachable deque left by
`reserve(SIZE_MAX)`; `clear()` returns on it and leaves it as it is; the
sequence of the single call `push_back(7)` then has undefined behaviour, while
on a default-constructed deque the same call returns and leaves the logical
sequence `[7]` of size 1. -/
theorem C17_push_after_clear_undefined :
    Reachable size_max_example ∧
    size_max_example.clear = .returns () size_max_example ∧
    perform [.push_back 7] size_max_example = none ∧
    (perform [.push_back 7] ({} : DynamicRingBufferDeque Int)).map
      (fun steps => (steps.map (·.observation), (final steps {}).logical,
        (final steps {}).size)) = some ([.returned none], [7], 1) :=
  ⟨size_max_example_reachable, rfl, by decide, by decide⟩

variable {α : Type} [Inhabited α]

/-- Push after clear on a deque that owns a buffer or is as the default
constructor leaves it: after `clear()` a sequence of fewer than `2 ^ 62` pushes
and pops has on it the observations it has on a default-constructed deque, and
leaves the same logical sequence after every call. -/
theorem push_after_clear_usable (d : DynamicRingBufferDeque α) (hd : Usable d)
    (calls : List (Call α)) (hcalls : ∀ c ∈ calls, c.is_push = true ∨ c.is_pop = true)
    (hlen : calls.length ≤ 2 ^ 62) :
    ∃ cleared s1 s2, d.clear = .returns () cleared ∧
      perform calls cleared = some s1 ∧ perform calls {} = some s2 ∧
      s1.map (·.observation) = s2.map (·.observation) ∧
      s1.map (·.after.logical) = s2.map (·.after.logical) := by
  have hu : Usable ({ d with size_ := 0, begin_ := ⟨0⟩, end_ := ⟨0⟩ } :
      DynamicRingBufferDeque α) := by
    rcases hd with hw | ⟨hu, hc⟩
    · refine Or.inl ⟨hw.buff_size_eq, hw.length_eq, hw.bound, Nat.zero_le _, ?_, ?_⟩
      · have := hw.buff_size_eq
        show 0 < d.buff_size_
        omega
      · show 0 = (0 + 0) % d.buff_size_
        simp
    · exact Or.inr ⟨⟨hu.buff_eq, rfl, hu.buff_size_eq, rfl, rfl, hu.capacity_eq⟩, hc⟩
  obtain ⟨s1, s2, h1, h2, ho, hl⟩ := perform_alike calls _ {} hu usable_default
    (by rw [logical_eq_nil _ rfl, logical_eq_nil _ rfl]) hcalls
    (by show 0 + calls.length ≤ 2 ^ 62; omega)
  exact ⟨_, s1, s2, rfl, h1, h2, ho, hl⟩

end dynamic_ring_buffer_deque

/-! ## Theorems: the distance between the cursors, the sized constructor -/

namespace dynamic_ring_buffer_deque

variable {α : Type}

/-- `std::distance` over the cursors of a deque with a buffer, from the `k`-th
logical position to `end_`, counts the elements left. -/
theorem std_distance_from (d : DynamicRingBufferDeque α) (hd : WellFormed d) (m : Nat) :
    ∀ (k fuel : Nat), k + m = d.size_ → m ≤ fuel →
      std_distance d fuel ⟨(d.begin_.index_ + k) % d.buff_size_⟩ d.end_ = some m := by
  have hbs := hd.lt_pow
  have hsl := hd.size_le
  have hbe := hd.buff_size_eq
  induction m with
  | zero =>
    intro k fuel hk _
    have hkz : k = d.size_ := by omega
    have he : (⟨(d.begin_.index_ + k) % d.buff_size_⟩ : BasicIterator) = d.end_ := by
      rw [hd.end_eq_mk, hkz]
    cases fuel <;> simp [std_distance, he]
  | succ m ih =>
    intro k fuel hk hfuel
    obtain ⟨f, rfl⟩ : ∃ f, fuel = f + 1 := ⟨fuel - 1, by omega⟩
    have hne := hd.cursor_ne_end d (show k < d.size_ by omega)
    have hslot : (d.begin_.index_ + k) % d.buff_size_ < d.buff_size_ :=
      Nat.mod_lt _ (by omega)
    have hinc : (⟨(d.begin_.index_ + k) % d.buff_size_⟩ : BasicIterator).increment
        d.buff_size_ = some ⟨(d.begin_.index_ + (k + 1)) % d.buff_size_⟩ := by
      rw [increment_eq _ (by omega) (by show (d.begin_.index_ + k) % d.buff_size_ + 1 < 2 ^ 64; omega)]
      simp only [Nat.mod_add_mod]
      rfl
    simp only [std_distance, hne, if_false, hinc, ih (k + 1) f (by omega) (by omega),
      Option.map_some']

/-- `std::distance(begin(), end())` of a reachable deque is its size. -/
theorem std_distance_reachable [Inhabited α] (d : DynamicRingBufferDeque α) (hr : Reachable d) :
    std_distance d d.buff_size_ d.begin_ d.end_ = some d.size_ := by
  rcases reachable_cases d hr with hd | hu
  · have hsl := hd.size_le
    have hbe := hd.buff_size_eq
    have := std_distance_from d hd d.size_ 0 d.buff_size_ (by omega) (by omega)
    rw [← hd.begin_eq_mk] at this
    exact this
  · rw [hu.buff_size_eq, hu.begin_eq, hu.end_eq, hu.size_eq]
    rfl

end dynamic_ring_buffer_deque

namespace dynamic_ring_buffer_deque

variable {α : Type} [Inhabited α]

/-- The sized constructor for a size below `PTRDIFF_MAX`. -/
theorem sized_eq (address n : Nat) (hn : n < PTRDIFF_MAX) :
    (DequeObject.sized address n : Option (DequeObject α)) =
      some { this := address
             fields := { buff_ := List.replicate (n + 1) default, size_ := n, capacity_ := n,
                         buff_size_ := n + 1, begin_ := ⟨0⟩, end_ := ⟨n⟩ }
             begin_deque_ := address
             end_deque_ := address } := by
  have hP : PTRDIFF_MAX = 2 ^ 63 - 1 := rfl
  have hadd : size_t.add n 1 = n + 1 := size_t_add_eq (by omega)
  simp only [DequeObject.sized, hadd, construct_eq (Nat.succ_ne_zero n) (show n + 1 ≤ PTRDIFF_MAX by omega)]

end dynamic_ring_buffer_deque

namespace dynamic_ring_buffer_deque

variable {α : Type} [Inhabited α]

/-- A reachable deque holds fewer than `PTRDIFF_MAX` elements. -/
theorem reachable_size_lt (s : DynamicRingBufferDeque α) (hs : Reachable s) :
    s.size_ < PTRDIFF_MAX := by
  have hP : PTRDIFF_MAX = 2 ^ 63 - 1 := rfl
  rcases reachable_cases s hs with hd | hu
  · have h1 := hd.size_le
    have h2 := hd.buff_size_eq
    have h3 := hd.bound
    omega
  · rw [hu.size_eq, hP]
    omega

end dynamic_ring_buffer_deque

/-! ## Theorems: the fixed-capacity deque -/

namespace static_ring_buffer_deque

open dynamic_ring_buffer_deque (size_t_add_eq size_t_sub_eq size_t_mod_eq mod_add_ne)

variable {α : Type} {capacity_ : Nat}

theorem static_logical_length [Inhabited α] (d : StaticRingBufferDeque α capacity_) :
    d.logical.length = d.size_ := by
  simp [StaticRingBufferDeque.logical]

theorem static_logical_getElem? [Inhabited α] (d : StaticRingBufferDeque α capacity_)
    (hlen : d.buff_.length = capacity_) (hN : capacity_ ≠ 0) {i : Nat} (hi : i < d.size_) :
    d.logical[i]? = d.buff_[(d.head_index_ + i) % capacity_]? := by
  have hlt : (d.head_index_ + i) % capacity_ < d.buff_.length := by
    rw [hlen]; exact Nat.mod_lt _ (Nat.pos_of_ne_zero hN)
  simp [StaticRingBufferDeque.logical, hi, List.getD_eq_getElem?_getD,
    List.getElem?_eq_getElem hlt]

theorem static_default_wellformed [Inhabited α] (capacity_ : Nat) :
    WellFormed (StaticRingBufferDeque.default_constructed capacity_ :
      StaticRingBufferDeque α capacity_) := by
  refine ⟨by simp [StaticRingBufferDeque.default_constructed], Nat.zero_le _, ?_⟩
  by_cases h : capacity_ = 0
  · exact Or.inr ⟨h, rfl⟩
  · exact Or.inl (Nat.pos_of_ne_zero h)

/-- A push on a full deque throws `overflow_error` and changes nothing. -/
theorem static_push_full (d : StaticRingBufferDeque α capacity_) (v : α)
    (h : d.size_ = capacity_) :
    d.push_back v = .throws .overflow_error d ∧ d.push_front v = .throws .overflow_error d := by
  simp [StaticRingBufferDeque.push_back, StaticRingBufferDeque.push_front,
    StaticRingBufferDeque.is_capacity_enough, h]

/-- `push_back` on a deque with a free slot. -/
theorem static_push_back_spec [Inhabited α] (d : StaticRingBufferDeque α capacity_)
    (hd : WellFormed d) (hN : capacity_ ≤ PTRDIFF_MAX) (hroom : d.size_ ≠ capacity_) (v : α) :
    ∃ d1, d.push_back v = .returns () d1 ∧ WellFormed d1 ∧ d1.logical = d.logical ++ [v] ∧
      d1.size_ = d.size_ + 1 ∧ d1.head_index_ = d.head_index_ := by
  have hP : PTRDIFF_MAX = 2 ^ 63 - 1 := rfl
  have hlen := hd.length_eq
  have hsl := hd.size_le
  have hhead : d.head_index_ < capacity_ := by
    rcases hd.head_lt with h | ⟨h, _⟩
    · exact h
    · omega
  have hadd : size_t.add d.head_index_ d.size_ = d.head_index_ + d.size_ :=
    size_t_add_eq (by omega)
  have hsz : size_t.add d.size_ 1 = d.size_ + 1 := size_t_add_eq (by omega)
  have hslot : (d.head_index_ + d.size_) % capacity_ < d.buff_.length := by
    rw [hlen]; exact Nat.mod_lt _ (by omega)
  have hen : d.is_capacity_enough = true := by
    simp [StaticRingBufferDeque.is_capacity_enough, hroom]
  refine ⟨{ d with buff_ := d.buff_.set ((d.head_index_ + d.size_) % capacity_) v
                   size_ := d.size_ + 1 }, ?_, ?_, ?_, rfl, rfl⟩
  · simp only [StaticRingBufferDeque.push_back, hen, Bool.not_true, Bool.false_eq_true,
      if_false, hadd, size_t_mod_eq (show capacity_ ≠ 0 by omega), hslot, if_true, hsz]
  · exact ⟨by simp [hlen], by show d.size_ + 1 ≤ capacity_; omega, Or.inl hhead⟩
  · simp only [StaticRingBufferDeque.logical, List.range_succ, List.map_append, List.map_cons,
      List.map_nil]
    congr 1
    · apply List.map_congr_left
      intro i hi
      have hi := List.mem_range.mp hi
      have hne : (d.head_index_ + d.size_) % capacity_ ≠ (d.head_index_ + i) % capacity_ :=
        (mod_add_ne hi (by omega)).symm
      rw [List.getD_eq_getElem?_getD, List.getD_eq_getElem?_getD, List.getElem?_set_ne hne]
    · rw [List.getD_eq_getElem?_getD, List.getElem?_set_self hslot]
      rfl

/-- `push_front` on a deque with a free slot. -/
theorem static_push_front_spec [Inhabited α] (d : StaticRingBufferDeque α capacity_)
    (hd : WellFormed d) (hN : capacity_ ≤ PTRDIFF_MAX) (hroom : d.size_ ≠ capacity_) (v : α) :
    ∃ d1, d.push_front v = .returns () d1 ∧ WellFormed d1 ∧ d1.logical = v :: d.logical ∧
      d1.size_ = d.size_ + 1 ∧
      d1.head_index_ = (d.head_index_ + (capacity_ - 1)) % capacity_ := by
  have hP : PTRDIFF_MAX = 2 ^ 63 - 1 := rfl
  have hlen := hd.length_eq
  have hsl := hd.size_le
  have hhead : d.head_index_ < capacity_ := by
    rcases hd.head_lt with h | ⟨h, _⟩
    · exact h
    · omega
  have hsub : size_t.sub capacity_ 1 = capacity_ - 1 := size_t_sub_eq (by omega) (by omega)
  have hadd : size_t.add d.head_index_ (capacity_ - 1) = d.head_index_ + (capacity_ - 1) :=
    size_t_add_eq (by omega)
  have hsz : size_t.add d.size_ 1 = d.size_ + 1 := size_t_add_eq (by omega)
  have hprev : (d.head_index_ + (capacity_ - 1)) % capacity_ < capacity_ :=
    Nat.mod_lt _ (by omega)
  have hdec : decrement_cycle capacity_ d.head_index_ =
      some ((d.head_index_ + (capacity_ - 1)) % capacity_) := by
    simp only [decrement_cycle, hsub, hadd, size_t_mod_eq (show capacity_ ≠ 0 by omega)]
  have hen : d.is_capacity_enough = true := by
    simp [StaticRingBufferDeque.is_capacity_enough, hroom]
  have hstep : ∀ i, ((d.head_index_ + (capacity_ - 1)) % capacity_ + (i + 1)) % capacity_ =
      (d.head_index_ + i) % capacity_ := by
    intro i
    rw [Nat.mod_add_mod,
      show d.head_index_ + (capacity_ - 1) + (i + 1) = d.head_index_ + i + capacity_ by omega,
      Nat.add_mod_right]
  refine ⟨{ buff_ := d.buff_.set ((d.head_index_ + (capacity_ - 1)) % capacity_) v
            head_index_ := (d.head_index_ + (capacity_ - 1)) % capacity_
            size_ := d.size_ + 1 }, ?_, ?_, ?_, rfl, rfl⟩
  · simp only [StaticRingBufferDeque.push_front, hen, Bool.not_true, Bool.false_eq_true,
      if_false, hdec, hlen, hprev, if_true, hsz]
  · exact ⟨by simp [hlen], by show d.size_ + 1 ≤ capacity_; omega, Or.inl hprev⟩
  · simp only [StaticRingBufferDeque.logical, List.range_succ_eq_map, List.map_cons,
      List.map_map]
    refine congrArg₂ List.cons ?_ ?_
    · rw [Nat.add_zero, Nat.mod_eq_of_lt hprev, List.getD_eq_getElem?_getD,
        List.getElem?_set_self (by rw [hlen]; exact hprev)]
      rfl
    · apply List.map_congr_left
      intro i hi
      have hi := List.mem_range.mp hi
      have hne : (d.head_index_ + (capacity_ - 1)) % capacity_ ≠
          (d.head_index_ + i) % capacity_ := by
        have := @mod_add_ne ((d.head_index_ + (capacity_ - 1)) % capacity_) 0 (i + 1)
          capacity_ (by omega) (by omega)
        rw [hstep, Nat.add_zero, Nat.mod_eq_of_lt hprev] at this
        exact this
      simp only [Function.comp, Nat.succ_eq_add_one, hstep]
      rw [List.getD_eq_getElem?_getD, List.getD_eq_getElem?_getD, List.getElem?_set_ne hne]

end static_ring_buffer_deque

namespace static_ring_buffer_deque

open dynamic_ring_buffer_deque (size_t_add_eq size_t_sub_eq size_t_mod_eq mod_add_ne)

variable {α : Type} {capacity_ : Nat}

/-- `pop_back` and `pop_front` on an empty deque throw and change nothing. -/
theorem static_pop_empty (d : StaticRingBufferDeque α capacity_) (h : d.size_ = 0) :
    d.pop_back = .throws .out_of_range d ∧ d.pop_front = .throws .out_of_range d := by
  simp [StaticRingBufferDeque.pop_back, StaticRingBufferDeque.pop_front,
    StaticRingBufferDeque.is_empty, h]

/-- `operator[]` with an index that is not below the size throws and changes
nothing. -/
theorem static_subscript_out_of_range (d : StaticRingBufferDeque α capacity_) (i : Nat)
    (h : d.size_ ≤ i) : d.subscript i = .throws .out_of_range d := by
  simp [StaticRingBufferDeque.subscript, h]

/-- `pop_back` on a deque that holds an element. -/
theorem static_pop_back_spec [Inhabited α] (d : StaticRingBufferDeque α capacity_)
    (hd : WellFormed d) (hN : capacity_ ≤ PTRDIFF_MAX) (hne : d.size_ ≠ 0) :
    ∃ x d1, d.pop_back = .returns x d1 ∧ WellFormed d1 ∧ d.logical = d1.logical ++ [x] ∧
      d1.size_ + 1 = d.size_ ∧ d1.head_index_ = d.head_index_ ∧ d1.buff_ = d.buff_ := by
  have hP : PTRDIFF_MAX = 2 ^ 63 - 1 := rfl
  have hlen := hd.length_eq
  have hsl := hd.size_le
  have hhead : d.head_index_ < capacity_ := by
    rcases hd.head_lt with h | ⟨h, _⟩
    · exact h
    · omega
  have hsz : size_t.sub d.size_ 1 = d.size_ - 1 := size_t_sub_eq (by omega) (by omega)
  have hadd : size_t.add d.head_index_ (d.size_ - 1) = d.head_index_ + (d.size_ - 1) :=
    size_t_add_eq (by omega)
  have hslot : (d.head_index_ + (d.size_ - 1)) % capacity_ < d.buff_.length := by
    rw [hlen]; exact Nat.mod_lt _ (by omega)
  have hempty : d.is_empty = false := by simp [StaticRingBufferDeque.is_empty, hne]
  have hx : d.buff_[(d.head_index_ + (d.size_ - 1)) % capacity_]? =
      some (d.buff_.getD ((d.head_index_ + (d.size_ - 1)) % capacity_) default) := by
    rw [List.getD_eq_getElem?_getD, List.getElem?_eq_getElem hslot]; rfl
  refine ⟨d.buff_.getD ((d.head_index_ + (d.size_ - 1)) % capacity_) default,
    { d with size_ := d.size_ - 1 }, ?_, ?_, ?_, ?_, rfl, rfl⟩
  · simp only [StaticRingBufferDeque.pop_back, hempty, Bool.false_eq_true, if_false, hsz, hadd,
      size_t_mod_eq (show capacity_ ≠ 0 by omega), hx]
  · exact ⟨hlen, by show d.size_ - 1 ≤ capacity_; omega, hd.head_lt⟩
  · have hex : ∃ m, d.size_ = m + 1 := ⟨d.size_ - 1, by omega⟩
    obtain ⟨m, hm⟩ := hex
    unfold StaticRingBufferDeque.logical
    simp only [hm]
    simp only [List.range_succ, List.map_append, List.map_cons, List.map_nil,
      Nat.add_sub_cancel]
  · show d.size_ - 1 + 1 = d.size_
    omega

/-- `pop_front` on a deque that holds an element. -/
theorem static_pop_front_spec [Inhabited α] (d : StaticRingBufferDeque α capacity_)
    (hd : WellFormed d) (hN : capacity_ ≤ PTRDIFF_MAX) (hne : d.size_ ≠ 0) :
    ∃ x d1, d.pop_front = .returns x d1 ∧ WellFormed d1 ∧ d.logical = x :: d1.logical ∧
      d1.size_ + 1 = d.size_ ∧ d1.head_index_ = (d.head_index_ + 1) % capacity_ ∧
      d1.buff_ = d.buff_ := by
  have hP : PTRDIFF_MAX = 2 ^ 63 - 1 := rfl
  have hlen := hd.length_eq
  have hsl := hd.size_le
  have hhead : d.head_index_ < capacity_ := by
    rcases hd.head_lt with h | ⟨h, _⟩
    · exact h
    · omega
  have hsz : size_t.sub d.size_ 1 = d.size_ - 1 := size_t_sub_eq (by omega) (by omega)
  have hadd : size_t.add d.head_index_ 1 = d.head_index_ + 1 := size_t_add_eq (by omega)
  have hinc : increment_cycle capacity_ d.head_index_ =
      some ((d.head_index_ + 1) % capacity_) := by
    simp only [increment_cycle, hadd, size_t_mod_eq (show capacity_ ≠ 0 by omega)]
  have hb : d.head_index_ < d.buff_.length := by omega
  have hempty : d.is_empty = false := by simp [StaticRingBufferDeque.is_empty, hne]
  have hx : d.buff_[d.head_index_]? = some (d.buff_.getD d.head_index_ default) := by
    rw [List.getD_eq_getElem?_getD, List.getElem?_eq_getElem hb]; rfl
  refine ⟨d.buff_.getD d.head_index_ default,
    { d with size_ := d.size_ - 1, head_index_ := (d.head_index_ + 1) % capacity_ },
    ?_, ?_, ?_, ?_, rfl, rfl⟩
  · simp only [StaticRingBufferDeque.pop_front, hempty, Bool.false_eq_true, if_false, hx, hinc,
      hsz]
  · exact ⟨hlen, by show d.size_ - 1 ≤ capacity_; omega, Or.inl (Nat.mod_lt _ (by omega))⟩
  · have hex : ∃ m, d.size_ = m + 1 := ⟨d.size_ - 1, by omega⟩
    obtain ⟨m, hm⟩ := hex
    unfold StaticRingBufferDeque.logical
    simp only [hm]
    simp only [List.range_succ_eq_map, List.map_cons, List.map_map, Nat.add_sub_cancel]
    refine congrArg₂ List.cons ?_ ?_
    · rw [Nat.add_zero, Nat.mod_eq_of_lt hhead]
    · apply List.map_congr_left
      intro i _
      simp only [Function.comp, Nat.succ_eq_add_one, Nat.mod_add_mod]
      rw [show d.head_index_ + 1 + i = d.head_index_ + (i + 1) by omega]
  · show d.size_ - 1 + 1 = d.size_
    omega

/-- `operator[]` with an index below the size. -/
theorem static_subscript_spec [Inhabited α] (d : StaticRingBufferDeque α capacity_)
    (hd : WellFormed d) (hN : capacity_ ≤ PTRDIFF_MAX) {i : Nat} (hi : i < d.size_) :
    ∃ x, d.subscript i = .returns ((d.head_index_ + i) % capacity_, x) d ∧
      d.logical[i]? = some x := by
  have hP : PTRDIFF_MAX = 2 ^ 63 - 1 := rfl
  have hlen := hd.length_eq
  have hsl := hd.size_le
  have hhead : d.head_index_ < capacity_ := by
    rcases hd.head_lt with h | ⟨h, _⟩
    · exact h
    · omega
  have hadd : size_t.add d.head_index_ i = d.head_index_ + i := size_t_add_eq (by omega)
  have hslot : (d.head_index_ + i) % capacity_ < d.buff_.length := by
    rw [hlen]; exact Nat.mod_lt _ (by omega)
  refine ⟨d.buff_[(d.head_index_ + i) % capacity_], ?_, ?_⟩
  · simp only [StaticRingBufferDeque.subscript, Nat.not_lt_zero, ge_iff_le, Nat.not_le.mpr hi,
      or_self, if_false, hadd, size_t_mod_eq (show capacity_ ≠ 0 by omega),
      List.getElem?_eq_getElem hslot]
  · rw [static_logical_getElem? d hlen (by omega) hi, List.getElem?_eq_getElem hslot]

end static_ring_buffer_deque

namespace static_ring_buffer_deque

open dynamic_ring_buffer_deque (Observation)

variable {α : Type} {capacity_ : Nat}

/-- A call on a fixed-capacity deque built by calls, a push finding room: it
returns or throws as the call on the conceptual sequence says, and leaves that
sequence. -/
theorem static_run_spec [Inhabited α] (c : Access α) (d : StaticRingBufferDeque α capacity_)
    (hd : WellFormed d) (hN : capacity_ ≤ PTRDIFF_MAX)
    (hroom : c.is_push = true → d.size_ ≠ capacity_) :
    ∃ d1, WellFormed d1 ∧ d1.logical = (c.on_sequence d.logical).2 ∧
      ((∃ r, c.run d = .returns r d1 ∧ (c.on_sequence d.logical).1 = .returned r) ∨
        (∃ e, c.run d = .throws e d1 ∧ (c.on_sequence d.logical).1 = .threw e)) := by
  cases c with
  | push_back v =>
    obtain ⟨d1, h, hw, hl, _⟩ := static_push_back_spec d hd hN (hroom rfl) v
    exact ⟨d1, hw, hl, Or.inl ⟨none, by simp only [Access.run, h], rfl⟩⟩
  | push_front v =>
    obtain ⟨d1, h, hw, hl, _⟩ := static_push_front_spec d hd hN (hroom rfl) v
    exact ⟨d1, hw, hl, Or.inl ⟨none, by simp only [Access.run, h], rfl⟩⟩
  | pop_back =>
    by_cases h0 : d.size_ = 0
    · have hnil : d.logical = [] :=
        List.eq_nil_of_length_eq_zero (by rw [static_logical_length, h0])
      refine ⟨d, hd, by simp [Access.on_sequence, hnil], Or.inr ⟨.out_of_range, ?_, ?_⟩⟩
      · simp only [Access.run, (static_pop_empty d h0).1]
      · simp [Access.on_sequence, hnil]
    · obtain ⟨x, d1, h, hw, hl, _⟩ := static_pop_back_spec d hd hN h0
      refine ⟨d1, hw, by simp [Access.on_sequence, hl], Or.inl ⟨some x, ?_, ?_⟩⟩
      · simp only [Access.run, h]
      · simp [Access.on_sequence, hl]
  | pop_front =>
    by_cases h0 : d.size_ = 0
    · have hnil : d.logical = [] :=
        List.eq_nil_of_length_eq_zero (by rw [static_logical_length, h0])
      refine ⟨d, hd, by simp [Access.on_sequence, hnil], Or.inr ⟨.out_of_range, ?_, ?_⟩⟩
      · simp only [Access.run, (static_pop_empty d h0).2]
      · simp [Access.on_sequence, hnil]
    · obtain ⟨x, d1, h, hw, hl, _⟩ := static_pop_front_spec d hd hN h0
      refine ⟨d1, hw, by simp [Access.on_sequence, hl], Or.inl ⟨some x, ?_, ?_⟩⟩
      · simp only [Access.run, h]
      · simp [Access.on_sequence, hl]
  | subscript i =>
    by_cases hi : i < d.size_
    · obtain ⟨x, h, hl⟩ := static_subscript_spec d hd hN hi
      refine ⟨d, hd, by simp [Access.on_sequence, hl], Or.inl ⟨some x, ?_, ?_⟩⟩
      · simp only [Access.run, h]
      · simp [Access.on_sequence, hl]
    · have hnone : d.logical[i]? = none :=
        List.getElem?_eq_none (by rw [static_logical_length]; omega)
      refine ⟨d, hd, by simp [Access.on_sequence, hnone], Or.inr ⟨.out_of_range, ?_, ?_⟩⟩
      · simp only [Access.run, static_subscript_out_of_range d i (by omega)]
      · simp [Access.on_sequence, hnone]

/-- Every call on a fixed-capacity deque built by calls has a defined end and
leaves a deque of the same kind: it returns, or it throws and changes nothing, a
push with `overflow_error` exactly on a full deque. -/
theorem static_run_total [Inhabited α] (c : Access α) (d : StaticRingBufferDeque α capacity_)
    (hd : WellFormed d) (hN : capacity_ ≤ PTRDIFF_MAX) :
    (∃ r d1, c.run d = .returns r d1 ∧ WellFormed d1 ∧
        (c.is_push = true → d.size_ ≠ capacity_)) ∨
      (∃ e, c.run d = .throws e d ∧
        (c.is_push = true → d.size_ = capacity_ ∧ e = .overflow_error) ∧
        (c.is_push = false → e = .out_of_range)) := by
  by_cases hfull : c.is_push = true ∧ d.size_ = capacity_
  · obtain ⟨hp, hs⟩ := hfull
    refine Or.inr ⟨.overflow_error, ?_, fun _ => ⟨hs, rfl⟩, fun h => by rw [hp] at h; cases h⟩
    cases c with
    | push_back v => simp only [Access.run, (static_push_full d v hs).1]
    | push_front v => simp only [Access.run, (static_push_full d v hs).2]
    | pop_back => cases hp
    | pop_front => cases hp
    | subscript i => cases hp
  · have hroom : c.is_push = true → d.size_ ≠ capacity_ := fun hp hs => hfull ⟨hp, hs⟩
    obtain ⟨d1, hw, _, h | h⟩ := static_run_spec c d hd hN hroom
    · obtain ⟨r, hr, _⟩ := h
      exact Or.inl ⟨r, d1, hr, hw, hroom⟩
    · obtain ⟨e, he, hobs⟩ := h
      have hpush : c.is_push = false := by
        cases c <;> simp_all [Access.on_sequence, Access.is_push]
      have hd1 : d1 = d ∧ e = .out_of_range := by
        cases c with
        | push_back v => cases hpush
        | push_front v => cases hpush
        | pop_back =>
          by_cases h0 : d.size_ = 0
          · rw [show Access.run Access.pop_back d = .throws .out_of_range d by
              simp only [Access.run, (static_pop_empty d h0).1]] at he
            injection he with h1 h2
            exact ⟨h2.symm, h1.symm⟩
          · obtain ⟨x, d2, h, _⟩ := static_pop_back_spec d hd hN h0
            simp only [Access.run, h] at he
            cases he
        | pop_front =>
          by_cases h0 : d.size_ = 0
          · rw [show Access.run Access.pop_front d = .throws .out_of_range d by
              simp only [Access.run, (static_pop_empty d h0).2]] at he
            injection he with h1 h2
            exact ⟨h2.symm, h1.symm⟩
          · obtain ⟨x, d2, h, _⟩ := static_pop_front_spec d hd hN h0
            simp only [Access.run, h] at he
            cases he
        | subscript i =>
          by_cases hi : i < d.size_
          · obtain ⟨x, h, _⟩ := static_subscript_spec d hd hN hi
            simp only [Access.run, h] at he
            cases he
          · rw [show Access.run (Access.subscript i) d = .throws .out_of_range d by
              simp only [Access.run, static_subscript_out_of_range d i (by omega)]] at he
            injection he with h1 h2
            exact ⟨h2.symm, h1.symm⟩
      rw [hd1.1] at he
      exact Or.inr ⟨e, he, fun hp => (by rw [hpush] at hp; cases hp), fun _ => hd1.2⟩

/-- Every reachable fixed-capacity deque has its array, a size within the
capacity and its head on a slot. -/
theorem static_reachable_wellformed [Inhabited α] (hN : capacity_ ≤ PTRDIFF_MAX)
    (d : StaticRingBufferDeque α capacity_) (hr : Reachable d) : WellFormed d := by
  induction hr with
  | default_constructed => exact static_default_wellformed capacity_
  | call c d d1 _ _ hrun ih =>
    rcases static_run_total c d ih hN with ⟨r, d2, h, hw, _⟩ | ⟨e, h, _⟩
    · rw [h] at hrun
      simp only [Outcome.state?, Option.some.injEq] at hrun
      exact hrun ▸ hw
    · rw [h] at hrun
      simp only [Outcome.state?, Option.some.injEq] at hrun
      exact hrun ▸ ih

end static_ring_buffer_deque

namespace static_ring_buffer_deque

open dynamic_ring_buffer_deque (Observation)

variable {α : Type} {capacity_ : Nat}

/-- A call that returns, as the first event of a trace. -/
theorem trace_returns {σ : Type} (run : Access α → σ → Outcome σ (Option α)) (c : Access α)
    (calls : List (Access α)) (d s : σ) (r : Option α) (rest : List (Event σ α))
    (hrun : run c d = .returns r s) (hrest : trace run calls s = some rest) :
    trace run (c :: calls) d = some (⟨d, c, .returned r, s⟩ :: rest) := by
  simp only [trace, hrun, hrest]

/-- A call that throws, as the first event of a trace. -/
theorem trace_throws {σ : Type} (run : Access α → σ → Outcome σ (Option α)) (c : Access α)
    (calls : List (Access α)) (d s : σ) (e : Exception) (rest : List (Event σ α))
    (hrun : run c d = .throws e s) (hrest : trace run calls s = some rest) :
    trace run (c :: calls) d = some (⟨d, c, .threw e, s⟩ :: rest) := by
  simp only [trace, hrun, hrest]

/-- The first event of a trace and the trace of the calls that follow. -/
theorem trace_cons_inv {σ : Type} (run : Access α → σ → Outcome σ (Option α)) (c : Access α)
    (calls : List (Access α)) (d : σ) (es : List (Event σ α))
    (h : trace run (c :: calls) d = some es) :
    ∃ obs s rest, es = ⟨d, c, obs, s⟩ :: rest ∧ trace run calls s = some rest ∧
      ((∃ r, run c d = .returns r s ∧ obs = .returned r) ∨
        (∃ e, run c d = .throws e s ∧ obs = .threw e)) := by
  cases hrun : run c d with
  | undefined => simp [trace, hrun] at h
  | returns r s =>
    cases hrest : trace run calls s with
    | none => simp [trace, hrun, hrest] at h
    | some rest =>
      simp only [trace, hrun, hrest, Option.some.injEq] at h
      exact ⟨.returned r, s, rest, h.symm, hrest, Or.inl ⟨r, rfl, rfl⟩⟩
  | throws e s =>
    cases hrest : trace run calls s with
    | none => simp [trace, hrun, hrest] at h
    | some rest =>
      simp only [trace, hrun, hrest, Option.some.injEq] at h
      exact ⟨.threw e, s, rest, h.symm, hrest, Or.inr ⟨e, rfl, rfl⟩⟩

/-- The states met by a sequence of calls from a reachable deque are reachable. -/
theorem static_trace_reachable [Inhabited α] (calls : List (Access α)) :
    ∀ (d : StaticRingBufferDeque α capacity_) (es : List (Event _ α)), Reachable d →
      (∀ c ∈ calls, c.typed) → trace Access.run calls d = some es →
      ∀ e ∈ es, Reachable e.after := by
  induction calls with
  | nil =>
    intro d es _ _ h e he
    simp only [trace, Option.some.injEq] at h
    rw [← h] at he
    cases he
  | cons c calls ih =>
    intro d es hd ht h e he
    have htc := ht c (List.mem_cons_self _ _)
    have htr : ∀ c1 ∈ calls, c1.typed := fun c1 h1 => ht c1 (List.mem_cons_of_mem _ h1)
    obtain ⟨obs, s, rest, hes, hrest, hrun⟩ := trace_cons_inv _ c calls d es h
    have hs : Reachable s := by
      rcases hrun with ⟨r, hr, _⟩ | ⟨x, hx, _⟩
      · exact Reachable.call c d s hd htc (by rw [hr]; rfl)
      · exact Reachable.call c d s hd htc (by rw [hx]; rfl)
    rw [hes] at he
    rcases List.mem_cons.mp he with he | he
    · rw [he]; exact hs
    · exact ih s rest hs htr hrest e he

/-- The full deque of `main.cpp` is reachable: it is the state after `main_calls`. -/
theorem full_example_reachable : Reachable full_example := by
  have hlast : (trace Access.run main_calls (StaticRingBufferDeque.default_constructed 5)).bind
      (fun es => es.getLast?.map (·.after)) = some full_example := by decide
  cases htr : trace Access.run main_calls
      (StaticRingBufferDeque.default_constructed 5 : StaticRingBufferDeque Int 5) with
  | none => rw [htr] at hlast; cases hlast
  | some es =>
    rw [htr] at hlast
    have hlast : es.getLast?.map (·.after) = some full_example := hlast
    cases hl : es.getLast? with
    | none => rw [hl] at hlast; cases hlast
    | some e =>
      rw [hl] at hlast
      simp only [Option.map_some', Option.some.injEq] at hlast
      rw [← hlast]
      exact static_trace_reachable main_calls _ es Reachable.default_constructed
        (by intro c hc; cases c <;> first | trivial | (simp only [Access.typed]; simp [main_calls] at hc; omega))
        htr e (List.mem_of_getLast?_eq_some hl)

/-- C21. For every capacity `N` an array can have and every reachable
`StaticRingBufferDeque<T, N>`: `push_back` and `push_front` throw
`overflow_error` exactly when `size() == N`, which is when
`is_capacity_enough()` is false; a push that fails fails with that error and
leaves the deque in the state it had, with its size, its head index and every
element; a push on a deque that is not full returns. -/
theorem C21_capacity_exceeded [Inhabited α] (hN : capacity_ ≤ PTRDIFF_MAX)
    (d : StaticRingBufferDeque α capacity_) (hr : Reachable d) (v : α) :
    (d.push_back v = .throws .overflow_error d ↔ d.size = capacity_) ∧
    (d.push_front v = .throws .overflow_error d ↔ d.size = capacity_) ∧
    (d.is_capacity_enough = false ↔ d.size = capacity_) ∧
    (∀ e d1, d.push_back v = .throws e d1 ∨ d.push_front v = .throws e d1 →
      e = .overflow_error ∧ d1 = d ∧ d1.size = d.size ∧ d1.head_index_ = d.head_index_ ∧
        d1.buff_ = d.buff_ ∧ d.size = capacity_) ∧
    (d.size ≠ capacity_ →
      ∃ d1 d2, d.push_back v = .returns () d1 ∧ d.push_front v = .returns () d2) := by
  have hd := static_reachable_wellformed hN d hr
  have hret : d.size_ ≠ capacity_ →
      ∃ d1 d2, d.push_back v = .returns () d1 ∧ d.push_front v = .returns () d2 := by
    intro hne
    obtain ⟨d1, h1, _⟩ := static_push_back_spec d hd hN hne v
    obtain ⟨d2, h2, _⟩ := static_push_front_spec d hd hN hne v
    exact ⟨d1, d2, h1, h2⟩
  refine ⟨⟨fun h => ?_, fun h => (static_push_full d v h).1⟩,
    ⟨fun h => ?_, fun h => (static_push_full d v h).2⟩, ?_, ?_, hret⟩
  · by_contra hne
    obtain ⟨d1, _, h1, _⟩ := hret hne
    rw [h1] at h
    cases h
  · by_contra hne
    obtain ⟨_, d2, _, h2⟩ := hret hne
    rw [h2] at h
    cases h
  · simp [StaticRingBufferDeque.is_capacity_enough, StaticRingBufferDeque.size]
  · intro e d1 h
    by_cases hfull : d.size_ = capacity_
    · have hb := (static_push_full d v hfull).1
      have hf := (static_push_full d v hfull).2
      rw [hb, hf] at h
      have : e = .overflow_error ∧ d1 = d := by
        rcases h with h | h <;> (injection h with h1 h2; exact ⟨h1.symm, h2.symm⟩)
      obtain ⟨he, hd1⟩ := this
      subst hd1
      exact ⟨he, rfl, rfl, rfl, rfl, hfull⟩
    · obtain ⟨d2, d3, h2, h3⟩ := hret hfull
      rw [h2, h3] at h
      rcases h with h | h <;> cases h

/-- C21, at the full `StaticRingBufferDeque<int, 5>` of `main.cpp` and the push
of 6: both pushes throw `overflow_error`. -/
theorem C21_capacity_exceeded_witness :
    5 ≤ PTRDIFF_MAX ∧ Reachable full_example ∧
    full_example.push_back 6 = .throws .overflow_error full_example ∧
    ((full_example.push_back 6 = .throws .overflow_error full_example ↔
        full_example.size = 5) ∧
      (full_example.push_front 6 = .throws .overflow_error full_example ↔
        full_example.size = 5) ∧
      (full_example.is_capacity_enough = false ↔ full_example.size = 5) ∧
      (∀ e d1, full_example.push_back 6 = .throws e d1 ∨
          full_example.push_front 6 = .throws e d1 →
        e = .overflow_error ∧ d1 = full_example ∧ d1.size = full_example.size ∧
          d1.head_index_ = full_example.head_index_ ∧ d1.buff_ = full_example.buff_ ∧
          full_example.size = 5) ∧
      (full_example.size ≠ 5 →
        ∃ d1 d2, full_example.push_back 6 = .returns () d1 ∧
          full_example.push_front 6 = .returns () d2)) :=
  ⟨by decide, full_example_reachable, by decide,
    C21_capacity_exceeded (by decide) full_example full_example_reachable 6⟩

end static_ring_buffer_deque

namespace static_ring_buffer_deque

open dynamic_ring_buffer_deque (Observation DynamicRingBufferDeque Usable Call push_step pop_step
  subscript_spec logical_length)

variable {α : Type} {capacity_ : Nat}

/-- The outcome of a call of the growable deque, read off its step. -/
theorem step_run [Inhabited α] (c : Call α) (d : DynamicRingBufferDeque α)
    (s : dynamic_ring_buffer_deque.Step α) (h : c.step d = some s) :
    (∀ r, s.observation = .returned r → c.run d = .returns r s.after) ∧
    (∀ e, s.observation = .threw e → c.run d = .throws e s.after) := by
  unfold Call.step at h
  cases hrun : c.run d with
  | undefined => rw [hrun] at h; cases h
  | returns r1 s1 =>
    rw [hrun] at h
    simp only [Option.some.injEq] at h
    subst h
    exact ⟨fun r hr => (by cases hr; rfl), fun e he => (by cases he)⟩
  | throws e1 s1 =>
    rw [hrun] at h
    simp only [Option.some.injEq] at h
    subst h
    exact ⟨fun r hr => (by cases hr), fun e he => (by cases he; rfl)⟩

/-- A call on a usable growable deque, a push finding fewer than `2 ^ 62`
elements: it returns or throws as the call on the conceptual sequence says, and
leaves that sequence. -/
theorem dynamic_run_spec [Inhabited α] (c : Access α) (d : DynamicRingBufferDeque α)
    (hd : Usable d) (hsize : c.is_push = true → d.size_ < 2 ^ 62) :
    ∃ d1, Usable d1 ∧ d1.logical = (c.on_sequence d.logical).2 ∧
      ((∃ r, c.run_dynamic d = .returns r d1 ∧ (c.on_sequence d.logical).1 = .returned r) ∨
        (∃ e, c.run_dynamic d = .throws e d1 ∧ (c.on_sequence d.logical).1 = .threw e)) := by
  have hP : PTRDIFF_MAX = 2 ^ 63 - 1 := rfl
  cases c with
  | push_back v =>
    obtain ⟨s, hs, _, _, hu, hc⟩ := push_step (.push_back v) rfl d hd
    rcases hc with ⟨ho, _, _, hl, _⟩ | ⟨_, _, hf, hb⟩
    · exact ⟨s.after, hu, hl, Or.inl ⟨none, (step_run _ d s hs).1 none ho, rfl⟩⟩
    · have := hsize rfl
      omega
  | push_front v =>
    obtain ⟨s, hs, _, _, hu, hc⟩ := push_step (.push_front v) rfl d hd
    rcases hc with ⟨ho, _, _, hl, _⟩ | ⟨_, _, hf, hb⟩
    · exact ⟨s.after, hu, hl, Or.inl ⟨none, (step_run _ d s hs).1 none ho, rfl⟩⟩
    · have := hsize rfl
      omega
  | pop_back =>
    obtain ⟨s, hs, _, _, hu, hc⟩ := pop_step .pop_back rfl d hd
    rcases hc with ⟨h0, ho, ha⟩ | ⟨_, x, ho, _, _, _, _, hdir⟩
    · have hnil : d.logical = [] :=
        List.eq_nil_of_length_eq_zero (by rw [logical_length, h0])
      refine ⟨s.after, hu, by rw [ha]; simp [Access.on_sequence, hnil],
        Or.inr ⟨.out_of_range, (step_run _ d s hs).2 _ ho, by simp [Access.on_sequence, hnil]⟩⟩
    · rcases hdir with ⟨_, hl⟩ | ⟨hcc, _⟩
      · exact ⟨s.after, hu, by simp [Access.on_sequence, hl],
          Or.inl ⟨some x, (step_run _ d s hs).1 _ ho, by simp [Access.on_sequence, hl]⟩⟩
      · cases hcc
  | pop_front =>
    obtain ⟨s, hs, _, _, hu, hc⟩ := pop_step .pop_front rfl d hd
    rcases hc with ⟨h0, ho, ha⟩ | ⟨_, x, ho, _, _, _, _, hdir⟩
    · have hnil : d.logical = [] :=
        List.eq_nil_of_length_eq_zero (by rw [logical_length, h0])
      refine ⟨s.after, hu, by rw [ha]; simp [Access.on_sequence, hnil],
        Or.inr ⟨.out_of_range, (step_run _ d s hs).2 _ ho, by simp [Access.on_sequence, hnil]⟩⟩
    · rcases hdir with ⟨hcc, _⟩ | ⟨_, hl⟩
      · cases hcc
      · exact ⟨s.after, hu, by simp [Access.on_sequence, hl],
          Or.inl ⟨some x, (step_run _ d s hs).1 _ ho, by simp [Access.on_sequence, hl]⟩⟩
  | subscript i =>
    by_cases hi : i < d.size_
    · have hw : dynamic_ring_buffer_deque.WellFormed d :=
        hd.cases.resolve_right fun hu => by rw [hu.size_eq] at hi; omega
      obtain ⟨x, _, h, hl⟩ := subscript_spec d hw hi
      refine ⟨d, hd, by simp [Access.on_sequence, hl], Or.inl ⟨some x, ?_, ?_⟩⟩
      · simp only [Access.run_dynamic, h]
      · simp [Access.on_sequence, hl]
    · have hnone : d.logical[i]? = none :=
        List.getElem?_eq_none (by rw [logical_length]; omega)
      have hthrow : d.subscript i = .throws .out_of_range d := by
        simp [DynamicRingBufferDeque.subscript, Nat.not_lt.mp hi]
      refine ⟨d, hd, by simp [Access.on_sequence, hnone], Or.inr ⟨.out_of_range, ?_, ?_⟩⟩
      · simp only [Access.run_dynamic, hthrow]
      · simp [Access.on_sequence, hnone]

end static_ring_buffer_deque

namespace static_ring_buffer_deque

open dynamic_ring_buffer_deque (Observation DynamicRingBufferDeque Usable usable_default
  logical_length logical_eq_nil)

variable {α : Type} {capacity_ : Nat}

/-- A call adds at most one element to the conceptual sequence. -/
theorem on_sequence_length (c : Access α) (xs : List α) :
    (c.on_sequence xs).2.length ≤ xs.length + 1 := by
  cases c with
  | push_back v => simp [Access.on_sequence]
  | push_front v => simp [Access.on_sequence]
  | pop_back =>
    cases h : xs.getLast? <;> simp [Access.on_sequence, h]
    omega
  | pop_front =>
    cases xs with
    | nil => simp [Access.on_sequence]
    | cons x rest =>
      simp only [Access.on_sequence, List.length_cons]
      omega
  | subscript i => cases h : xs[i]? <;> simp [Access.on_sequence, h]

/-- Every sequence of calls on a fixed-capacity deque built by calls has a
defined end. -/
theorem static_trace_total [Inhabited α] (hN : capacity_ ≤ PTRDIFF_MAX)
    (calls : List (Access α)) :
    ∀ d : StaticRingBufferDeque α capacity_, WellFormed d →
      ∃ es, trace Access.run calls d = some es := by
  induction calls with
  | nil => intro d _; exact ⟨[], rfl⟩
  | cons c calls ih =>
    intro d hd
    rcases static_run_total c d hd hN with ⟨r, d1, h, hw, _⟩ | ⟨e, h, _⟩
    · obtain ⟨rest, hrest⟩ := ih d1 hw
      exact ⟨_, trace_returns _ c calls d d1 r rest h hrest⟩
    · obtain ⟨rest, hrest⟩ := ih d hd
      exact ⟨_, trace_throws _ c calls d d e rest h hrest⟩

/-- The fixed-capacity deque and the growable deque, started with the same
logical sequence, answer alike a sequence of calls in which every push finds
room in the fixed-capacity deque: each call is answered as the call on the
conceptual sequence says, and the two logical sequences stay equal. -/
theorem static_dynamic_alike [Inhabited α] (hN : capacity_ ≤ PTRDIFF_MAX)
    (calls : List (Access α)) :
    ∀ (ds : StaticRingBufferDeque α capacity_) (dd : DynamicRingBufferDeque α)
      (es : List (Event (StaticRingBufferDeque α capacity_) α)),
      WellFormed ds → Usable dd → ds.logical = dd.logical →
      trace Access.run calls ds = some es →
      (∀ e ∈ es, e.call.is_push = true → e.before.size ≠ capacity_) →
      (capacity_ ≤ 2 ^ 62 ∨ dd.size_ + calls.length ≤ 2 ^ 62) →
      ∃ fs, trace Access.run_dynamic calls dd = some fs ∧
        es.map (·.observation) = fs.map (·.observation) ∧
        es.map (·.after.logical) = fs.map (·.after.logical) ∧
        es.map (·.after.size) = fs.map (·.after.size) ∧
        ∀ e ∈ es, e.observation = (e.call.on_sequence e.before.logical).1 ∧
          e.after.logical = (e.call.on_sequence e.before.logical).2 := by
  induction calls with
  | nil =>
    intro ds dd es _ _ _ h _ _
    simp only [trace, Option.some.injEq] at h
    subst h
    exact ⟨[], rfl, rfl, rfl, rfl, fun e he => by cases he⟩
  | cons c calls ih =>
    intro ds dd es hws hud hlog h hroom hbound
    obtain ⟨obs, s, rest, hes, hrest, hrun⟩ := trace_cons_inv _ c calls ds es h
    subst hes
    have hsz : ds.size_ = dd.size_ := by
      rw [← static_logical_length ds, ← logical_length dd, hlog]
    have hroom1 : c.is_push = true → ds.size_ ≠ capacity_ :=
      fun hp => hroom _ (List.mem_cons_self _ _) hp
    have hsl := hws.size_le
    have hdsize : c.is_push = true → dd.size_ < 2 ^ 62 := by
      intro hp
      have := hroom1 hp
      simp only [List.length_cons] at hbound
      omega
    obtain ⟨s1, hws1, hl1, hs⟩ := static_run_spec c ds hws hN hroom1
    obtain ⟨t1, hut1, hm1, ht⟩ := dynamic_run_spec c dd hud hdsize
    have hss : s = s1 ∧ obs = (c.on_sequence ds.logical).1 := by
      rcases hrun with ⟨r, hr, ho⟩ | ⟨e, he, ho⟩ <;> rcases hs with ⟨r1, hr1, ho1⟩ | ⟨e1, he1, ho1⟩
      · rw [hr] at hr1
        injection hr1 with h1 h2
        exact ⟨h2, by rw [ho, ho1, h1]⟩
      · rw [hr] at he1; cases he1
      · rw [he] at hr1; cases hr1
      · rw [he] at he1
        injection he1 with h1 h2
        exact ⟨h2, by rw [ho, ho1, h1]⟩
    obtain ⟨hs1, hobs⟩ := hss
    subst hs1
    have hlog1 : s.logical = t1.logical := by rw [hl1, hm1, hlog]
    have hsize1 : s.size = t1.size_ := by
      show s.size_ = t1.size_
      rw [← static_logical_length s, ← logical_length t1, hlog1]
    have hbound1 : capacity_ ≤ 2 ^ 62 ∨ t1.size_ + calls.length ≤ 2 ^ 62 := by
      rcases hbound with hb | hb
      · exact Or.inl hb
      · right
        have h1 := on_sequence_length c dd.logical
        rw [← hm1, logical_length, logical_length] at h1
        simp only [List.length_cons] at hb
        omega
    obtain ⟨fs, hfs, ho, hl, hz, hall⟩ := ih s t1 rest hws1 hut1 hlog1 hrest
      (fun e he => hroom e (List.mem_cons_of_mem _ he)) hbound1
    have hdyn : ∃ f, trace Access.run_dynamic (c :: calls) dd = some (f :: fs) ∧
        f.observation = (c.on_sequence ds.logical).1 ∧ f.after = t1 := by
      rcases ht with ⟨r, hr, ho2⟩ | ⟨e, he, ho2⟩
      · exact ⟨_, trace_returns _ c calls dd t1 r fs hr hfs, by rw [hlog, ho2], rfl⟩
      · exact ⟨_, trace_throws _ c calls dd t1 e fs he hfs, by rw [hlog, ho2], rfl⟩
    obtain ⟨f, hf, hfo, hfa⟩ := hdyn
    refine ⟨f :: fs, hf, ?_, ?_, ?_, ?_⟩
    · simp only [List.map_cons, ho, hobs, hfo]
    · simp only [List.map_cons, hl, hfa, hlog1]
    · simp only [List.map_cons, hz, hfa, hsize1]
      rfl
    · intro e he
      rcases List.mem_cons.mp he with he | he
      · subst he
        exact ⟨hobs, hl1⟩
      · exact hall e he

end static_ring_buffer_deque

namespace static_ring_buffer_deque

open dynamic_ring_buffer_deque (Observation DynamicRingBufferDeque Usable usable_default
  logical_length logical_eq_nil)

variable {α : Type} {capacity_ : Nat}

/-- C22. For every capacity `N` an array can have and every finite sequence of
`push_back`, `push_front`, `pop_back`, `pop_front` and `operator[]` calls, the
calls on a default-constructed `StaticRingBufferDeque<T, N>` all have a defined
end; when no push among them finds `N` elements stored, and `N` or the number
of calls is at most 2^62, the number of elements the growable deque can hold,
the same calls on a default-constructed `DynamicRingBufferDeque<T>` have a
defined end too, the caller observes the same for every call (the same popped
and indexed values, `out_of_range` on a pop from the empty deque and on an
index that is not below the size, as the call on the conceptual sequence says),
and after every call the two deques have the same logical sequence and size. -/
theorem C22_static_as_dynamic [Inhabited α] (hN : capacity_ ≤ PTRDIFF_MAX)
    (calls : List (Access α)) :
    ∃ es, trace Access.run calls
        (StaticRingBufferDeque.default_constructed capacity_ :
          StaticRingBufferDeque α capacity_) = some es ∧
      ((∀ e ∈ es, e.call.is_push = true → e.before.size ≠ capacity_) →
        (capacity_ ≤ 2 ^ 62 ∨ calls.length ≤ 2 ^ 62) →
        ∃ fs, trace Access.run_dynamic calls {} = some fs ∧
          es.map (·.observation) = fs.map (·.observation) ∧
          es.map (·.after.logical) = fs.map (·.after.logical) ∧
          es.map (·.after.size) = fs.map (·.after.size) ∧
          ∀ e ∈ es, e.observation = (e.call.on_sequence e.before.logical).1 ∧
            e.after.logical = (e.call.on_sequence e.before.logical).2) := by
  obtain ⟨es, hes⟩ := static_trace_total hN calls _ (static_default_wellformed capacity_)
  refine ⟨es, hes, fun hroom hbound => ?_⟩
  exact static_dynamic_alike hN calls _ {} es (static_default_wellformed capacity_)
    usable_default
    (by rw [logical_eq_nil _ rfl]
        exact List.eq_nil_of_length_eq_zero (by rw [static_logical_length]; rfl))
    hes hroom
    (by rcases hbound with hb | hb
        · exact Or.inl hb
        · exact Or.inr (by show 0 + calls.length ≤ 2 ^ 62; omega))

/-- C22, at the capacity 5 and the calls of `main.cpp`, in which every push finds
room: the observations on the fixed-capacity deque, which are those on the
growable deque. -/
theorem C22_static_as_dynamic_witness :
    5 ≤ PTRDIFF_MAX ∧
    ((trace Access.run main_calls (StaticRingBufferDeque.default_constructed 5)).map
        fun es => (es.all fun e => !(e.call.is_push && e.before.size == 5),
          es.map (·.observation))) =
      some (true, [.threw .out_of_range, .returned none, .returned none, .returned none,
        .returned none, .returned none, .returned (some 1), .returned (some 5),
        .returned (some 5), .returned (some 1), .returned (some 2), .returned none,
        .returned none]) ∧
    ((trace Access.run_dynamic main_calls {}).map fun fs => fs.map (·.observation)) =
      some [.threw .out_of_range, .returned none, .returned none, .returned none,
        .returned none, .returned none, .returned (some 1), .returned (some 5),
        .returned (some 5), .returned (some 1), .returned (some 2), .returned none,
        .returned none] ∧
    ∃ es, trace Access.run main_calls
        (StaticRingBufferDeque.default_constructed 5 : StaticRingBufferDeque Int 5) = some es ∧
      ((∀ e ∈ es, e.call.is_push = true → e.before.size ≠ 5) →
        (5 ≤ 2 ^ 62 ∨ main_calls.length ≤ 2 ^ 62) →
        ∃ fs, trace Access.run_dynamic main_calls {} = some fs ∧
          es.map (·.observation) = fs.map (·.observation) ∧
          es.map (·.after.logical) = fs.map (·.after.logical) ∧
          es.map (·.after.size) = fs.map (·.after.size) ∧
          ∀ e ∈ es, e.observation = (e.call.on_sequence e.before.logical).1 ∧
            e.after.logical = (e.call.on_sequence e.before.logical).2) :=
  ⟨by decide, by decide, by decide, C22_static_as_dynamic (by decide) main_calls⟩

end static_ring_buffer_deque

/-! ## Theorems: allocation failure, the constructors, buffer size and zero divisors -/

namespace dynamic_ring_buffer_deque

variable {α : Type} [Inhabited α]

/-- When `reserve` throws, the exception is `std::bad_alloc`, the allocation of
the new buffer is what failed, and the deque is in the state it had. -/
theorem reserve_throws (d : DynamicRingBufferDeque α) (n : Nat) (e : Exception)
    (d1 : DynamicRingBufferDeque α) (h : d.reserve n = .throws e d1) :
    e = .bad_alloc ∧ d1 = d ∧ d.capacity_ < n ∧
      (array_ptr.ArrayPtr.construct (size_t.add n 1) : Option (array_ptr.ArrayPtr α)) = none := by
  unfold DynamicRingBufferDeque.reserve at h
  by_cases hn : n > d.capacity_
  · simp only [hn, if_true] at h
    cases hc : (array_ptr.ArrayPtr.construct (size_t.add n 1) : Option (array_ptr.ArrayPtr α)) with
    | none =>
      rw [hc] at h
      injection h with h1 h2
      exact ⟨h1.symm, h2.symm, hn, rfl⟩
    | some tmp_buff_ =>
      rw [hc] at h
      simp only at h
      cases hm : std_move d tmp_buff_.length d.begin_ d.end_ tmp_buff_ 0 with
      | none => rw [hm] at h; cases h
      | some moved => rw [hm] at h; cases h
  · simp only [hn, if_false] at h
    cases h

/-- When the allocation of the new buffer fails, `reserve` throws
`std::bad_alloc` and the deque is in the state it had. -/
theorem reserve_allocation_fails (d : DynamicRingBufferDeque α) (n : Nat)
    (hn : d.capacity_ < n)
    (hfail : (array_ptr.ArrayPtr.construct (size_t.add n 1) :
      Option (array_ptr.ArrayPtr α)) = none) :
    d.reserve n = .throws .bad_alloc d := by
  simp only [DynamicRingBufferDeque.reserve, gt_iff_lt, hn, if_true, hfail]

/-- When `reserve_if_not_enough` throws, the deque was full, the exception is
`std::bad_alloc` and the deque is in the state it had. -/
theorem reserve_if_not_enough_throws (d : DynamicRingBufferDeque α) (e : Exception)
    (d1 : DynamicRingBufferDeque α) (h : d.reserve_if_not_enough = .throws e d1) :
    e = .bad_alloc ∧ d1 = d ∧ d.size_ = d.capacity_ := by
  unfold DynamicRingBufferDeque.reserve_if_not_enough at h
  by_cases hfull : d.size_ = d.capacity_
  · simp only [hfull, if_true] at h
    obtain ⟨h1, h2, _⟩ := reserve_throws d _ e d1 h
    exact ⟨h1, h2, hfull⟩
  · simp only [hfull, if_false] at h
    cases h

/-- When a push throws, the deque was full, the exception is `std::bad_alloc`
and the deque is in the state it had. -/
theorem push_throws (d : DynamicRingBufferDeque α) (v : α) (e : Exception)
    (d1 : DynamicRingBufferDeque α)
    (h : d.push_back v = .throws e d1 ∨ d.push_front v = .throws e d1) :
    e = .bad_alloc ∧ d1 = d ∧ d.size_ = d.capacity_ := by
  rcases h with h | h
  · unfold DynamicRingBufferDeque.push_back at h
    cases hr : d.reserve_if_not_enough with
    | undefined => rw [hr] at h; cases h
    | throws e2 s =>
      rw [hr] at h
      injection h with h1 h2
      subst h1; subst h2
      exact reserve_if_not_enough_throws d _ _ hr
    | returns u s =>
      rw [hr] at h
      simp only at h
      cases hi : s.end_.increment s.buff_size_ with
      | none => rw [hi] at h; cases h
      | some next =>
        rw [hi] at h
        simp only at h
        split at h <;> cases h
  · unfold DynamicRingBufferDeque.push_front at h
    cases hr : d.reserve_if_not_enough with
    | undefined => rw [hr] at h; cases h
    | throws e2 s =>
      rw [hr] at h
      injection h with h1 h2
      subst h1; subst h2
      exact reserve_if_not_enough_throws d _ _ hr
    | returns u s =>
      rw [hr] at h
      simp only at h
      cases hi : s.begin_.decrement s.buff_size_ with
      | none => rw [hi] at h; cases h
      | some prev =>
        rw [hi] at h
        simp only at h
        split at h <;> cases h

/-- C23. If the allocation of the new buffer fails during `reserve(n)`, or during
the growth step of `push_back` or `push_front` on a full deque, the call throws
`std::bad_alloc` and the deque is in exactly the state it had: the buffer, the
size, the capacity, the buffer size and both cursors, the value pushed not
inserted.  And these calls throw in no other way: whenever one of them throws, it
is `std::bad_alloc` and the deque is in the state it had. -/
theorem C23_strong_exception_safety (d : DynamicRingBufferDeque α) (n : Nat) (v : α) :
    (d.capacity_ < n →
      (array_ptr.ArrayPtr.construct (size_t.add n 1) : Option (array_ptr.ArrayPtr α)) = none →
      d.reserve n = .throws .bad_alloc d) ∧
    (d.size_ = d.capacity_ →
      d.capacity_ < (if d.capacity_ ≠ 0 then size_t.mul d.capacity_ 2 else 1) →
      (array_ptr.ArrayPtr.construct
        (size_t.add (if d.capacity_ ≠ 0 then size_t.mul d.capacity_ 2 else 1) 1) :
        Option (array_ptr.ArrayPtr α)) = none →
      d.push_back v = .throws .bad_alloc d ∧ d.push_front v = .throws .bad_alloc d) ∧
    (∀ e d1, d.reserve n = .throws e d1 → e = .bad_alloc ∧ d1 = d) ∧
    (∀ e d1, d.push_back v = .throws e d1 ∨ d.push_front v = .throws e d1 →
      e = .bad_alloc ∧ d1 = d ∧ d1.buff_ = d.buff_ ∧ d1.size_ = d.size_ ∧
        d1.capacity_ = d.capacity_ ∧ d1.buff_size_ = d.buff_size_ ∧ d1.begin_ = d.begin_ ∧
        d1.end_ = d.end_) := by
  refine ⟨reserve_allocation_fails d n, fun hfull hgrow hfail => ?_, fun e d1 h => ?_,
    fun e d1 h => ?_⟩
  · have hr : d.reserve_if_not_enough = .throws .bad_alloc d := by
      simp only [DynamicRingBufferDeque.reserve_if_not_enough, hfull, if_true]
      exact reserve_allocation_fails d _ hgrow hfail
    simp only [DynamicRingBufferDeque.push_back, DynamicRingBufferDeque.push_front, hr,
      and_self]
  · obtain ⟨h1, h2, _⟩ := reserve_throws d n e d1 h
    exact ⟨h1, h2⟩
  · obtain ⟨h1, h2, _⟩ := push_throws d v e d1 h
    subst h2
    exact ⟨h1, rfl, rfl, rfl, rfl, rfl, rfl, rfl⟩

/-- C23, at two requests no allocation can serve: `reserve(2^63)` on the
default-constructed deque, and a push for full-deque fields of capacity `2^62`,
whose growth asks for `2^63 + 1` slots.  Both throw `std::bad_alloc` and leave
the fields as they were. -/
theorem C23_strong_exception_safety_witness :
    ({} : DynamicRingBufferDeque Int).reserve (2 ^ 63) = .throws .bad_alloc {} ∧
    ({ size_ := 2 ^ 62, capacity_ := 2 ^ 62, buff_size_ := 2 ^ 62 + 1, end_ := ⟨2 ^ 62⟩ } :
        DynamicRingBufferDeque Int).push_back 7 =
      .throws .bad_alloc
        { size_ := 2 ^ 62, capacity_ := 2 ^ 62, buff_size_ := 2 ^ 62 + 1, end_ := ⟨2 ^ 62⟩ } :=
  ⟨(C23_strong_exception_safety {} (2 ^ 63) 7).1 (by decide) (by decide),
    ((C23_strong_exception_safety _ 0 7).2.1 rfl (by decide) (by decide)).1⟩

end dynamic_ring_buffer_deque

namespace dynamic_ring_buffer_deque

variable {α : Type} [Inhabited α]

/-- The default constructor, and the sized constructor for a size below
`PTRDIFF_MAX`, leave both cursors of the object referencing the object. -/
theorem constructed_cursor_owners (address n : Nat) (hn : n < PTRDIFF_MAX) :
    (DequeObject.default_constructed address : DequeObject α).begin_deque_ = address ∧
    (DequeObject.default_constructed address : DequeObject α).end_deque_ = address ∧
    ∃ o : DequeObject α, DequeObject.sized address n = some o ∧ o.this = address ∧
      o.begin_deque_ = address ∧ o.end_deque_ = address :=
  ⟨rfl, rfl, _, sized_eq address n hn, rfl, rfl, rfl⟩

/-- In every state reachable from the default constructor by the member
functions in which the deque owns a buffer, `buff_size_ == capacity_ + 1` and the
buffer has `capacity_ + 1` slots; a reachable deque that owns no buffer and whose
capacity is not `SIZE_MAX` is as the default constructor leaves it.  The sized
constructor for a size below `PTRDIFF_MAX` leaves a deque that owns a buffer of
`capacity_ + 1` slots with `buff_size_ == capacity_ + 1`. -/
theorem buffer_size_reachable (d : DynamicRingBufferDeque α) (hr : Reachable d)
    (address n : Nat) (hn : n < PTRDIFF_MAX) :
    (d.buff_ ≠ [] → d.buff_size_ = d.capacity_ + 1 ∧ d.buff_.length = d.capacity_ + 1) ∧
    (d.buff_ = [] → d.capacity_ ≠ SIZE_MAX →
      d.buff_size_ = 0 ∧ d.capacity_ = 0 ∧ d.size_ = 0) ∧
    (∃ o : DequeObject α, DequeObject.sized address n = some o ∧
      o.fields.buff_size_ = o.fields.capacity_ + 1 ∧
      o.fields.buff_.length = o.fields.capacity_ + 1) := by
  refine ⟨fun hb => ?_, fun hb hc => ?_, ?_⟩
  · rcases reachable_cases d hr with hd | hu
    · exact ⟨hd.buff_size_eq, by rw [hd.length_eq, hd.buff_size_eq]⟩
    · exact absurd hu.buff_eq hb
  · rcases reachable_cases d hr with hd | hu
    · have h1 := hd.length_eq
      have h2 := hd.buff_size_eq
      rw [hb] at h1
      simp only [List.length_nil] at h1
      omega
    · exact ⟨hu.buff_size_eq, hu.capacity_eq.resolve_right hc, hu.size_eq⟩
  · exact ⟨_, sized_eq address n hn, rfl, by simp⟩

/-- C25, the failing input.  The default-constructed deque, a reachable state,
has `buff_size_ == 0` and `capacity_ == 0`: `buff_size_` is not `capacity_ + 1`,
in the naturals as in `size_t`, and there is no buffer of `capacity_ + 1 == 1`
slot.  The sized constructor for size 0 reaches the same capacity 0 with a
buffer of one slot and `buff_size_ == 1`, as the layout comment of the class
states. -/
theorem C25_default_constructed_buffer_size :
    Reachable ({} : DynamicRingBufferDeque Int) ∧
    ({} : DynamicRingBufferDeque Int).buff_size_ = 0 ∧
    ({} : DynamicRingBufferDeque Int).capacity_ = 0 ∧
    ({} : DynamicRingBufferDeque Int).buff_.length = 0 ∧
    ({} : DynamicRingBufferDeque Int).buff_size_ ≠
      ({} : DynamicRingBufferDeque Int).capacity_ + 1 ∧
    ({} : DynamicRingBufferDeque Int).buff_size_ ≠
      size_t.add ({} : DynamicRingBufferDeque Int).capacity_ 1 ∧
    (DequeObject.default_constructed 100 : DequeObject Int).fields.buff_size_ = 0 ∧
    (DequeObject.sized 100 0 : Option (DequeObject Int)).map
      (fun o => (o.fields.capacity_, o.fields.buff_size_, o.fields.buff_.length)) =
      some (0, 1, 1) ∧
    ¬ ∀ d : DynamicRingBufferDeque Int, Reachable d → d.buff_size_ = d.capacity_ + 1 := by
  refine ⟨Reachable.default_constructed, rfl, rfl, rfl, by decide, by decide, rfl, by decide,
    fun h => ?_⟩
  have := h {} Reachable.default_constructed
  exact absurd this (by decide)

end dynamic_ring_buffer_deque

namespace dynamic_ring_buffer_deque

variable {α : Type} [Inhabited α]

/-- Every call but `reserve(SIZE_MAX)` on a deque that owns its buffer, or is as
the default constructor leaves it, has a defined end and leaves such a deque:
no `%` meets a zero divisor. -/
theorem usable_call_defined (c : Call α) (d : DynamicRingBufferDeque α) (hd : Usable d)
    (ht : c.typed) (hc : c ≠ .reserve SIZE_MAX) :
    ∃ s, c.step d = some s ∧ Usable s.after := by
  cases c with
  | push_back v =>
    obtain ⟨s, hs, _, _, hu, _⟩ := push_step (.push_back v) rfl d hd
    exact ⟨s, hs, hu⟩
  | push_front v =>
    obtain ⟨s, hs, _, _, hu, _⟩ := push_step (.push_front v) rfl d hd
    exact ⟨s, hs, hu⟩
  | pop_back =>
    obtain ⟨s, hs, _, _, hu, _⟩ := pop_step .pop_back rfl d hd
    exact ⟨s, hs, hu⟩
  | pop_front =>
    obtain ⟨s, hs, _, _, hu, _⟩ := pop_step .pop_front rfl d hd
    exact ⟨s, hs, hu⟩
  | reserve n =>
    have hn : n ≠ SIZE_MAX := fun h => hc (by rw [h])
    rcases reserve_cases d hd.cases (n := n) ht with
      ⟨_, h2⟩ | ⟨_, _, d2, h2, hw, _⟩ | ⟨_, _, _, h2⟩ | ⟨_, h, _⟩ | ⟨_, h, _⟩
    · exact ⟨⟨d, .reserve n, .returned none, d⟩, by simp only [Call.step, Call.run, h2], hd⟩
    · exact ⟨⟨d, .reserve n, .returned none, d2⟩, by simp only [Call.step, Call.run, h2],
        Or.inl hw⟩
    · exact ⟨⟨d, .reserve n, .threw .bad_alloc, d⟩, by simp only [Call.step, Call.run, h2], hd⟩
    · exact absurd h hn
    · exact absurd h hn
  | clear =>
    refine ⟨⟨d, .clear, .returned none, { d with size_ := 0, begin_ := ⟨0⟩, end_ := ⟨0⟩ }⟩,
      rfl, ?_⟩
    rcases hd with hw | ⟨hu, h0⟩
    · refine Or.inl ⟨hw.buff_size_eq, hw.length_eq, hw.bound, Nat.zero_le _, ?_, ?_⟩
      · have := hw.buff_size_eq
        show 0 < d.buff_size_
        omega
      · show 0 = (0 + 0) % d.buff_size_
        simp
    · exact Or.inr ⟨⟨hu.buff_eq, rfl, hu.buff_size_eq, rfl, rfl, hu.capacity_eq⟩, h0⟩

/-- A sequence of calls without `reserve(SIZE_MAX)` on a default-constructed
deque has a defined end: no `%` meets a zero divisor. -/
theorem perform_defined (calls : List (Call α)) :
    ∀ d : DynamicRingBufferDeque α, Usable d →
      (∀ c ∈ calls, c.typed ∧ c ≠ .reserve SIZE_MAX) → ∃ steps, perform calls d = some steps := by
  induction calls with
  | nil => intro d _ _; exact ⟨[], rfl⟩
  | cons c calls ih =>
    intro d hd hcs
    obtain ⟨ht, hc⟩ := hcs c (List.mem_cons_self _ _)
    obtain ⟨s, hs, hu⟩ := usable_call_defined c d hd ht hc
    obtain ⟨rest, hrest⟩ := ih s.after hu fun c1 h1 => hcs c1 (List.mem_cons_of_mem _ h1)
    exact ⟨s :: rest, perform_cons c calls d s rest hs hrest⟩

/-- C30, the failing input.  On a default-constructed `DynamicRingBufferDeque`,
`reserve(SIZE_MAX)` returns and leaves `buff_size_ == 0` with capacity
`SIZE_MAX`; `push_back(7)` then finds room, skips the growth step and evaluates
`(index_ + 1) % buff_size_` with the divisor 0: the sequence of the two calls
has undefined behaviour.  On a `StaticRingBufferDeque<int, 0>` every call throws
before any `%`. -/
theorem C30_zero_divisor_after_reserve_size_max :
    perform [.reserve SIZE_MAX, .push_back 7] ({} : DynamicRingBufferDeque Int) = none ∧
    ({} : DynamicRingBufferDeque Int).reserve SIZE_MAX = .returns () size_max_example ∧
    size_max_example.buff_size_ = 0 ∧ size_max_example.size_ ≠ size_max_example.capacity_ ∧
    size_max_example.reserve_if_not_enough = .returns () size_max_example ∧
    size_t.mod (size_t.add size_max_example.end_.index_ 1) size_max_example.buff_size_ = none ∧
    size_max_example.end_.increment size_max_example.buff_size_ = none ∧
    (static_ring_buffer_deque.trace static_ring_buffer_deque.Access.run
        [.push_back 7, .push_front 7, .pop_back, .pop_front, .subscript 0]
        (static_ring_buffer_deque.StaticRingBufferDeque.default_constructed 0 :
          static_ring_buffer_deque.StaticRingBufferDeque Int 0)).map
      (fun es => es.map (·.observation)) =
      some [.threw .overflow_error, .threw .overflow_error, .threw .out_of_range,
        .threw .out_of_range, .threw .out_of_range] :=
  ⟨by decide, by decide, rfl, by decide, by decide, by decide, by decide, by decide⟩

end dynamic_ring_buffer_deque

/-! ## Theorems: the sorting routines -/

namespace merge_sort

variable {α : Type}

theorem merge_loop_perm [LT α] [DecidableRel (fun a b : α => a < b)] (fuel : Nat) :
    ∀ first second : List α, (merge_loop fuel first second).Perm (first ++ second) := by
  induction fuel with
  | zero => intro first second; exact List.Perm.refl _
  | succ fuel ih =>
    intro first second
    cases first with
    | nil => exact List.Perm.refl _
    | cons x first =>
      cases second with
      | nil => simp [merge_loop]
      | cons y second =>
        simp only [merge_loop]
        split
        · refine ((ih (x :: first) second).cons y).trans ?_
          exact (@List.perm_middle _ y (x :: first) second).symm
        · exact (ih first (y :: second)).cons x

theorem std_merge_perm [LT α] [DecidableRel (fun a b : α => a < b)] (first second : List α) :
    (std_merge first second).Perm (first ++ second) :=
  merge_loop_perm _ first second

theorem merge_loop_sorted [LinearOrder α] (fuel : Nat) :
    ∀ first second : List α, first.length + second.length ≤ fuel →
      first.Sorted (· ≤ ·) → second.Sorted (· ≤ ·) →
      (merge_loop fuel first second).Sorted (· ≤ ·) := by
  induction fuel with
  | zero =>
    intro first second hlen _ _
    have h1 : first = [] := List.length_eq_zero.mp (by omega)
    have h2 : second = [] := List.length_eq_zero.mp (by omega)
    simp [merge_loop, h1, h2]
  | succ fuel ih =>
    intro first second hlen h1 h2
    cases first with
    | nil => simpa [merge_loop] using h2
    | cons x first =>
      cases second with
      | nil => simpa [merge_loop] using h1
      | cons y second =>
        have hx := List.sorted_cons.mp h1
        have hy := List.sorted_cons.mp h2
        simp only [List.length_cons] at hlen
        simp only [merge_loop]
        split
        · rename_i hlt
          refine List.sorted_cons.mpr ⟨fun z hz => ?_, ih _ _ (by simp; omega) h1 hy.2⟩
          have hz1 := (merge_loop_perm fuel (x :: first) second).subset hz
          rcases List.mem_append.mp hz1 with hz2 | hz2
          · rcases List.mem_cons.mp hz2 with rfl | hz3
            · exact le_of_lt hlt
            · exact le_trans (le_of_lt hlt) (hx.1 z hz3)
          · exact hy.1 z hz2
        · rename_i hnlt
          have hxy : x ≤ y := not_lt.mp hnlt
          refine List.sorted_cons.mpr ⟨fun z hz => ?_, ih _ _ (by simp; omega) hx.2 h2⟩
          have hz1 := (merge_loop_perm fuel first (y :: second)).subset hz
          rcases List.mem_append.mp hz1 with hz2 | hz2
          · exact hx.1 z hz2
          · rcases List.mem_cons.mp hz2 with rfl | hz3
            · exact hxy
            · exact le_trans hxy (hy.1 z hz3)

theorem std_merge_sorted [LinearOrder α] (first second : List α)
    (h1 : first.Sorted (· ≤ ·)) (h2 : second.Sorted (· ≤ ·)) :
    (std_merge first second).Sorted (· ≤ ·) :=
  merge_loop_sorted _ first second (Nat.le_refl _) h1 h2

theorem to_int_eq {n : Nat} (h : n < 2 ^ 31) : to_int n = n := by
  unfold to_int
  omega

/-- `MergeSort` sorts every range of fewer than 2^31 elements, whatever
`max_async_depth` and `depth` are. -/
theorem MergeSort_short [LinearOrder α] (fuel : Nat) :
    ∀ (range : List α) (max_async_depth depth : Int),
      range.length < fuel → range.length < 2 ^ 31 →
      ∃ sorted, MergeSort fuel range max_async_depth depth = some sorted ∧
        sorted.Sorted (· ≤ ·) ∧ sorted.Perm range := by
  induction fuel with
  | zero => intro range _ _ h; exact absurd h (Nat.not_lt_zero _)
  | succ fuel ih =>
    intro range max_async_depth depth hfuel hshort
    have hlen : to_int range.length = range.length := to_int_eq hshort
    by_cases hsmall : range.length < 2
    · refine ⟨range, ?_, ?_, List.Perm.refl _⟩
      · have : (range.length : Int) < 2 := by omega
        simp only [MergeSort, hlen, this, if_true]
      · rcases range with _ | ⟨a, _ | ⟨b, l⟩⟩
        · exact List.sorted_nil
        · exact List.sorted_singleton a
        · simp only [List.length_cons] at hsmall
          omega
    · have hnot : ¬ ((range.length : Int) < 2) := by omega
      have hmid : (Int.tdiv (range.length : Int) 2).toNat = range.length / 2 := by
        rw [Int.tdiv_eq_ediv (by omega) (by omega)]
        omega
      have htake : (range.take (range.length / 2)).length < fuel := by
        rw [List.length_take]; omega
      have hdrop : (range.drop (range.length / 2)).length < fuel := by
        rw [List.length_drop]; omega
      obtain ⟨l, hl, hls, hlp⟩ := ih (range.take (range.length / 2)) max_async_depth (depth + 1)
        htake (by rw [List.length_take]; omega)
      obtain ⟨r, hr, hrs, hrp⟩ := ih (range.drop (range.length / 2)) max_async_depth (depth + 1)
        hdrop (by rw [List.length_drop]; omega)
      refine ⟨std_merge l r, ?_, std_merge_sorted l r hls hrs, ?_⟩
      · simp only [MergeSort, hlen, hnot, if_false, hmid, hl, hr]
        split <;> rfl
      · refine (std_merge_perm l r).trans ?_
        refine (List.Perm.append hlp hrp).trans ?_
        rw [List.take_append_drop]

/-- `MergeSort` returns at once, leaving the range as it is, when the `int`
`range_length` is less than 2. -/
theorem MergeSort_returns_early [LT α] [DecidableRel (fun a b : α => a < b)] (fuel : Nat)
    (range : List α) (max_async_depth depth : Int) (h : to_int range.length < 2) :
    MergeSort (fuel + 1) range max_async_depth depth = some range := by
  rw [MergeSort]
  simp only [h, if_true]

/-- The example of the specification: `[42, -9, 15, 3, -21]` is sorted to
`[-21, -9, 3, 15, 42]`; `max_async_depth` is 1, the integer part of `log(5)`. -/
theorem MergeSort_example :
    MergeSort 6 [42, -9, 15, 3, -21] 1 0 = some [-21, -9, 3, 15, (42 : Int)] := by
  decide

theorem long_example_length : long_example.length = 2 ^ 31 := by
  unfold long_example
  rw [List.length_cons, List.length_replicate]
  norm_num

/-- C10, at the failing input. For the 2^31 elements `1, 0, ..., 0`, which are
not in non-decreasing order, `int range_length` is `-2^31`: `MergeSort` returns at
`if (range_length < 2) return;` and leaves the range as it was, whatever
`max_async_depth` and `depth` are. -/
theorem C10_MergeSort_long_input :
    long_example.length = 2 ^ 31 ∧ ¬ long_example.Sorted (· ≤ ·) ∧
    ∀ max_async_depth depth : Int,
      MergeSort (long_example.length + 1) long_example max_async_depth depth =
        some long_example := by
  refine ⟨long_example_length, ?_, ?_⟩
  · intro h
    unfold long_example at h
    have h0 : (0 : Int) ∈ List.replicate (2 ^ 31 - 1) (0 : Int) := by
      rw [List.mem_replicate]
      exact ⟨by norm_num, rfl⟩
    have := (List.sorted_cons.mp h).1 0 h0
    omega
  · intro max_async_depth depth
    apply MergeSort_returns_early
    rw [long_example_length]
    unfold to_int
    norm_num

end merge_sort

namespace in_place_quick_sort

variable {α : Type}

theorem set_set_perm (a : List α) (i j : Nat) (hi : i < a.length) (hj : j < a.length) :
    ((a.set i a[j]).set j a[i]).Perm a := by
  classical
  rw [List.perm_iff_count]
  intro b
  have hj1 : j < (a.set i a[j]).length := by rw [List.length_set]; exact hj
  rw [List.count_set _ _ _ _ hj1, List.count_set _ _ _ _ hi]
  have h1 : (a.set i a[j])[j] = a[j] := by
    rw [List.getElem_set]; split
    · rfl
    · rfl
  rw [h1]
  have h2 := List.boole_getElem_le_count b a i hi
  split at h2 <;> split <;> split <;> simp_all

/-- `swap` of two positions of the range, the left one before the right one. -/
theorem swap_spec (a : List α) (i j : Nat) (hij : i < j) (hj : j < a.length) :
    ∃ b, swap a i j = some b ∧ b.length = a.length ∧ b.Perm a ∧
      b[i]? = a[j]? ∧ b[j]? = a[i]? ∧ ∀ k, k ≠ i → k ≠ j → b[k]? = a[k]? := by
  have hi : i < a.length := Nat.lt_trans hij hj
  refine ⟨(a.set i a[j]).set j a[i], ?_, by simp, set_set_perm a i j hi hj, ?_, ?_, ?_⟩
  · simp [swap, List.getElem?_eq_getElem hi, List.getElem?_eq_getElem hj]
  · rw [List.getElem?_set_ne (by omega), List.getElem?_set_self hi, List.getElem?_eq_getElem hj]
  · rw [List.getElem?_set_self (by simpa using hj), List.getElem?_eq_getElem hi]
  · intro k hki hkj
    rw [List.getElem?_set_ne (Ne.symm hkj), List.getElem?_set_ne (Ne.symm hki)]

/-- The left scan stops at or before a position that holds an element the
comparator does not put before the pivot value. -/
theorem scan_left_spec (cmp : α → α → Bool) (a : List α) (pv : α) (j : Nat) (x : α)
    (hx : a[j]? = some x) (hcmp : cmp x pv = false) (fuel : Nat) :
    ∀ left, left ≤ j → a.length < fuel + left →
      ∃ l1 y, scan_left cmp a pv fuel left = some l1 ∧ left ≤ l1 ∧ l1 ≤ j ∧
        a[l1]? = some y ∧ cmp y pv = false ∧
        ∀ i z, left ≤ i → i < l1 → a[i]? = some z → cmp z pv = true := by
  have hj : j < a.length := by
    rcases Nat.lt_or_ge j a.length with h | h
    · exact h
    · rw [List.getElem?_eq_none h] at hx; exact absurd hx (by simp)
  induction fuel with
  | zero => intro left hle hfuel; omega
  | succ fuel ih =>
    intro left hle hfuel
    have hl : left < a.length := by omega
    by_cases hc : cmp a[left] pv = true
    · have hne : left ≠ j := by
        rintro rfl
        rw [List.getElem?_eq_getElem hl] at hx
        rw [Option.some.inj hx, hcmp] at hc
        exact absurd hc (by simp)
      obtain ⟨l1, y, h, h1, h2, h3, h4, h5⟩ := ih (left + 1) (by omega) (by omega)
      refine ⟨l1, y, ?_, by omega, h2, h3, h4, ?_⟩
      · simp only [scan_left, List.getElem?_eq_getElem hl, hc, if_true, h]
      · intro i z hi1 hi2 hz
        by_cases hil : i = left
        · subst hil
          rw [List.getElem?_eq_getElem hl] at hz
          rw [← Option.some.inj hz]; exact hc
        · exact h5 i z (by omega) hi2 hz
    · refine ⟨left, a[left], ?_, Nat.le_refl _, hle, List.getElem?_eq_getElem hl, by simpa using hc,
        fun i z h1 h2 _ => by omega⟩
      simp only [scan_left, List.getElem?_eq_getElem hl, hc, if_false]
      rfl

/-- The right scan stops at or after a position that holds an element the
comparator does not put after the pivot value. -/
theorem scan_right_spec (cmp : α → α → Bool) (a : List α) (pv : α) (i : Nat) (x : α)
    (hx : a[i]? = some x) (hcmp : cmp pv x = false) :
    ∀ right, i ≤ right → right < a.length →
      ∃ r1 y, scan_right cmp a pv right = some r1 ∧ i ≤ r1 ∧ r1 ≤ right ∧
        a[r1]? = some y ∧ cmp pv y = false ∧
        ∀ k z, r1 < k → k ≤ right → a[k]? = some z → cmp pv z = true := by
  intro right
  induction right with
  | zero =>
    intro hle hlt
    have hi0 : i = 0 := by omega
    subst hi0
    refine ⟨0, x, ?_, Nat.le_refl _, Nat.le_refl _, hx, hcmp, fun k z h1 h2 _ => by omega⟩
    simp only [scan_right, hx, hcmp]
    rfl
  | succ right ih =>
    intro hle hlt
    by_cases hc : cmp pv a[right + 1] = true
    · have hne : i ≠ right + 1 := by
        rintro rfl
        rw [List.getElem?_eq_getElem hlt] at hx
        rw [Option.some.inj hx, hcmp] at hc
        exact absurd hc (by simp)
      obtain ⟨r1, y, h, h1, h2, h3, h4, h5⟩ := ih (by omega) (by omega)
      refine ⟨r1, y, ?_, h1, by omega, h3, h4, ?_⟩
      · simp only [scan_right, List.getElem?_eq_getElem hlt, hc, if_true, h]
      · intro k z hk1 hk2 hz
        by_cases hkr : k = right + 1
        · subst hkr
          rw [List.getElem?_eq_getElem hlt] at hz
          rw [← Option.some.inj hz]; exact hc
        · exact h5 k z hk1 (by omega) hz
    · refine ⟨right + 1, a[right + 1], ?_, hle, Nat.le_refl _, List.getElem?_eq_getElem hlt,
        by simpa using hc, fun k z h1 h2 _ => by omega⟩
      simp only [scan_right, List.getElem?_eq_getElem hlt, hc, if_false]
      rfl

/-- The loop of the partition, from any round on.  On the left of `left` nothing
is after the pivot value, on the right of `right` nothing is before it (both when
the comparator is asymmetric, `Q`), and each scan has an element that stops it
inside the range.  The loop ends inside the range, with a permutation of the range
split at the position returned. -/
theorem partition_loop_spec (cmp : α → α → Bool) (pv : α) (Q : Prop)
    (hasym : Q → ∀ x y, cmp x y = true → cmp y x = false) (fuel : Nat) :
    ∀ (a : List α) (left right : Nat),
      right + 1 - left < fuel → right < a.length → left ≤ right + 1 →
      (∃ j x, left ≤ j ∧ a[j]? = some x ∧ cmp x pv = false) →
      (∃ i x, i ≤ right ∧ a[i]? = some x ∧ cmp pv x = false ∧ (1 ≤ left ∨ 1 ≤ i)) →
      (Q → ∀ i y, i < left → a[i]? = some y → cmp pv y = false) →
      (Q → ∀ k y, right < k → a[k]? = some y → cmp y pv = false) →
      ∃ b p, partition_loop cmp pv fuel a left right = some (b, p) ∧ b.Perm a ∧
        1 ≤ p ∧ p < a.length ∧
        (Q → (∀ i y, i < p → b[i]? = some y → cmp pv y = false) ∧
          (∀ k y, p ≤ k → b[k]? = some y → cmp y pv = false)) := by
  induction fuel with
  | zero => intro a left right h; omega
  | succ fuel ih =>
    intro a left right hfuel hr hlr hL hR hordL hordR
    obtain ⟨j, xj, hj1, hj2, hj3⟩ := hL
    obtain ⟨i, xi, hi1, hi2, hi3, hi4⟩ := hR
    have hjlt : j < a.length := by
      rcases Nat.lt_or_ge j a.length with h | h
      · exact h
      · rw [List.getElem?_eq_none h] at hj2; exact absurd hj2 (by simp)
    obtain ⟨l1, x1, hscanl, hl1, hl2, hl3, hl4, hl5⟩ :=
      scan_left_spec cmp a pv j xj hj2 hj3 (a.length + 1) left hj1 (by omega)
    obtain ⟨r1, y1, hscanr, hr1, hr2, hr3, hr4, hr5⟩ :=
      scan_right_spec cmp a pv i xi hi2 hi3 right hi1 hr
    by_cases hlt : l1 < r1
    · -- the elements are exchanged and the loop goes on
      obtain ⟨b, hswap, hblen, hbperm, hbl, hbr, hbk⟩ := swap_spec a l1 r1 hlt (by omega)
      obtain ⟨c, p, hloop, hcperm, hp1, hp2, hord⟩ :=
        ih b (l1 + 1) (r1 - 1) (by omega) (by omega) (by omega)
          ⟨r1, x1, by omega, by rw [hbr, hl3], hl4⟩
          ⟨l1, y1, by omega, by rw [hbl, hr3], hr4, Or.inl (by omega)⟩
          (fun hQ k y hk hy => by
            by_cases hk1 : k = l1
            · subst hk1
              rw [hbl, hr3] at hy
              rw [← Option.some.inj hy]; exact hr4
            · rw [hbk k hk1 (by omega)] at hy
              by_cases hk2 : k < left
              · exact hordL hQ k y hk2 hy
              · exact hasym hQ _ _ (hl5 k y (by omega) (by omega) hy))
          (fun hQ k y hk hy => by
            by_cases hk1 : k = r1
            · subst hk1
              rw [hbr, hl3] at hy
              rw [← Option.some.inj hy]; exact hl4
            · rw [hbk k (by omega) hk1] at hy
              by_cases hk2 : right < k
              · exact hordR hQ k y hk2 hy
              · exact hasym hQ _ _ (hr5 k y (by omega) (by omega) hy))
      refine ⟨c, p, ?_, hcperm.trans hbperm, hp1, by omega, hord⟩
      simp only [partition_loop, hscanl, hscanr, hlt, if_true, hswap, hloop]
    · -- the cursors have met: the loop ends
      refine ⟨a, l1, ?_, List.Perm.refl _, ?_, by omega, fun hQ => ⟨?_, ?_⟩⟩
      · simp only [partition_loop, hscanl, hscanr, hlt, if_false]
      · rcases hi4 with h | h <;> omega
      · intro k y hk hy
        by_cases hk2 : k < left
        · exact hordL hQ k y hk2 hy
        · exact hasym hQ _ _ (hl5 k y (by omega) hk hy)
      · intro k y hk hy
        by_cases hk1 : k = l1
        · subst hk1
          rw [hl3] at hy
          rw [← Option.some.inj hy]; exact hl4
        · by_cases hk2 : right < k
          · exact hordR hQ k y hk2 hy
          · exact hasym hQ _ _ (hr5 k y (by omega) (by omega) hy)

/-- `InPlaceQuickSortPartition` on a range of at least two elements, for a
comparator that does not put the pivot value before itself: the call stays inside
the range, permutes it and returns a position strictly inside it; when the
comparator is asymmetric, nothing on the left of the position is after the pivot
value and nothing from the position on is before it. -/
theorem InPlaceQuickSortPartition_spec (cmp : α → α → Bool) (a : List α)
    (hlen : 2 ≤ a.length) (pv : α) (hpv : a[a.length / 2]? = some pv)
    (hirr : cmp pv pv = false) (Q : Prop)
    (hasym : Q → ∀ x y, cmp x y = true → cmp y x = false) :
    ∃ b p, InPlaceQuickSortPartition cmp a = some (b, p) ∧ b.Perm a ∧ 1 ≤ p ∧ p < a.length ∧
      (Q → (∀ i y, i < p → b[i]? = some y → cmp pv y = false) ∧
        (∀ k y, p ≤ k → b[k]? = some y → cmp y pv = false)) := by
  obtain ⟨b, p, h, hperm, hp1, hp2, hord⟩ :=
    partition_loop_spec cmp pv Q hasym (a.length + 1) a 0 (a.length - 1)
      (by omega) (by omega) (by omega)
      ⟨a.length / 2, pv, Nat.zero_le _, hpv, hirr⟩
      ⟨a.length / 2, pv, by omega, hpv, hirr, Or.inr (by omega)⟩
      (fun _ i y hi _ => absurd hi (Nat.not_lt_zero i))
      (fun _ k y hk hy => by
        rw [List.getElem?_eq_none (by omega)] at hy
        exact absurd hy (by simp))
  refine ⟨b, p, ?_, hperm, hp1, hp2, hord⟩
  simp only [InPlaceQuickSortPartition, hpv, h]

theorem sorted_of_length_le_one [Preorder α] (l : List α) (h : l.length ≤ 1) :
    l.Sorted (· ≤ ·) := by
  rcases l with _ | ⟨a, _ | ⟨b, l⟩⟩
  · exact List.sorted_nil
  · exact List.sorted_singleton a
  · simp only [List.length_cons] at h
    omega

/-- `InPlaceQuickSort` with the comparator `<` of a total order sorts every range,
whatever `max_async_depth` and `depth` are, in a recursion of depth at most the
length of the range. -/
theorem InPlaceQuickSort_sorts [LinearOrder α] (fuel : Nat) :
    ∀ (range : List α) (max_async_depth depth : Int), range.length < fuel →
      ∃ sorted, InPlaceQuickSort (fun lhs rhs => decide (lhs < rhs)) fuel range
          max_async_depth depth = some sorted ∧
        sorted.Sorted (· ≤ ·) ∧ sorted.Perm range := by
  induction fuel with
  | zero => intro range _ _ h; exact absurd h (Nat.not_lt_zero _)
  | succ fuel ih =>
    intro range max_async_depth depth hfuel
    by_cases hlen : range.length > 1
    · have hmid : range.length / 2 < range.length := by omega
      obtain ⟨b, p, hpart, hperm, hp1, hp2, hord⟩ :=
        InPlaceQuickSortPartition_spec (fun lhs rhs : α => decide (lhs < rhs)) range hlen
          range[range.length / 2] (List.getElem?_eq_getElem hmid) (by simp) True
          (fun _ x y hxy => by
            have h1 : x < y := of_decide_eq_true hxy
            exact decide_eq_false (lt_asymm h1))
      obtain ⟨hordL, hordR⟩ := hord trivial
      have hblen : b.length = range.length := hperm.length_eq
      obtain ⟨l, hl, hls, hlp⟩ := ih (b.take p) max_async_depth (depth + 1)
        (by rw [List.length_take]; omega)
      obtain ⟨r, hr, hrs, hrp⟩ := ih (b.drop p) max_async_depth (depth + 1)
        (by rw [List.length_drop]; omega)
      refine ⟨l ++ r, ?_, ?_, ?_⟩
      · simp only [InPlaceQuickSort, hlen, if_true, hpart, hl, hr]
        split <;> rfl
      · refine List.pairwise_append.mpr ⟨hls, hrs, fun x hx y hy => ?_⟩
        obtain ⟨n, hn⟩ := List.mem_iff_getElem?.mp (hlp.subset hx)
        obtain ⟨m, hm⟩ := List.mem_iff_getElem?.mp (hrp.subset hy)
        rw [List.getElem?_take] at hn
        rw [List.getElem?_drop] at hm
        have hnp : n < p := by
          by_contra hnp
          rw [if_neg hnp] at hn
          exact absurd hn (by simp)
        rw [if_pos hnp] at hn
        have h1 : ¬ range[range.length / 2] < x := of_decide_eq_false (hordL n x hnp hn)
        have h2 : ¬ y < range[range.length / 2] :=
          of_decide_eq_false (hordR (p + m) y (Nat.le_add_right p m) hm)
        exact le_trans (not_lt.mp h1) (not_lt.mp h2)
      · refine (List.Perm.append hlp hrp).trans ?_
        rw [List.take_append_drop]
        exact hperm
    · refine ⟨range, ?_, sorted_of_length_le_one range (by omega), List.Perm.refl _⟩
      simp only [InPlaceQuickSort, hlen, if_false]

/-- The example of the specification: `[42, -9, 15, 3, -21]` is sorted to
`[-21, -9, 3, 15, 42]`; `max_async_depth` is 1, the integer part of `log(5)`. -/
theorem InPlaceQuickSort_example :
    InPlaceQuickSortDefault [42, -9, 15, 3, -21] 1 = some [-21, -9, 3, 15, (42 : Int)] := by
  decide

/-- C9. For every finite sequence over a totally ordered type, whatever
`max_async_depth` and `depth` are, `InPlaceQuickSort` with the comparator `<`
returns, the range it leaves is non-decreasing and a permutation of the input,
and it is the same range for every other `max_async_depth` and `depth`. -/
theorem C9_InPlaceQuickSort_sorts [LinearOrder α] (range : List α)
    (max_async_depth depth : Int) :
    ∃ sorted, InPlaceQuickSort (fun lhs rhs => decide (lhs < rhs)) (range.length + 1) range
        max_async_depth depth = some sorted ∧
      sorted.Sorted (· ≤ ·) ∧ sorted.Perm range ∧
      ∀ other_max_async_depth other_depth : Int,
        InPlaceQuickSort (fun lhs rhs => decide (lhs < rhs)) (range.length + 1) range
          other_max_async_depth other_depth = some sorted := by
  obtain ⟨sorted, h, hs, hp⟩ :=
    InPlaceQuickSort_sorts (range.length + 1) range max_async_depth depth (Nat.lt_succ_self _)
  refine ⟨sorted, h, hs, hp, fun m d => ?_⟩
  obtain ⟨other, h1, hs1, hp1⟩ :=
    InPlaceQuickSort_sorts (range.length + 1) range m d (Nat.lt_succ_self _)
  rw [h1, List.eq_of_perm_of_sorted (hp1.trans hp.symm) hs1 hs]

end in_place_quick_sort


/-! ## Theorems: the partition -/


namespace in_place_quick_sort

variable {α : Type}

/-- A strict weak order is asymmetric. -/
theorem StrictWeakOrder.asymmetric {cmp : α → α → Bool} (h : StrictWeakOrder cmp) (x y : α)
    (hxy : cmp x y = true) : cmp y x = false := by
  cases hyx : cmp y x with
  | false => rfl
  | true =>
    have := h.transitive x y x hxy hyx
    rw [h.irreflexive x] at this
    cases this

/-- The comparator `lhs < rhs` of a total order is a strict weak order. -/
theorem lt_strictWeakOrder [LinearOrder α] :
    StrictWeakOrder (fun lhs rhs : α => decide (lhs < rhs)) := by
  refine ⟨fun x => by simp, fun x y z hxy hyz => ?_, fun x y z h1 h2 h3 h4 => ?_⟩
  · exact decide_eq_true (lt_trans (of_decide_eq_true hxy) (of_decide_eq_true hyz))
  · have e1 : x = y := le_antisymm (not_lt.mp (of_decide_eq_false h2))
      (not_lt.mp (of_decide_eq_false h1))
    have e2 : y = z := le_antisymm (not_lt.mp (of_decide_eq_false h4))
      (not_lt.mp (of_decide_eq_false h3))
    subst e1; subst e2
    simp

/-- C27. For every range of at least two elements and every comparator that is a
strict weak order, `InPlaceQuickSortPartition` returns; its pivot value is the
element at position `length / 2` of the range; the range it leaves is a
permutation of the input; and the position `p` it returns is such that the
comparator puts no element of `[begin, p)` after the pivot value and no element
of `[p, end)` before it. -/
theorem C27_partition_postcondition (comparator : α → α → Bool)
    (hcmp : StrictWeakOrder comparator) (range : List α) (hlen : 2 ≤ range.length) :
    ∃ pivot_value partitioned p,
      range[range.length / 2]? = some pivot_value ∧
      InPlaceQuickSortPartition comparator range = some (partitioned, p) ∧
      partitioned.Perm range ∧ p ≤ range.length ∧
      (∀ i y, i < p → partitioned[i]? = some y → comparator pivot_value y = false) ∧
      (∀ k y, p ≤ k → partitioned[k]? = some y → comparator y pivot_value = false) := by
  have hmid : range.length / 2 < range.length := by omega
  obtain ⟨b, p, hpart, hperm, _, hp2, hord⟩ :=
    InPlaceQuickSortPartition_spec comparator range hlen range[range.length / 2]
      (List.getElem?_eq_getElem hmid) (hcmp.irreflexive _) True
      (fun _ x y hxy => hcmp.asymmetric x y hxy)
  exact ⟨range[range.length / 2], b, p, List.getElem?_eq_getElem hmid, hpart, hperm,
    Nat.le_of_lt hp2, (hord trivial).1, (hord trivial).2⟩

/-- C27, at the range `[42, -9, 15, 3, -21]` of the specification and the
comparator `<`: the pivot value is 15, the range left is `[-21, -9, 3, 15, 42]`
and the position returned is 3. -/
theorem C27_partition_postcondition_witness :
    StrictWeakOrder (fun lhs rhs : Int => decide (lhs < rhs)) ∧
    2 ≤ [42, -9, 15, 3, (-21 : Int)].length ∧
    InPlaceQuickSortPartition (fun lhs rhs : Int => decide (lhs < rhs)) [42, -9, 15, 3, -21] =
      some ([-21, -9, 3, 15, 42], 3) ∧
    ∃ pivot_value partitioned p,
      [42, -9, 15, 3, (-21 : Int)][[42, -9, 15, 3, (-21 : Int)].length / 2]? =
        some pivot_value ∧
      InPlaceQuickSortPartition (fun lhs rhs : Int => decide (lhs < rhs))
        [42, -9, 15, 3, -21] = some (partitioned, p) ∧
      partitioned.Perm [42, -9, 15, 3, -21] ∧ p ≤ [42, -9, 15, 3, (-21 : Int)].length ∧
      (∀ i y, i < p → partitioned[i]? = some y →
        (fun lhs rhs : Int => decide (lhs < rhs)) pivot_value y = false) ∧
      (∀ k y, p ≤ k → partitioned[k]? = some y →
        (fun lhs rhs : Int => decide (lhs < rhs)) y pivot_value = false) :=
  ⟨lt_strictWeakOrder, by decide, by decide,
    C27_partition_postcondition _ lt_strictWeakOrder [42, -9, 15, 3, -21] (by decide)⟩

end in_place_quick_sort

namespace in_place_quick_sort

variable {α : Type}

/-- `InPlaceQuickSortPartition` on a range of one element, for a comparator that
does not put the element before itself: both scans stop on the element. -/
theorem InPlaceQuickSortPartition_single (cmp : α → α → Bool) (x : α)
    (hirr : cmp x x = false) :
    InPlaceQuickSortPartition cmp [x] = some ([x], 0) := by
  simp [InPlaceQuickSortPartition, partition_loop, scan_left, scan_right, hirr]

/-- `InPlaceQuickSort` with an irreflexive comparator returns for every range, in
a recursion of depth at most the length of the range, and leaves a permutation
of the range. -/
theorem InPlaceQuickSort_terminates (cmp : α → α → Bool) (hirr : ∀ x, cmp x x = false)
    (fuel : Nat) :
    ∀ (range : List α) (max_async_depth depth : Int), range.length < fuel →
      ∃ result, InPlaceQuickSort cmp fuel range max_async_depth depth = some result ∧
        result.Perm range := by
  induction fuel with
  | zero => intro range _ _ h; exact absurd h (Nat.not_lt_zero _)
  | succ fuel ih =>
    intro range max_async_depth depth hfuel
    by_cases hlen : range.length > 1
    · have hmid : range.length / 2 < range.length := by omega
      obtain ⟨b, p, hpart, hperm, hp1, hp2, _⟩ :=
        InPlaceQuickSortPartition_spec cmp range hlen range[range.length / 2]
          (List.getElem?_eq_getElem hmid) (hirr _) False (fun h => h.elim)
      have hblen : b.length = range.length := hperm.length_eq
      obtain ⟨l, hl, hlp⟩ := ih (b.take p) max_async_depth (depth + 1)
        (by rw [List.length_take]; omega)
      obtain ⟨r, hr, hrp⟩ := ih (b.drop p) max_async_depth (depth + 1)
        (by rw [List.length_drop]; omega)
      refine ⟨l ++ r, ?_, ?_⟩
      · simp only [InPlaceQuickSort, hlen, if_true, hpart, hl, hr]
        split <;> rfl
      · refine (List.Perm.append hlp hrp).trans ?_
        rw [List.take_append_drop]
        exact hperm
    · exact ⟨range, by simp only [InPlaceQuickSort, hlen, if_false], List.Perm.refl _⟩

/-- C28. For every non-empty range and every irreflexive comparator,
`InPlaceQuickSortPartition` returns: no scan dereferences a cursor outside
`[begin, end)`, in the first pass or after a swap.  In the first pass the left
scan stops at or before the pivot position and the right scan at or after it,
and the position returned is at most `end - 1`. -/
theorem C28_partition_in_bounds (comparator : α → α → Bool)
    (hirr : ∀ x, comparator x x = false) (range : List α) (hne : range ≠ []) :
    ∃ pivot_value partitioned p left right,
      range[range.length / 2]? = some pivot_value ∧
      InPlaceQuickSortPartition comparator range = some (partitioned, p) ∧
      p ≤ range.length - 1 ∧ partitioned.length = range.length ∧
      scan_left comparator range pivot_value (range.length + 1) 0 = some left ∧
      left ≤ range.length / 2 ∧
      scan_right comparator range pivot_value (range.length - 1) = some right ∧
      range.length / 2 ≤ right ∧ right ≤ range.length - 1 := by
  have hpos : 0 < range.length := List.length_pos.mpr hne
  have hmid : range.length / 2 < range.length := Nat.div_lt_self hpos (by decide)
  have hpv := List.getElem?_eq_getElem hmid
  obtain ⟨l1, _, hl, _, hl2, _⟩ :=
    scan_left_spec comparator range range[range.length / 2] (range.length / 2) _ hpv
      (hirr _) (range.length + 1) 0 (Nat.zero_le _) (by omega)
  obtain ⟨r1, _, hr, hr1, hr2, _⟩ :=
    scan_right_spec comparator range range[range.length / 2] (range.length / 2) _ hpv
      (hirr _) (range.length - 1) (by omega) (by omega)
  by_cases hlen : 2 ≤ range.length
  · obtain ⟨b, p, hpart, hperm, _, hp2, _⟩ :=
      InPlaceQuickSortPartition_spec comparator range hlen range[range.length / 2] hpv
        (hirr _) False (fun h => h.elim)
    exact ⟨_, b, p, l1, r1, hpv, hpart, by omega, hperm.length_eq, hl, hl2, hr, hr1, hr2⟩
  · obtain ⟨x, hx⟩ : ∃ x, range = [x] := by
      rcases range with _ | ⟨x, _ | ⟨y, rest⟩⟩
      · exact absurd rfl hne
      · exact ⟨x, rfl⟩
      · simp only [List.length_cons] at hlen
        omega
    subst hx
    exact ⟨_, [x], 0, l1, r1, hpv, InPlaceQuickSortPartition_single comparator x (hirr x),
      Nat.le_refl _, rfl, hl, hl2, hr, hr1, hr2⟩

/-- C28, at the range `[42, -9, 15, 3, -21]` and the comparator `<`: in the
first pass the left scan stops at position 0 and the right scan at position 4. -/
theorem C28_partition_in_bounds_witness :
    (∀ x : Int, (fun lhs rhs : Int => decide (lhs < rhs)) x x = false) ∧
    [42, -9, 15, 3, (-21 : Int)] ≠ [] ∧
    scan_left (fun lhs rhs : Int => decide (lhs < rhs)) [42, -9, 15, 3, -21] 15 6 0 = some 0 ∧
    scan_right (fun lhs rhs : Int => decide (lhs < rhs)) [42, -9, 15, 3, -21] 15 4 = some 4 ∧
    ∃ pivot_value partitioned p left right,
      [42, -9, 15, 3, (-21 : Int)][[42, -9, 15, 3, (-21 : Int)].length / 2]? =
        some pivot_value ∧
      InPlaceQuickSortPartition (fun lhs rhs : Int => decide (lhs < rhs))
        [42, -9, 15, 3, -21] = some (partitioned, p) ∧
      p ≤ [42, -9, 15, 3, (-21 : Int)].length - 1 ∧
      partitioned.length = [42, -9, 15, 3, (-21 : Int)].length ∧
      scan_left (fun lhs rhs : Int => decide (lhs < rhs)) [42, -9, 15, 3, -21] pivot_value
        ([42, -9, 15, 3, (-21 : Int)].length + 1) 0 = some left ∧
      left ≤ [42, -9, 15, 3, (-21 : Int)].length / 2 ∧
      scan_right (fun lhs rhs : Int => decide (lhs < rhs)) [42, -9, 15, 3, -21] pivot_value
        ([42, -9, 15, 3, (-21 : Int)].length - 1) = some right ∧
      [42, -9, 15, 3, (-21 : Int)].length / 2 ≤ right ∧
      right ≤ [42, -9, 15, 3, (-21 : Int)].length - 1 :=
  ⟨fun x => by simp, by decide, by decide, by decide,
    C28_partition_in_bounds _ (fun x => by simp) [42, -9, 15, 3, -21] (by decide)⟩

/-- C29. For every range of `n >= 2` elements and every irreflexive comparator,
`InPlaceQuickSortPartition` returns a position `p` with `begin < p < end`: the
ranges `[begin, p)` and `[p, end)` of the two recursive calls are non-empty and
shorter than `n`; and `InPlaceQuickSort` returns on the range, in a recursion
that is at most `n` calls deep, whatever `max_async_depth` and `depth` are. -/
theorem C29_quick_sort_terminates (comparator : α → α → Bool)
    (hirr : ∀ x, comparator x x = false) (range : List α) (hlen : 2 ≤ range.length)
    (max_async_depth depth : Int) :
    (∃ partitioned p, InPlaceQuickSortPartition comparator range = some (partitioned, p) ∧
      0 < p ∧ p < range.length ∧
      0 < (partitioned.take p).length ∧ (partitioned.take p).length < range.length ∧
      0 < (partitioned.drop p).length ∧ (partitioned.drop p).length < range.length) ∧
    ∃ result, InPlaceQuickSort comparator (range.length + 1) range max_async_depth depth =
        some result ∧ result.Perm range := by
  have hmid : range.length / 2 < range.length := by omega
  obtain ⟨b, p, hpart, hperm, hp1, hp2, _⟩ :=
    InPlaceQuickSortPartition_spec comparator range hlen range[range.length / 2]
      (List.getElem?_eq_getElem hmid) (hirr _) False (fun h => h.elim)
  have hblen : b.length = range.length := hperm.length_eq
  refine ⟨⟨b, p, hpart, by omega, hp2, ?_, ?_, ?_, ?_⟩,
    InPlaceQuickSort_terminates comparator hirr (range.length + 1) range max_async_depth depth
      (Nat.lt_succ_self _)⟩
  · rw [List.length_take]; omega
  · rw [List.length_take]; omega
  · rw [List.length_drop]; omega
  · rw [List.length_drop]; omega

/-- C29, at the range `[42, -9, 15, 3, -21]` and the comparator `<`: the position
returned is 3, strictly inside the range. -/
theorem C29_quick_sort_terminates_witness :
    (∀ x : Int, (fun lhs rhs : Int => decide (lhs < rhs)) x x = false) ∧
    2 ≤ [42, -9, 15, 3, (-21 : Int)].length ∧
    (InPlaceQuickSortPartition (fun lhs rhs : Int => decide (lhs < rhs))
      [42, -9, 15, 3, -21]).map (·.2) = some 3 ∧
    ((∃ partitioned p, InPlaceQuickSortPartition (fun lhs rhs : Int => decide (lhs < rhs))
        [42, -9, 15, 3, -21] = some (partitioned, p) ∧
      0 < p ∧ p < [42, -9, 15, 3, (-21 : Int)].length ∧
      0 < (partitioned.take p).length ∧
      (partitioned.take p).length < [42, -9, 15, 3, (-21 : Int)].length ∧
      0 < (partitioned.drop p).length ∧
      (partitioned.drop p).length < [42, -9, 15, 3, (-21 : Int)].length) ∧
    ∃ result, InPlaceQuickSort (fun lhs rhs : Int => decide (lhs < rhs))
        ([42, -9, 15, 3, (-21 : Int)].length + 1) [42, -9, 15, 3, -21] 1 0 = some result ∧
      result.Perm [42, -9, 15, 3, -21]) :=
  ⟨fun x => by simp, by decide, by decide,
    C29_quick_sort_terminates _ (fun x => by simp) [42, -9, 15, 3, -21] (by decide) 1 0⟩

end in_place_quick_sort
